import Mathlib

/-!
Socket buffer queue of `lualib-src/lua-socket.c`.

A shallow embedding of the chained buffer pool and its streaming readers
(`lpushbuffer`, `lpopbuffer`, `lreadline`, `lreadall`, `lclearbuffer`,
`lheader` and their helpers).

Conventions of the embedding:

* A `struct buffer_node *` is `Option Nat`: `none` is `NULL`, `some a` is the
  node stored at index `a` of `State.nodes`.  Slabs are appended to that
  store, so `&pool[i]` of a slab at base `b` is `some (b + i)`.
* A `char *` message is `Option raw_block`; the block carries its address
  (for the log of `skynet_free` calls) and its bytes.
* A C `int` has 32 bits.  A Lua integer argument is converted by `to_int`
  where the source assigns `luaL_checkinteger` to an `int` (the sizes of
  `lpushbuffer` and `lpopbuffer`), and `sb->size += sz` is reduced by `to_int`
  as well, so a size that passes `2 ^ 31 - 1` wraps.  The other `int`
  computations (`offset += sz`, `size -= sz`, the counters of the scans, the
  cast `(int)seplen`) are written without reduction: on the states the
  theorems are about their results lie between values that are `int`s
  already.  A negative `int` passed where C takes a `size_t` is a huge request
  and faults.  The `size_t` accumulator of `lheader` is kept modulo `2 ^ 64`.
* Every function returns `Except Fault _`.  A `Fault` is a raised Lua error, a
  failed `assert`, or an access the C code may not make.  The unbounded loops
  (`for (;;)`, `while (sb->head)`) take a fuel argument and fail with
  `Fault.out_of_fuel` when it runs out.
* The values a C function leaves for Lua are a `List lua_ret`.
* Argument 1 is a `lua_value`; argument 2 is `pool_is_table`, which says whether
  the pool table was passed (`luaL_checktype`, and the check-only mode of
  `lreadline`).  The pool table itself is part of `State`.
* `lpushbuffer` is embedded in two parts: the argument checks with the slab
  allocation, and `lpushbuffer_link` for the rest of the function body.
-/

namespace LuaSocket

/-! ## Data model -/

/-- LARGE_PAGE_NODE of the source: the largest slab has `2 ^ 12` nodes. -/
def LARGE_PAGE_NODE : Nat := 12

/-- POOL_SIZE_WARNING of the source. -/
def POOL_SIZE_WARNING : Nat := 32

/-- A heap block handed over by the socket engine: its address and bytes. -/
structure raw_block where
  addr : Nat
  bytes : List UInt8
deriving DecidableEq, Repr

/-- The C `struct buffer_node`. -/
structure buffer_node where
  msg : Option raw_block
  sz : Int
  next : Option Nat
deriving DecidableEq, Repr

/-- The C `struct socket_buffer`. -/
structure socket_buffer where
  size : Int
  offset : Int
  head : Option Nat
  tail : Option Nat
deriving DecidableEq, Repr

/-- A slab recorded in the pool table: base address and number of nodes. -/
structure chunk where
  base : Nat
  count : Nat
deriving DecidableEq, Repr

/-- The memory the functions work on: the node store, the log of
`skynet_free` calls (newest first), the pool table (`pool[1]` is `free_node`,
`pool[2..]` are the slabs) and the `skynet_error` log (newest first). -/
structure State where
  nodes : List buffer_node
  freed : List Nat
  free_node : Option Nat
  chunks : List chunk
  warnings : List Nat
deriving DecidableEq, Repr

/-- What went wrong when a call does not return normally. -/
inductive Fault where
  | lua_error
  | assert_failed
  | null_deref
  | wild_pointer
  | out_of_bounds
  | out_of_fuel
deriving DecidableEq, Repr

/-- A Lua value as seen by `lua_touserdata` and `lua_isnil` on argument 1. -/
inductive lua_value where
  | nil
  | other
  | userdata (sb : socket_buffer)
deriving DecidableEq, Repr

/-- A value pushed on the Lua stack as a result. -/
inductive lua_ret where
  | nil
  | boolean (b : Bool)
  | integer (n : Int)
  | string (s : List UInt8)
deriving DecidableEq, Repr

/-! ## Memory primitives -/

/-- The value of a Lua integer or of an `int` sum as a C `int`: the low 32
bits, read as a signed number in two's complement (`int sz =
luaL_checkinteger(L, n)`, `sb->size += sz`). -/
def to_int (x : Int) : Int :=
  (x + 2147483648) % 4294967296 - 2147483648

/-- Read `*p` for a node pointer `p`. -/
def deref (L : State) (p : Option Nat) : Except Fault buffer_node :=
  match p with
  | none => .error .null_deref
  | some a =>
    match L.nodes[a]? with
    | none => .error .wild_pointer
    | some n => .ok n

/-- Write the node at address `a`. -/
def store (L : State) (a : Nat) (n : buffer_node) : State :=
  { L with nodes := L.nodes.set a n }

/-- The bytes `p[from .. from+len)` of a block; `len` is a `size_t` in C, so a
negative `int` is a huge request. Nothing is read when `len = 0`. -/
def read_bytes (msg : Option raw_block) (frm len : Int) : Except Fault (List UInt8) :=
  if len < 0 then .error .lua_error
  else if len = 0 then .ok []
  else
    match msg with
    | none => .error .null_deref
    | some b =>
      if frm < 0 ∨ (b.bytes.length : Int) < frm + len then .error .out_of_bounds
      else .ok ((b.bytes.drop frm.toNat).take len.toNat)

/-- The call `lua_pushlstring(L, msg + from, len)`: the string pushed. -/
def lua_pushlstring (msg : Option raw_block) (frm len : Int) : Except Fault (List UInt8) :=
  read_bytes msg frm len

/-- The call `luaL_addlstring(&b, msg + from, len)`: the buffer afterwards. -/
def luaL_addlstring (b : List UInt8) (msg : Option raw_block) (frm len : Int) :
    Except Fault (List UInt8) :=
  match read_bytes msg frm len with
  | .error e => .error e
  | .ok s => .ok (b ++ s)

/-- The call `skynet_free(msg)`: logged, and a no-op on `NULL`. -/
def skynet_free (L : State) (msg : Option raw_block) : State :=
  match msg with
  | none => L
  | some b => { L with freed := b.addr :: L.freed }

/-- The call `memcmp(msg + from, sep + sepoff, n) == 0`. -/
def memcmp_eq (msg : Option raw_block) (frm : Int) (sep : List UInt8) (sepoff n : Int) :
    Except Fault Bool :=
  if n < 0 then .error .out_of_bounds
  else if n = 0 then .ok true
  else
    match msg with
    | none => .error .null_deref
    | some b =>
      if frm < 0 ∨ (b.bytes.length : Int) < frm + n then .error .out_of_bounds
      else if sepoff < 0 ∨ (sep.length : Int) < sepoff + n then .error .out_of_bounds
      else .ok (decide ((b.bytes.drop frm.toNat).take n.toNat
                        = (sep.drop sepoff.toNat).take n.toNat))

/-- The call `lua_touserdata(L, 1)`: `NULL` unless the value is a userdata. -/
def lua_touserdata (v : lua_value) : Option socket_buffer :=
  match v with
  | .userdata sb => some sb
  | _ => none

/-- The call `lua_rawlen(L, pool_index)` on the pool table. -/
def lua_rawlen (L : State) : Nat :=
  match L.chunks with
  | [] => 0
  | cs => cs.length + 1

/-! ## The functions of the source -/

/-- The C function `lnewpool`: a slab of `sz` nodes appended to the store,
chained through `next`, the last one ending the chain. Returns its address. -/
def lnewpool (L : State) (sz : Nat) : Nat × State :=
  let base := L.nodes.length
  let pool : List buffer_node :=
    (List.range sz).map fun i => { msg := none, sz := 0, next := some (base + i + 1) }
  let pool := pool.modify (fun n => { n with next := none }) (sz - 1)
  (base, { L with nodes := L.nodes ++ pool })

/-- The C function `lnewbuffer`. -/
def lnewbuffer : socket_buffer :=
  { size := 0, offset := 0, head := none, tail := none }

/-- The second half of the C function `lpushbuffer`, from
`lua_pushlightuserdata(L, free_node->next)` on: `free_node` leaves the free
list, takes the message and is linked at the tail of the queue. -/
def lpushbuffer_link (sb : socket_buffer) (msg : Option raw_block) (sz : Int)
    (free_node : Option Nat) (L : State) : Except Fault (List lua_ret × socket_buffer × State) :=
  match free_node, deref L free_node with
  | some f, .ok n =>
    let L := { L with free_node := n.next }
    let L := store L f { msg := msg, sz := sz, next := none }
    let linked : Except Fault (socket_buffer × State) :=
      if sb.head = none then
        if sb.tail = none then .ok ({ sb with head := some f, tail := some f }, L)
        else .error .assert_failed
      else
        match sb.tail, deref L sb.tail with
        | some t, .ok tn => .ok ({ sb with tail := some f }, store L t { tn with next := some f })
        | _, .error e => .error e
        | none, .ok _ => .error .null_deref
    match linked with
    | .error e => .error e
    | .ok (sb, L) =>
      let sb := { sb with size := to_int (sb.size + sz) }
      .ok ([.integer sb.size], sb, L)
  | _, .error e => .error e
  | none, .ok _ => .error .null_deref

/-- The C function `lpushbuffer`: the argument checks, `int sz =
luaL_checkinteger(L,4)`, and the allocation of a new slab when the free list
is empty; `lpushbuffer_link` is the rest. -/
def lpushbuffer (arg1 : lua_value) (pool_is_table : Bool) (msg : Option raw_block) (sz : Int)
    (L : State) : Except Fault (List lua_ret × socket_buffer × State) :=
  match lua_touserdata arg1 with
  | none => .error .lua_error
  | some sb =>
    if msg = none then .error .lua_error
    else if !pool_is_table then .error .lua_error
    else
      let sz := to_int sz
      if L.free_node = none then
        let tsz := lua_rawlen L
        let tsz := if tsz = 0 then tsz + 1 else tsz
        let size := if tsz ≤ LARGE_PAGE_NODE - 3 then 8 <<< tsz else 8 <<< (LARGE_PAGE_NODE - 3)
        let (p, L1) := lnewpool L size
        let L2 := { L1 with chunks := L1.chunks ++ [{ base := p, count := size }] }
        let L3 : State :=
          if tsz > POOL_SIZE_WARNING then { L2 with warnings := tsz :: L2.warnings } else L2
        lpushbuffer_link sb msg sz (some p) L3
      else lpushbuffer_link sb msg sz L.free_node L

/-- The C function `return_free_node`: unlink the head node, release its
block and put the node on the free list. -/
def return_free_node (sb : socket_buffer) (L : State) : Except Fault (socket_buffer × State) :=
  match sb.head, deref L sb.head with
  | some f, .ok free_node =>
    let sb := { sb with offset := 0, head := free_node.next }
    let sb := if sb.head = none then { sb with tail := none } else sb
    let next := L.free_node
    let L := skynet_free L free_node.msg
    let L := store L f { msg := none, sz := 0, next := next }
    .ok (sb, { L with free_node := some f })
  | _, .error e => .error e
  | none, .ok _ => .error .null_deref

/-- The `for (;;)` loop of `pop_lstring`; `b` is the `luaL_Buffer`. -/
def pop_lstring_loop : Nat → List UInt8 → socket_buffer → State → Int → Int →
    Except Fault (List UInt8 × socket_buffer × State)
  | 0, _, _, _, _, _ => .error .out_of_fuel
  | fuel + 1, b, sb, L, sz, skip =>
    match deref L sb.head with
    | .error e => .error e
    | .ok current =>
      let bytes := current.sz - sb.offset
      if bytes ≥ sz then
        match (if sz > skip then luaL_addlstring b current.msg sb.offset (sz - skip) else .ok b) with
        | .error e => .error e
        | .ok b =>
          let sb := { sb with offset := sb.offset + sz }
          if bytes = sz then
            match return_free_node sb L with
            | .error e => .error e
            | .ok (sb, L) => .ok (b, sb, L)
          else .ok (b, sb, L)
      else
        let real_sz := sz - skip
        match (if real_sz > 0 then
                 luaL_addlstring b current.msg sb.offset (if real_sz < bytes then real_sz else bytes)
               else .ok b) with
        | .error e => .error e
        | .ok b =>
          match return_free_node sb L with
          | .error e => .error e
          | .ok (sb, L) =>
            let sz := sz - bytes
            if sz = 0 then .ok (b, sb, L)
            else if sb.head = none then .error .assert_failed
            else pop_lstring_loop fuel b sb L sz skip

/-- The C function `pop_lstring`: the string it pushes, and the state left. -/
def pop_lstring (fuel : Nat) (sb : socket_buffer) (sz skip : Int) (L : State) :
    Except Fault (List UInt8 × socket_buffer × State) :=
  match deref L sb.head with
  | .error e => .error e
  | .ok current =>
    if sz < current.sz - sb.offset then
      match lua_pushlstring current.msg sb.offset (sz - skip) with
      | .error e => .error e
      | .ok s => .ok (s, { sb with offset := sb.offset + sz }, L)
    else if sz = current.sz - sb.offset then
      match lua_pushlstring current.msg sb.offset (sz - skip) with
      | .error e => .error e
      | .ok s =>
        match return_free_node sb L with
        | .error e => .error e
        | .ok (sb, L) => .ok (s, sb, L)
    else if sz < 0 then .error .lua_error
    else pop_lstring_loop fuel [] sb L sz skip

/-- The shift-and-or loop of `lheader` on a 64-bit `size_t`. -/
def lheader_loop (s : List UInt8) (sz : Nat) : Nat :=
  s.foldl (fun sz c => ((sz <<< 8) % 2 ^ 64) ||| c.toNat) sz

/-- The cast `(lua_Integer)sz` of a 64-bit `size_t`. -/
def to_lua_Integer (sz : Nat) : Int :=
  if sz < 2 ^ 63 then (sz : Int) else (sz : Int) - 2 ^ 64

/-- The C function `lheader`. -/
def lheader (s : List UInt8) : Except Fault (List lua_ret) :=
  let len := s.length
  if len > 4 ∨ len < 1 then .error .lua_error
  else .ok [.integer (to_lua_Integer (lheader_loop s 0))]

/-- The C function `lpopbuffer`; `int sz = luaL_checkinteger(L,3)` keeps the
low 32 bits of the argument. -/
def lpopbuffer (fuel : Nat) (arg1 : lua_value) (pool_is_table : Bool) (sz : Int) (L : State) :
    Except Fault (List lua_ret × socket_buffer × State) :=
  match lua_touserdata arg1 with
  | none => .error .lua_error
  | some sb =>
    if !pool_is_table then .error .lua_error
    else
      let sz := to_int sz
      if sb.size < sz ∨ sz = 0 then .ok ([.nil, .integer sb.size], sb, L)
      else
        match pop_lstring fuel sb sz 0 L with
        | .error e => .error e
        | .ok (s, sb, L) =>
          let sb := { sb with size := sb.size - sz }
          .ok ([.string s, .integer sb.size], sb, L)

/-- The loop `while (sb->head) return_free_node(L,2,sb);` of `lclearbuffer`. -/
def lclearbuffer_loop : Nat → socket_buffer → State → Except Fault (socket_buffer × State)
  | 0, sb, L => if sb.head = none then .ok (sb, L) else .error .out_of_fuel
  | fuel + 1, sb, L =>
    if sb.head = none then .ok (sb, L)
    else
      match return_free_node sb L with
      | .error e => .error e
      | .ok (sb, L) => lclearbuffer_loop fuel sb L

/-- The C function `lclearbuffer`; the first component is argument 1 after
the call. -/
def lclearbuffer (fuel : Nat) (arg1 : lua_value) (pool_is_table : Bool) (L : State) :
    Except Fault (List lua_ret × lua_value × State) :=
  match lua_touserdata arg1 with
  | none => if arg1 = .nil then .ok ([], arg1, L) else .error .lua_error
  | some sb =>
    if !pool_is_table then .error .lua_error
    else
      match lclearbuffer_loop fuel sb L with
      | .error e => .error e
      | .ok (sb, L) => .ok ([], .userdata { sb with size := 0 }, L)

/-- The `while (sb->head)` loop of `lreadall`; `b` is the `luaL_Buffer`. -/
def lreadall_loop : Nat → List UInt8 → socket_buffer → State →
    Except Fault (List UInt8 × socket_buffer × State)
  | 0, b, sb, L => if sb.head = none then .ok (b, sb, L) else .error .out_of_fuel
  | fuel + 1, b, sb, L =>
    if sb.head = none then .ok (b, sb, L)
    else
      match deref L sb.head with
      | .error e => .error e
      | .ok current =>
        match luaL_addlstring b current.msg sb.offset (current.sz - sb.offset) with
        | .error e => .error e
        | .ok b =>
          match return_free_node sb L with
          | .error e => .error e
          | .ok (sb, L) => lreadall_loop fuel b sb L

/-- The C function `lreadall`. -/
def lreadall (fuel : Nat) (arg1 : lua_value) (pool_is_table : Bool) (L : State) :
    Except Fault (List lua_ret × socket_buffer × State) :=
  match lua_touserdata arg1 with
  | none => .error .lua_error
  | some sb =>
    if !pool_is_table then .error .lua_error
    else
      match lreadall_loop fuel [] sb L with
      | .error e => .error e
      | .ok (b, sb, L) => .ok ([.string b], { sb with size := 0 }, L)

/-- The C function `check_sep`; the pointer `sep` is the pair of the
separator and an offset `sepoff` into it. -/
def check_sep : Nat → State → Option Nat → Int → List UInt8 → Int → Int → Except Fault Bool
  | 0, _, _, _, _, _, _ => .error .out_of_fuel
  | fuel + 1, L, node, frm, sep, sepoff, seplen =>
    match deref L node with
    | .error e => .error e
    | .ok n =>
      let sz := n.sz - frm
      if sz ≥ seplen then memcmp_eq n.msg frm sep sepoff seplen
      else
        match (if sz > 0 then memcmp_eq n.msg frm sep sepoff sz else .ok true) with
        | .error e => .error e
        | .ok false => .ok false
        | .ok true => check_sep fuel L n.next 0 sep (sepoff + sz) (seplen - sz)

/-- The `for (i=0;i<=sb->size - (int)seplen;i++)` loop of `lreadline`. -/
def lreadline_loop (check : Bool) (sep : List UInt8) (sb : socket_buffer) (L : State) :
    Nat → Int → Option Nat → Int → Int → Except Fault (List lua_ret × socket_buffer × State)
  | 0, _, _, _, _ => .error .out_of_fuel
  | fuel + 1, i, current, frm, bytes =>
    let seplen : Int := sep.length
    if i ≤ sb.size - seplen then
      match check_sep (fuel + 1) L current frm sep 0 seplen with
      | .error e => .error e
      | .ok true =>
        if check then .ok ([.boolean true], sb, L)
        else
          match pop_lstring (fuel + 1) sb (i + seplen) seplen L with
          | .error e => .error e
          | .ok (s, sb, L) => .ok ([.string s], { sb with size := sb.size - (i + seplen) }, L)
      | .ok false =>
        let frm := frm + 1
        let bytes := bytes - 1
        if bytes = 0 then
          match deref L current with
          | .error e => .error e
          | .ok c =>
            let current := c.next
            if current = none then .ok ([], sb, L)
            else
              match deref L current with
              | .error e => .error e
              | .ok c => lreadline_loop check sep sb L fuel (i + 1) current 0 c.sz
        else lreadline_loop check sep sb L fuel (i + 1) current frm bytes
    else .ok ([], sb, L)

/-- The C function `lreadline`; `pool_is_table = false` is the check-only
mode. -/
def lreadline (fuel : Nat) (arg1 : lua_value) (pool_is_table : Bool) (sep : List UInt8)
    (L : State) : Except Fault (List lua_ret × socket_buffer × State) :=
  match lua_touserdata arg1 with
  | none => .error .lua_error
  | some sb =>
    let check := !pool_is_table
    match sb.head, deref L sb.head with
    | none, _ => .ok ([], sb, L)
    | some _, .error e => .error e
    | some c, .ok current =>
      let frm := sb.offset
      let bytes := current.sz - frm
      lreadline_loop check sep sb L fuel 0 (some c) frm bytes

/-! ## Reading a state: linked nodes and unread bytes -/

/-- Following `next` from `p` visits exactly the addresses `as`, in order,
and then arrives at `q`. -/
def seg (nodes : List buffer_node) : Option Nat → List Nat → Option Nat → Bool
  | p, [], q => decide (p = q)
  | p, a :: as, q =>
    decide (p = some a) &&
      (match nodes[a]? with
       | some n => seg nodes n.next as q
       | none => false)

/-- The chain starting at `p` is exactly `as` and ends with `NULL`. -/
def linked (nodes : List buffer_node) (p : Option Nat) (as : List Nat) : Bool :=
  seg nodes p as none

/-- The bytes of the block held by the node at `a` (empty for no block). -/
def block_of (nodes : List buffer_node) (a : Nat) : List UInt8 :=
  match nodes[a]? with
  | some n =>
    (match n.msg with
     | some b => b.bytes
     | none => [])
  | none => []

/-- The node at `a` holds a block and its `sz` is the block's true length. -/
def holds (nodes : List buffer_node) (a : Nat) : Bool :=
  match nodes[a]? with
  | some n =>
    (match n.msg with
     | some b => decide ((b.bytes.length : Int) = n.sz)
     | none => false)
  | none => false

/-- The blocks of the nodes `as`, concatenated. -/
def chain_bytes (nodes : List buffer_node) : List Nat → List UInt8
  | [] => []
  | a :: as => block_of nodes a ++ chain_bytes nodes as

/-- The unread byte sequence of a queue whose linked nodes are `as`: the head
block from `offset` on, then the later blocks in full. -/
def unread (L : State) (sb : socket_buffer) (as : List Nat) : List UInt8 :=
  (chain_bytes L.nodes as).drop sb.offset.toNat

/-- The length of the head block (0 when no node is linked). -/
def head_len (nodes : List buffer_node) : List Nat → Nat
  | [] => 0
  | a :: _ => (block_of nodes a).length

/-- The queue `sb` is well formed in `L` and links exactly the nodes `as`:
`head` starts a `NULL`-terminated chain through `as`, `tail` is its last
node, every linked node holds a block of its recorded length, and `offset`
lies inside the head block. -/
structure queue_ok (L : State) (sb : socket_buffer) (as : List Nat) : Prop where
  chain : linked L.nodes sb.head as = true
  last : sb.tail = as.getLast?
  blocks : ∀ a ∈ as, holds L.nodes a = true
  offset_lo : 0 ≤ sb.offset
  offset_hi : sb.offset ≤ (head_len L.nodes as : Int)

/-- What `return_free_node` does to the memory when the head node is `a`. -/
def release (L : State) (a : Nat) : State :=
  match L.nodes[a]? with
  | none => L
  | some n =>
    { store (skynet_free L n.msg) a { msg := none, sz := 0, next := L.free_node } with
      free_node := some a }

/-- The memory after the nodes `as` were returned to the pool in order. -/
def release_all (L : State) : List Nat → State
  | [] => L
  | a :: as => release_all (release L a) as

/-- The memory after the allocation branch of `lpushbuffer` (taken when the
free list is empty), with the first node of the new slab as `free_node`. -/
def grow (L : State) : State :=
  let tsz := lua_rawlen L
  let tsz := if tsz = 0 then tsz + 1 else tsz
  let size := if tsz ≤ LARGE_PAGE_NODE - 3 then 8 <<< tsz else 8 <<< (LARGE_PAGE_NODE - 3)
  let (p, L1) := lnewpool L size
  let L2 := { L1 with chunks := L1.chunks ++ [{ base := p, count := size }] }
  let L3 : State :=
    if tsz > POOL_SIZE_WARNING then { L2 with warnings := tsz :: L2.warnings } else L2
  { L3 with free_node := some p }

/-- The number of nodes of the slab that `grow` allocates. -/
def grow_size (L : State) : Nat :=
  let tsz := lua_rawlen L
  let tsz := if tsz = 0 then tsz + 1 else tsz
  if tsz ≤ LARGE_PAGE_NODE - 3 then 8 <<< tsz else 8 <<< (LARGE_PAGE_NODE - 3)

/-- Push the blocks in order on the queue, each with its true length. -/
def push_all : List raw_block → socket_buffer → State → Except Fault (socket_buffer × State)
  | [], sb, L => .ok (sb, L)
  | B :: Bs, sb, L =>
    match lpushbuffer (.userdata sb) true (some B) B.bytes.length L with
    | .error e => .error e
    | .ok (_, sb, L) => push_all Bs sb L

/-- Make the calls `pop(k1)`, ..., `pop(km)` in order and collect the first value
each one returns: `some s` for a string `s`, `none` for nil. -/
def pop_all (fuel : Nat) : List Int → socket_buffer → State →
    Except Fault (List (Option (List UInt8)) × socket_buffer × State)
  | [], sb, L => .ok ([], sb, L)
  | k :: ks, sb, L =>
    match lpopbuffer fuel (.userdata sb) true k L with
    | .error e => .error e
    | .ok (r, sb, L) =>
      match pop_all fuel ks sb L with
      | .error e => .error e
      | .ok (rs, sb, L) =>
        .ok ((match r with
              | .string s :: _ => some s
              | _ => none) :: rs, sb, L)

/-- The big-endian value of a byte sequence: the sum of `b[i] * 256 ^ (n-1-i)`. -/
def big_endian (b : List UInt8) : Nat :=
  ((List.range b.length).map fun i => (b.getD i 0).toNat * 256 ^ (b.length - 1 - i)).sum

/-- A two-node queue used to instantiate the theorems: blocks `[1,2]` and
`[3,4,5]` at node addresses 0 and 1, one free node at address 2. -/
def demo_state : State :=
  { nodes := [{ msg := some { addr := 100, bytes := [1, 2] }, sz := 2, next := some 1 },
              { msg := some { addr := 200, bytes := [3, 4, 5] }, sz := 3, next := none },
              { msg := none, sz := 0, next := none }],
    freed := [], free_node := some 2, chunks := [{ base := 0, count := 3 }], warnings := [] }

/-- The queue over `demo_state`: five unread bytes, nothing consumed yet. -/
def demo_queue : socket_buffer :=
  { size := 5, offset := 0, head := some 0, tail := some 1 }

/-- An empty pool table and an empty node store. -/
def fresh_state : State :=
  { nodes := [], freed := [], free_node := none, chunks := [], warnings := [] }

/-- The memory after `"ab"` and then `"c\nd"` were pushed on a new queue over
`fresh_state`: the first slab of 16 nodes, two of them in use. -/
def line_state : State :=
  { nodes :=
      [{ msg := some { addr := 100, bytes := [97, 98] }, sz := 2, next := some 1 },
       { msg := some { addr := 200, bytes := [99, 10, 100] }, sz := 3, next := none }]
      ++ (List.range 14).map fun i =>
          { msg := none, sz := 0, next := if i = 13 then none else some (i + 3) },
    freed := [], free_node := some 2, chunks := [{ base := 0, count := 16 }], warnings := [] }

/-- The queue after those two pushes. -/
def line_queue : socket_buffer :=
  { size := 5, offset := 0, head := some 0, tail := some 1 }

/-- A block of `2 ^ 31 - 1` zero bytes: the largest length a C `int` holds. -/
def big_block : raw_block :=
  { addr := 100, bytes := List.replicate 2147483647 0 }

/-- A block of one byte. -/
def one_block : raw_block :=
  { addr := 200, bytes := [7] }

/-! ## Teardown -/

/-- The body of the loop of the C function `lfreepool` for the node at address
`a`: a block that is still held is released and the pointer is cleared. -/
def lfreepool_node (L : State) (a : Nat) : State :=
  match L.nodes[a]? with
  | none => L
  | some node =>
    match node.msg with
    | none => L
    | some _ => store (skynet_free L node.msg) a { node with msg := none }

/-- The C function `lfreepool` on the slab `c`, whose `sz` nodes are visited
in order. -/
def lfreepool (c : chunk) (L : State) : State :=
  (List.range c.count).foldl (fun L i => lfreepool_node L (c.base + i)) L

/-- Pool teardown: `lnewpool` installs `lfreepool` as the `__gc` metamethod of
every slab, and the collector runs it on each of them when the pool goes away. -/
def teardown (L : State) : State :=
  L.chunks.foldl (fun L c => lfreepool c L) L

/-! ## Runs: one pool shared by several queues -/

/-- A pool with the queues that take their nodes from it. -/
structure World where
  L : State
  queues : List socket_buffer

/-- The calls a consumer makes; `q` is the index of the queue in the world. A
push hands over the block with its true length. -/
inductive Op where
  | newbuffer
  | push (q : Nat) (B : raw_block)
  | pop (q : Nat) (k : Int)
  | readline (q : Nat) (sep : List UInt8) (consume : Bool)
  | drain (q : Nat)
  | clear (q : Nat)

/-- A call is admitted when its separator, if it has one, is not empty, and
when the length of the block it pushes is one that a C `int` holds (the length
is passed as `int sz`). -/
def Op.valid : Op → Bool
  | .readline _ sep _ => !sep.isEmpty
  | .push _ B => decide (B.bytes.length < 2147483648)
  | _ => true

/-- One call on the world: the queue `q` is passed with the pool table, and the
queue and the memory the call leaves replace the old ones. -/
def step (fuel : Nat) (W : World) : Op → Except Fault World
  | .newbuffer => .ok { W with queues := W.queues ++ [lnewbuffer] }
  | .push q B =>
    match W.queues[q]? with
    | none => .error .lua_error
    | some sb =>
      match lpushbuffer (.userdata sb) true (some B) B.bytes.length W.L with
      | .error e => .error e
      | .ok (_, sb', L') => .ok { L := L', queues := W.queues.set q sb' }
  | .pop q k =>
    match W.queues[q]? with
    | none => .error .lua_error
    | some sb =>
      match lpopbuffer fuel (.userdata sb) true k W.L with
      | .error e => .error e
      | .ok (_, sb', L') => .ok { L := L', queues := W.queues.set q sb' }
  | .readline q sep consume =>
    match W.queues[q]? with
    | none => .error .lua_error
    | some sb =>
      match lreadline fuel (.userdata sb) consume sep W.L with
      | .error e => .error e
      | .ok (_, sb', L') => .ok { L := L', queues := W.queues.set q sb' }
  | .drain q =>
    match W.queues[q]? with
    | none => .error .lua_error
    | some sb =>
      match lreadall fuel (.userdata sb) true W.L with
      | .error e => .error e
      | .ok (_, sb', L') => .ok { L := L', queues := W.queues.set q sb' }
  | .clear q =>
    match W.queues[q]? with
    | none => .error .lua_error
    | some sb =>
      match lclearbuffer fuel (.userdata sb) true W.L with
      | .error e => .error e
      | .ok (_, v, L') =>
        match lua_touserdata v with
        | none => .error .lua_error
        | some sb' => .ok { L := L', queues := W.queues.set q sb' }

/-- The world with a fresh pool and no queue yet. -/
def fresh_world : World :=
  { L := fresh_state, queues := [] }

/-- The worlds reached from `fresh_world` by admitted calls that return, with
the calls made so far, newest first. -/
inductive Reach : List Op → World → Prop
  | init : Reach [] fresh_world
  | next (fuel : Nat) (ops : List Op) (W : World) (op : Op) (W' : World) :
      Reach ops W → op.valid = true → step fuel W op = .ok W' → Reach (op :: ops) W'

/-- The addresses of the blocks pushed by the calls `ops`. -/
def pushed : List Op → List Nat
  | [] => []
  | .push _ B :: ops => B.addr :: pushed ops
  | _ :: ops => pushed ops

/-- Every block pushed by the calls `ops` has at least one byte. -/
def positive_pushes (ops : List Op) : Prop :=
  ∀ q B, Op.push q B ∈ ops → 0 < B.bytes.length

/-- The `sz` field of the node at `a` (0 for no node). -/
def node_sz (nodes : List buffer_node) (a : Nat) : Int :=
  match nodes[a]? with
  | some n => n.sz
  | none => 0

/-- The size the linked nodes `as` account for: `head.sz - offset` for the
first one plus the `sz` of every other one, and 0 when no node is linked. -/
def linked_size (nodes : List buffer_node) (offset : Int) : List Nat → Int
  | [] => 0
  | a :: as => (node_sz nodes a - offset) + (as.map (node_sz nodes)).sum

/-- The addresses of the blocks held by the nodes `as`. -/
def held_addrs (nodes : List buffer_node) (as : List Nat) : List Nat :=
  as.filterMap fun a =>
    match nodes[a]? with
    | some n => n.msg.map (·.addr)
    | none => none

/-- The node addresses covered by the slabs, slab by slab. -/
def chunk_addrs (cs : List chunk) : List Nat :=
  (cs.map fun c => List.range' c.base c.count).flatten

/-- The node at `a` is as a free node is: no block and `sz = 0`. -/
def is_null (nodes : List buffer_node) (a : Nat) : Prop :=
  ∃ n, nodes[a]? = some n ∧ n.msg = none ∧ n.sz = 0

/-- Every linked block has a byte and the head node has an unread byte. -/
def strict (L : State) (sb : socket_buffer) (as : List Nat) : Prop :=
  (∀ a ∈ as, 0 < (block_of L.nodes a).length) ∧
    (as = [] ∨ sb.offset < (head_len L.nodes as : Int))

/-- The invariant of one queue: it is well formed, `size` is the number of
unread bytes as a C `int`, the head node has an unread byte unless its block
is empty, and the queue is `strict` when `pos` holds. -/
structure q_inv (pos : Prop) (L : State) (sb : socket_buffer) (as : List Nat) : Prop where
  ok : queue_ok L sb as
  size : sb.size = to_int (unread L sb as).length
  semi : as = [] ∨ head_len L.nodes as = 0 ∨ sb.offset < (head_len L.nodes as : Int)
  strict : pos → strict L sb as

/-- What one call does to the pool and to the queue it works on, when that
queue linked `as` and the free list was `fs` before, and they are `as'` and
`fs'` afterwards; `blk` are the addresses of the blocks the call took over. -/
structure trans (pos : Prop) (blk : List Nat) (L : State) (as fs : List Nat)
    (L' : State) (sb' : socket_buffer) (as' fs' : List Nat) : Prop where
  q : q_inv pos L' sb' as'
  free : linked L'.nodes L'.free_node fs' = true
  perm : (fs' ++ as').Perm
    (fs ++ as ++ List.range' L.nodes.length (L'.nodes.length - L.nodes.length))
  mono : L.nodes.length ≤ L'.nodes.length
  frame : ∀ a : Nat, a < L.nodes.length → a ∉ fs → a ∉ as → L'.nodes[a]? = L.nodes[a]?
  slabs : chunk_addrs L'.chunks
    = chunk_addrs L.chunks ++ List.range' L.nodes.length (L'.nodes.length - L.nodes.length)
  sizes : ∀ (j : Nat) (c : chunk), L'.chunks[j]? = some c →
    L.chunks[j]? = some c ∨ (j = L.chunks.length ∧ c.count = grow_size L)
  free_null : ∀ a ∈ fs', is_null L'.nodes a
  blocks : (L'.freed ++ held_addrs L'.nodes as').Perm (L.freed ++ held_addrs L.nodes as ++ blk)

/-- The invariant of a world reached by the calls `ops`: every queue `j`
satisfies `q_inv` with the linked nodes `ass[j]`, the free list is the chain
`fs`, free and linked nodes together are exactly the nodes of the slabs, each
once, the `j`-th slab has `min (16 * 2 ^ j) 4096` nodes, free nodes are null,
and the blocks released or still held are the blocks pushed. -/
structure world_ok (ops : List Op) (W : World) (ass : List (List Nat)) (fs : List Nat) :
    Prop where
  len : W.queues.length = ass.length
  queues : ∀ (j : Nat) (sb : socket_buffer) (as : List Nat),
    W.queues[j]? = some sb → ass[j]? = some as → q_inv (positive_pushes ops) W.L sb as
  free : linked W.L.nodes W.L.free_node fs = true
  perm : (fs ++ ass.flatten).Perm (List.range W.L.nodes.length)
  slabs : chunk_addrs W.L.chunks = List.range W.L.nodes.length
  sizes : ∀ (j : Nat) (c : chunk), W.L.chunks[j]? = some c → c.count = min (16 * 2 ^ j) 4096
  free_null : ∀ a ∈ fs, is_null W.L.nodes a
  blocks : (W.L.freed ++ held_addrs W.L.nodes ass.flatten).Perm (pushed ops)

/-- The calls `ops`, oldest first, made one after the other from `W`. -/
def run (fuel : Nat) : List Op → World → Except Fault World
  | [], W => .ok W
  | op :: ops, W =>
    match step fuel W op with
    | .error e => .error e
    | .ok W' => run fuel ops W'

/-- A new queue, then `"ab"` and `"c\nd"` pushed on it. -/
def line_ops : List Op :=
  [.newbuffer, .push 0 { addr := 100, bytes := [97, 98] },
   .push 0 { addr := 200, bytes := [99, 10, 100] }]

/-- The world after `line_ops`. -/
def line_world : World :=
  { L := line_state, queues := [line_queue] }

/-- A new queue, then a block without bytes pushed on it. -/
def empty_block_ops : List Op :=
  [.newbuffer, .push 0 { addr := 100, bytes := [] }]

/-- The world after `empty_block_ops`: the first slab with its first node
linked, holding the empty block. -/
def empty_block_world : World :=
  { L :=
      { nodes :=
          [{ msg := some { addr := 100, bytes := [] }, sz := 0, next := none }]
          ++ (List.range 15).map fun i =>
              { msg := none, sz := 0, next := if i = 14 then none else some (i + 2) },
        freed := [], free_node := some 1, chunks := [{ base := 0, count := 16 }],
        warnings := [] },
    queues := [{ size := 0, offset := 0, head := some 0, tail := some 0 }] }

/-! ## The scan of `lreadline`, with its calls of `check_sep` recorded -/

/-- A new queue, then a block without bytes and the block `"ab"` pushed on it. -/
def empty_head_ops : List Op :=
  [.newbuffer, .push 0 { addr := 100, bytes := [] }, .push 0 { addr := 200, bytes := [97, 98] }]

/-- The queue after `empty_head_ops`: two unread bytes, two linked nodes. -/
def empty_head_queue : socket_buffer :=
  { size := 2, offset := 0, head := some 0, tail := some 1 }

/-- The world after `empty_head_ops`: the head node holds the empty block. -/
def empty_head_world : World :=
  { L :=
      { nodes :=
          [{ msg := some { addr := 100, bytes := [] }, sz := 0, next := some 1 },
           { msg := some { addr := 200, bytes := [97, 98] }, sz := 2, next := none }]
          ++ (List.range 14).map fun i =>
              { msg := none, sz := 0, next := if i = 13 then none else some (i + 3) },
        freed := [], free_node := some 2, chunks := [{ base := 0, count := 16 }],
        warnings := [] },
    queues := [empty_head_queue] }

/-- A new queue, then `"a"`, a block without bytes and `"bc"` pushed on it. -/
def empty_middle_ops : List Op :=
  [.newbuffer, .push 0 { addr := 100, bytes := [97] }, .push 0 { addr := 200, bytes := [] },
   .push 0 { addr := 300, bytes := [98, 99] }]

/-- The queue after `empty_middle_ops`: three unread bytes, three linked nodes. -/
def empty_middle_queue : socket_buffer :=
  { size := 3, offset := 0, head := some 0, tail := some 2 }

/-- The world after `empty_middle_ops`: the second node holds the empty block. -/
def empty_middle_world : World :=
  { L :=
      { nodes :=
          [{ msg := some { addr := 100, bytes := [97] }, sz := 1, next := some 1 },
           { msg := some { addr := 200, bytes := [] }, sz := 0, next := some 2 },
           { msg := some { addr := 300, bytes := [98, 99] }, sz := 2, next := none }]
          ++ (List.range 13).map fun i =>
              { msg := none, sz := 0, next := if i = 12 then none else some (i + 4) },
        freed := [], free_node := some 3, chunks := [{ base := 0, count := 16 }],
        warnings := [] },
    queues := [empty_middle_queue] }

/-! ## C `int` conversion -/

theorem to_int_of_range (x : Int) (h0 : -2147483648 ≤ x) (h1 : x < 2147483648) :
    to_int x = x := by
  unfold to_int
  omega

theorem to_int_le (x : Int) (h : 0 ≤ x) : to_int x ≤ x := by
  unfold to_int
  omega

theorem to_int_add_left (a b : Int) : to_int (to_int a + b) = to_int (a + b) := by
  unfold to_int
  omega

theorem to_int_sub (x k : Int) (hk : 0 ≤ k) (hle : k ≤ to_int x) :
    to_int (x - k) = to_int x - k := by
  unfold to_int at hle ⊢
  omega

theorem to_int_zero : to_int 0 = 0 := by
  unfold to_int
  omega

theorem to_int_eq_zero_iff (x : Int) : to_int x = 0 ↔ x % 4294967296 = 0 := by
  unfold to_int
  omega

/-! ## Chains -/

theorem seg_nil_iff (nodes : List buffer_node) (p q : Option Nat) :
    seg nodes p [] q = true ↔ p = q := by
  simp [seg]

theorem seg_cons_iff (nodes : List buffer_node) (p q : Option Nat) (a : Nat) (as : List Nat) :
    seg nodes p (a :: as) q = true ↔
      p = some a ∧ ∃ n, nodes[a]? = some n ∧ seg nodes n.next as q = true := by
  simp only [seg, Bool.and_eq_true, decide_eq_true_eq]
  cases h : nodes[a]? with
  | none => simp
  | some n => simp

theorem seg_append (nodes : List buffer_node) (xs ys : List Nat) (p q : Option Nat) :
    seg nodes p (xs ++ ys) q = true ↔ ∃ m, seg nodes p xs m = true ∧ seg nodes m ys q = true := by
  induction xs generalizing p with
  | nil => simp [seg_nil_iff]
  | cons x xs ih =>
    simp only [List.cons_append, seg_cons_iff, ih]
    constructor
    · rintro ⟨hp, n, hn, m, h1, h2⟩
      exact ⟨m, ⟨hp, n, hn, h1⟩, h2⟩
    · rintro ⟨m, ⟨hp, n, hn, h1⟩, h2⟩
      exact ⟨hp, n, hn, m, h1, h2⟩

theorem seg_unique (nodes : List buffer_node) (xs ys : List Nat) (p : Option Nat)
    (hx : seg nodes p xs none = true) (hy : seg nodes p ys none = true) : xs = ys := by
  induction xs generalizing p ys with
  | nil =>
    rw [seg_nil_iff] at hx
    subst hx
    cases ys with
    | nil => rfl
    | cons y ys => simp [seg_cons_iff] at hy
  | cons x xs ih =>
    obtain ⟨hp, n, hn, hrest⟩ := (seg_cons_iff _ _ _ _ _).1 hx
    subst hp
    cases ys with
    | nil => simp [seg_nil_iff] at hy
    | cons y ys =>
      obtain ⟨hp, m, hm, hrest2⟩ := (seg_cons_iff _ _ _ _ _).1 hy
      cases hp
      rw [hn] at hm
      cases hm
      rw [ih ys _ hrest hrest2]

theorem seg_start (nodes : List buffer_node) (a : Nat) (as : List Nat) (p q : Option Nat)
    (h : seg nodes p (a :: as) q = true) : p = some a :=
  ((seg_cons_iff _ _ _ _ _).1 h).1

theorem linked_head_not_mem (nodes : List buffer_node) (a : Nat) (as : List Nat) (p : Option Nat)
    (h : linked nodes p (a :: as) = true) : a ∉ as := by
  intro hmem
  obtain ⟨xs, ys, rfl⟩ := List.append_of_mem hmem
  have h0 : seg nodes p ([a] ++ xs ++ a :: ys) none = true := by simpa [linked] using h
  have hp := seg_start _ _ _ _ _ h
  obtain ⟨m, _, h2⟩ := (seg_append _ _ _ _ _).1 h0
  have hm := seg_start _ _ _ _ _ h2
  subst hp hm
  have := seg_unique _ _ _ _ h h2
  have hl := congrArg List.length this
  simp at hl
  omega

theorem linked_nodup (nodes : List buffer_node) (as : List Nat) (p : Option Nat)
    (h : linked nodes p as = true) : as.Nodup := by
  induction as generalizing p with
  | nil => exact List.nodup_nil
  | cons a as ih =>
    refine List.nodup_cons.2 ⟨linked_head_not_mem _ _ _ _ h, ?_⟩
    obtain ⟨_, n, _, hrest⟩ := (seg_cons_iff _ _ _ _ _).1 h
    exact ih _ hrest

theorem linked_lt (nodes : List buffer_node) (as : List Nat) (p q : Option Nat)
    (h : seg nodes p as q = true) : ∀ a ∈ as, a < nodes.length := by
  induction as generalizing p with
  | nil => simp
  | cons x xs ih =>
    obtain ⟨_, n, hn, hrest⟩ := (seg_cons_iff _ _ _ _ _).1 h
    intro a ha
    rcases List.mem_cons.1 ha with rfl | ha
    · by_contra hlt
      rw [List.getElem?_eq_none (by omega)] at hn
      cases hn
    · exact ih _ hrest a ha

/-- Two node stores that agree on the addresses `as` have the same chains through `as`. -/
theorem seg_congr (n1 n2 : List buffer_node) (as : List Nat) (p q : Option Nat)
    (h : ∀ a ∈ as, n1[a]? = n2[a]?) : seg n1 p as q = seg n2 p as q := by
  induction as generalizing p with
  | nil => simp [seg]
  | cons x xs ih =>
    have hx := h x (List.mem_cons_self _ _)
    simp only [seg, hx]
    cases n2[x]? with
    | none => rfl
    | some n => simp only [ih n.next (fun a ha => h a (List.mem_cons_of_mem _ ha))]

theorem chain_bytes_congr (n1 n2 : List buffer_node) (as : List Nat)
    (h : ∀ a ∈ as, n1[a]? = n2[a]?) : chain_bytes n1 as = chain_bytes n2 as := by
  induction as with
  | nil => rfl
  | cons x xs ih =>
    have hx := h x (List.mem_cons_self _ _)
    simp only [chain_bytes, block_of, hx, ih (fun a ha => h a (List.mem_cons_of_mem _ ha))]

theorem holds_congr (n1 n2 : List buffer_node) (a : Nat) (h : n1[a]? = n2[a]?) :
    holds n1 a = holds n2 a := by
  simp only [holds, h]

theorem chain_bytes_append (nodes : List buffer_node) (xs ys : List Nat) :
    chain_bytes nodes (xs ++ ys) = chain_bytes nodes xs ++ chain_bytes nodes ys := by
  induction xs with
  | nil => rfl
  | cons x xs ih => simp [chain_bytes, ih]

/-! ## Returning a node to the pool -/

theorem release_nodes (L : State) (a : Nat) (n : buffer_node) (hn : L.nodes[a]? = some n) :
    (release L a).nodes = L.nodes.set a { msg := none, sz := 0, next := L.free_node } := by
  simp only [release, hn, store, skynet_free]
  cases n.msg <;> rfl

theorem release_get_ne (L : State) (a a' : Nat) (h : a ≠ a') :
    (release L a).nodes[a']? = L.nodes[a']? := by
  cases hn : L.nodes[a]? with
  | none => simp [release, hn]
  | some n => rw [release_nodes L a n hn, List.getElem?_set_ne h]

theorem release_get_self (L : State) (a : Nat) (n : buffer_node) (hn : L.nodes[a]? = some n) :
    (release L a).nodes[a]? = some { msg := none, sz := 0, next := L.free_node } := by
  have hlt : a < L.nodes.length := linked_lt L.nodes [a] (some a) n.next
    (by simp [seg, hn]) a (List.mem_singleton_self a)
  rw [release_nodes L a n hn]
  exact List.getElem?_set_self hlt

theorem release_free_node (L : State) (a : Nat) (n : buffer_node) (hn : L.nodes[a]? = some n) :
    (release L a).free_node = some a := by
  simp only [release, hn, store, skynet_free]

theorem release_length (L : State) (a : Nat) : (release L a).nodes.length = L.nodes.length := by
  cases hn : L.nodes[a]? with
  | none => simp [release, hn]
  | some n => rw [release_nodes L a n hn, List.length_set]

theorem release_chunks (L : State) (a : Nat) : (release L a).chunks = L.chunks := by
  cases hn : L.nodes[a]? with
  | none => simp [release, hn]
  | some n =>
    simp only [release, hn, store, skynet_free]
    cases n.msg <;> rfl

theorem release_warnings (L : State) (a : Nat) : (release L a).warnings = L.warnings := by
  cases hn : L.nodes[a]? with
  | none => simp [release, hn]
  | some n =>
    simp only [release, hn, store, skynet_free]
    cases n.msg <;> rfl

theorem return_free_node_eq (sb : socket_buffer) (L : State) (a : Nat) (n : buffer_node)
    (hh : sb.head = some a) (hn : L.nodes[a]? = some n) :
    return_free_node sb L =
      .ok ({ size := sb.size, offset := 0, head := n.next,
             tail := if n.next = none then none else sb.tail }, release L a) := by
  simp only [return_free_node, hh, deref, hn, release]
  cases n.next <;> simp

/-- The facts about the head node of a well-formed, non-empty queue. -/
theorem queue_ok_head (L : State) (sb : socket_buffer) (a : Nat) (as : List Nat)
    (h : queue_ok L sb (a :: as)) :
    ∃ n b, sb.head = some a ∧ L.nodes[a]? = some n ∧ n.msg = some b ∧
      (b.bytes.length : Int) = n.sz ∧ block_of L.nodes a = b.bytes ∧
      linked L.nodes n.next as = true ∧ 0 ≤ sb.offset ∧ sb.offset ≤ n.sz ∧
      (as = [] ↔ n.next = none) := by
  obtain ⟨hp, n, hn, hrest⟩ := (seg_cons_iff _ _ _ _ _).1 h.chain
  have hb := h.blocks a (List.mem_cons_self _ _)
  simp only [holds, hn] at hb
  cases hm : n.msg with
  | none => simp [hm] at hb
  | some b =>
    simp only [hm, decide_eq_true_eq] at hb
    refine ⟨n, b, hp, hn, hm, hb, ?_, hrest, h.offset_lo, ?_, ?_⟩
    · simp [block_of, hn, hm]
    · have := h.offset_hi
      simp only [head_len, block_of, hn, hm] at this
      omega
    · cases as with
      | nil => simpa [seg_nil_iff] using hrest
      | cons x xs =>
        have := seg_start _ _ _ _ _ hrest
        simp [this]

/-- Returning the head node leaves a well-formed queue over the remaining nodes. -/
theorem queue_ok_release (L : State) (sb : socket_buffer) (a : Nat) (as : List Nat)
    (n : buffer_node) (h : queue_ok L sb (a :: as)) (hn : L.nodes[a]? = some n) (sz : Int) :
    queue_ok (release L a)
      { size := sz, offset := 0, head := n.next,
        tail := if n.next = none then none else sb.tail } as ∧
    chain_bytes (release L a).nodes as = chain_bytes L.nodes as := by
  obtain ⟨n', b, hp, hn', hm, hb, hblk, hrest, hlo, hhi, hnil⟩ := queue_ok_head L sb a as h
  rw [hn] at hn'
  cases hn'
  have hnot : a ∉ as := linked_head_not_mem _ _ _ _ h.chain
  have hagree : ∀ x ∈ as, (release L a).nodes[x]? = L.nodes[x]? := fun x hx =>
    release_get_ne L a x (fun e => hnot (e ▸ hx))
  refine ⟨⟨?_, ?_, ?_, le_refl _, ?_⟩, chain_bytes_congr _ _ _ hagree⟩
  · show seg _ _ _ _ = true
    rw [seg_congr _ _ _ _ _ hagree]
    exact hrest
  · show (if n.next = none then none else sb.tail) = as.getLast?
    cases as with
    | nil => simp [hnil.1 rfl]
    | cons x xs =>
      have hne : n.next ≠ none := fun e => by simpa using hnil.2 e
      simp only [hne, if_false, h.last, List.getLast?_cons_cons]
  · intro x hx
    rw [holds_congr _ _ _ (hagree x hx)]
    exact h.blocks x (List.mem_cons_of_mem _ hx)
  · show (0 : Int) ≤ _
    exact Int.ofNat_nonneg _

theorem unread_cons (L : State) (sb : socket_buffer) (a : Nat) (as : List Nat)
    (h : sb.offset ≤ ((block_of L.nodes a).length : Int)) :
    unread L sb (a :: as) = (block_of L.nodes a).drop sb.offset.toNat ++ chain_bytes L.nodes as := by
  simp only [unread, chain_bytes]
  rw [List.drop_append_of_le_length]
  omega

theorem read_bytes_ok (b : raw_block) (frm len : Int) (h0 : 0 ≤ frm) (h1 : 0 ≤ len)
    (h2 : frm + len ≤ b.bytes.length) :
    read_bytes (some b) frm len = .ok ((b.bytes.drop frm.toNat).take len.toNat) := by
  unfold read_bytes
  rw [if_neg (by omega)]
  by_cases hz : len = 0
  · simp [hz]
  · rw [if_neg hz]
    simp only
    rw [if_neg (by omega)]

theorem luaL_addlstring_ok (buf : List UInt8) (b : raw_block) (frm len : Int) (h0 : 0 ≤ frm)
    (h1 : 0 ≤ len) (h2 : frm + len ≤ b.bytes.length) :
    luaL_addlstring buf (some b) frm len = .ok (buf ++ (b.bytes.drop frm.toNat).take len.toNat) := by
  simp only [luaL_addlstring, read_bytes_ok b frm len h0 h1 h2]

theorem unread_nil (L : State) (sb : socket_buffer) : unread L sb [] = [] := by
  simp [unread, chain_bytes]

/-- What the loop of `pop_lstring` does on a well-formed queue. -/
theorem pop_lstring_loop_spec (as : List Nat) :
    ∀ (fuel : Nat) (buf : List UInt8) (sb : socket_buffer) (L : State) (sz skip : Int),
      queue_ok L sb as → as.length ≤ fuel → 0 < sz → sz ≤ (unread L sb as).length → 0 ≤ skip →
      ∃ sb' pre post, as = pre ++ post ∧
        pop_lstring_loop fuel buf sb L sz skip =
          .ok (buf ++ (unread L sb as).take (sz - skip).toNat, sb', release_all L pre) ∧
        queue_ok (release_all L pre) sb' post ∧
        unread (release_all L pre) sb' post = (unread L sb as).drop sz.toNat ∧
        sb'.size = sb.size := by
  induction as with
  | nil =>
    intro fuel buf sb L sz skip _ _ hsz hle _
    rw [unread_nil] at hle
    simp at hle
    omega
  | cons a rest ih =>
    intro fuel buf sb L sz skip hq hfuel hsz hle hskip
    obtain ⟨n, b, hp, hn, hm, hb, hblk, hrest, hlo, hhi, hnil⟩ := queue_ok_head L sb a rest hq
    have hU : unread L sb (a :: rest)
        = b.bytes.drop sb.offset.toNat ++ chain_bytes L.nodes rest := by
      rw [unread_cons L sb a rest (by rw [hblk]; omega), hblk]
    have hlen : ((b.bytes.drop sb.offset.toNat).length : Int) = n.sz - sb.offset := by
      rw [List.length_drop]; omega
    cases fuel with
    | zero => simp at hfuel
    | succ f =>
      obtain ⟨hq1, hcb⟩ := queue_ok_release L sb a rest n hq hn sb.size
      simp only [pop_lstring_loop, deref, hp, hn]
      by_cases hge : n.sz - sb.offset ≥ sz
      · -- the request ends inside the head node
        rw [if_pos hge]
        have hadd : (if sz > skip then luaL_addlstring buf n.msg sb.offset (sz - skip)
              else (Except.ok buf : Except Fault (List UInt8)))
            = .ok (buf ++ (unread L sb (a :: rest)).take (sz - skip).toNat) := by
          rw [hU, List.take_append_of_le_length (by omega)]
          by_cases hs : sz > skip
          · rw [if_pos hs, hm, luaL_addlstring_ok buf b _ _ hlo (by omega) (by omega)]
          · rw [if_neg hs]
            have : (sz - skip).toNat = 0 := by omega
            simp [this]
        rw [hadd]
        by_cases heq : n.sz - sb.offset = sz
        · simp only [if_pos heq]
          rw [return_free_node_eq _ L a n rfl hn]
          refine ⟨_, [a], rest, rfl, rfl, hq1, ?_, rfl⟩
          show unread (release L a) _ rest = _
          rw [hU, List.drop_append_of_le_length (by omega), List.drop_of_length_le (by omega)]
          simp [unread, hcb]
        · simp only [if_neg heq]
          refine ⟨_, [], a :: rest, rfl, rfl, ?_, ?_, rfl⟩
          · refine ⟨?_, hq.last, hq.blocks, ?_, ?_⟩
            · show linked L.nodes (some a) (a :: rest) = true
              rw [← hp]
              exact hq.chain
            · show 0 ≤ sb.offset + sz
              omega
            · show sb.offset + sz ≤ ((block_of L.nodes a).length : Int)
              rw [hblk]
              omega
          · show List.drop (sb.offset + sz).toNat _ = List.drop _ (List.drop _ _)
            rw [List.drop_drop]
            congr 1
            omega
      · -- the head node is used up and the loop goes on
        rw [if_neg hge]
        have hadd : (if sz - skip > 0 then
                luaL_addlstring buf n.msg sb.offset
                  (if sz - skip < n.sz - sb.offset then sz - skip else n.sz - sb.offset)
              else (Except.ok buf : Except Fault (List UInt8)))
            = .ok (buf ++ (b.bytes.drop sb.offset.toNat).take (sz - skip).toNat) := by
          by_cases hs : sz - skip > 0
          · rw [if_pos hs, hm, luaL_addlstring_ok buf b _ _ hlo (by split <;> omega)
              (by split <;> omega)]
            congr 2
            rw [List.take_eq_take]
            rw [List.length_drop]
            split <;> omega
          · rw [if_neg hs]
            have : (sz - skip).toNat = 0 := by omega
            simp [this]
        rw [hadd]
        simp only []
        rw [return_free_node_eq sb L a n hp hn]
        simp only []
        have hlen1 : ((chain_bytes L.nodes rest).length : Int) ≥ sz - (n.sz - sb.offset) := by
          rw [hU, List.length_append] at hle
          push_cast at hle
          omega
        have hne : rest ≠ [] := by
          rintro rfl
          simp [chain_bytes] at hlen1
          omega
        have hnext : n.next ≠ none := fun e => hne (hnil.2 e)
        rw [if_neg (by omega), if_neg hnext]
        have hU1 : unread (release L a)
            { size := sb.size, offset := 0, head := n.next,
              tail := if n.next = none then none else sb.tail } rest
            = chain_bytes L.nodes rest := by
          simp [unread, hcb]
        obtain ⟨sb', pre, post, hsplit, hrun, hq', hun', hsize'⟩ :=
          ih f (buf ++ (b.bytes.drop sb.offset.toNat).take (sz - skip).toNat) _ (release L a)
            (sz - (n.sz - sb.offset)) skip hq1 (by simpa using hfuel) (by omega)
            (by rw [hU1]; omega) hskip
        have hl : (b.bytes.drop sb.offset.toNat).length = (n.sz - sb.offset).toNat := by omega
        have htake : buf ++ (b.bytes.drop sb.offset.toNat).take (sz - skip).toNat
              ++ (chain_bytes L.nodes rest).take (sz - (n.sz - sb.offset) - skip).toNat
            = buf ++ (b.bytes.drop sb.offset.toNat ++ chain_bytes L.nodes rest).take
                (sz - skip).toNat := by
          rw [List.take_append_eq_append_take, List.append_assoc, hl]
          have : (sz - (n.sz - sb.offset) - skip).toNat
              = (sz - skip).toNat - (n.sz - sb.offset).toNat := by omega
          rw [this]
        have hdrop : (chain_bytes L.nodes rest).drop (sz - (n.sz - sb.offset)).toNat
            = (b.bytes.drop sb.offset.toNat ++ chain_bytes L.nodes rest).drop sz.toNat := by
          rw [List.drop_append_eq_append_drop,
            List.drop_of_length_le (l := b.bytes.drop sb.offset.toNat) (by omega),
            List.nil_append, hl]
          have : (sz - (n.sz - sb.offset)).toNat = sz.toNat - (n.sz - sb.offset).toNat := by
            omega
          rw [this]
        refine ⟨sb', a :: pre, post, by rw [hsplit]; rfl, ?_, hq', ?_, hsize'⟩
        · rw [hrun, hU1, hU, htake]
          rfl
        · show unread (release_all (release L a) pre) sb' post = _
          rw [hun', hU1, hU, hdrop]

/-- What `pop_lstring` does on a well-formed queue holding at least `sz` unread bytes: it
pushes the first `sz - skip` unread bytes and consumes `sz` of them. -/
theorem pop_lstring_spec (as : List Nat) (fuel : Nat) (sb : socket_buffer) (L : State)
    (sz skip : Int) (hq : queue_ok L sb as) (hfuel : as.length ≤ fuel) (hsz : 0 < sz)
    (hle : sz ≤ (unread L sb as).length) (hskip : 0 ≤ skip) (hss : skip ≤ sz) :
    ∃ sb' pre post, as = pre ++ post ∧
      pop_lstring fuel sb sz skip L =
        .ok ((unread L sb as).take (sz - skip).toNat, sb', release_all L pre) ∧
      queue_ok (release_all L pre) sb' post ∧
      unread (release_all L pre) sb' post = (unread L sb as).drop sz.toNat ∧
      sb'.size = sb.size := by
  cases as with
  | nil =>
    rw [unread_nil] at hle
    simp at hle
    omega
  | cons a rest =>
    obtain ⟨n, b, hp, hn, hm, hb, hblk, hrest, hlo, hhi, hnil⟩ := queue_ok_head L sb a rest hq
    have hU : unread L sb (a :: rest)
        = b.bytes.drop sb.offset.toNat ++ chain_bytes L.nodes rest := by
      rw [unread_cons L sb a rest (by rw [hblk]; omega), hblk]
    have hlen : ((b.bytes.drop sb.offset.toNat).length : Int) = n.sz - sb.offset := by
      rw [List.length_drop]; omega
    obtain ⟨hq1, hcb⟩ := queue_ok_release L sb a rest n hq hn sb.size
    simp only [pop_lstring, deref, hp, hn, lua_pushlstring]
    by_cases hlt : sz < n.sz - sb.offset
    · rw [if_pos hlt, hm, read_bytes_ok b _ _ hlo (by omega) (by omega)]
      refine ⟨{ size := sb.size, offset := sb.offset + sz, head := some a, tail := sb.tail },
        [], a :: rest, rfl, ?_, ?_, ?_, rfl⟩
      · rw [hU, List.take_append_of_le_length (by omega)]
        rfl
      · refine ⟨?_, hq.last, hq.blocks, ?_, ?_⟩
        · show linked L.nodes (some a) (a :: rest) = true
          rw [← hp]
          exact hq.chain
        · show 0 ≤ sb.offset + sz
          omega
        · show sb.offset + sz ≤ ((block_of L.nodes a).length : Int)
          rw [hblk]
          omega
      · show List.drop (sb.offset + sz).toNat _ = List.drop _ (List.drop _ _)
        rw [List.drop_drop]
        congr 1
        omega
    · rw [if_neg hlt]
      by_cases heq : sz = n.sz - sb.offset
      · rw [if_pos heq, hm, read_bytes_ok b _ _ hlo (by omega) (by omega)]
        simp only []
        rw [return_free_node_eq sb L a n hp hn]
        refine ⟨_, [a], rest, rfl, ?_, hq1, ?_, rfl⟩
        · rw [hU, List.take_append_of_le_length (by omega)]
          rfl
        · show unread (release L a) _ rest = _
          rw [hU, List.drop_append_of_le_length (by omega),
            List.drop_of_length_le (l := b.bytes.drop sb.offset.toNat) (by omega)]
          simp [unread, hcb]
      · rw [if_neg heq, if_neg (by omega)]
        have := pop_lstring_loop_spec (a :: rest) fuel [] sb L sz skip hq hfuel hsz hle hskip
        simpa using this

/-! ## Exact-size pop -/

theorem demo_queue_ok : queue_ok demo_state demo_queue [0, 1] :=
  ⟨by decide, by decide, by decide, by decide, by decide⟩

/-- What a successful `lpopbuffer` returns and leaves, with the nodes it recycled. -/
theorem lpopbuffer_spec (as : List Nat) (fuel : Nat) (sb : socket_buffer) (L : State)
    (k : Int) (hq : queue_ok L sb as) (hle : sb.size ≤ (unread L sb as).length)
    (hint : sb.size < 2147483648)
    (hk : 0 < k) (hk2 : k ≤ sb.size) (hfuel : as.length ≤ fuel) :
    ∃ sb' pre post, as = pre ++ post ∧
      lpopbuffer fuel (.userdata sb) true k L =
        .ok ([.string ((unread L sb as).take k.toNat), .integer (sb.size - k)], sb',
             release_all L pre) ∧
      sb'.size = sb.size - k ∧ queue_ok (release_all L pre) sb' post ∧
      unread (release_all L pre) sb' post = (unread L sb as).drop k.toNat := by
  obtain ⟨sb1, pre, post, hsplit, hrun, hq1, hun, hs⟩ :=
    pop_lstring_spec as fuel sb L k 0 hq hfuel hk (by omega) (le_refl _) (by omega)
  have hk' : to_int k = k := to_int_of_range k (by omega) (by omega)
  refine ⟨{ sb1 with size := sb1.size - k }, pre, post, hsplit, ?_, ?_, ?_, ?_⟩
  · simp only [lpopbuffer, lua_touserdata, Bool.not_true, Bool.false_eq_true, if_false, hk']
    rw [if_neg (by omega), hrun]
    simp [hs]
  · simp [hs]
  · exact ⟨hq1.chain, hq1.last, hq1.blocks, hq1.offset_lo, hq1.offset_hi⟩
  · rw [← hun]
    rfl

/-- C2 (pop success). On a well-formed queue whose `size` is the number of unread bytes
(and, being a C `int`, less than `2 ^ 31`), `pop(k)` with `0 < k <= size` returns the first
`k` unread bytes and the new size `size - k`, and the unread bytes afterwards are the old
ones without their first `k`. -/
theorem lpopbuffer_success (as : List Nat) (fuel : Nat) (sb : socket_buffer) (L : State)
    (k : Int) (hq : queue_ok L sb as) (hsize : sb.size = (unread L sb as).length)
    (hint : sb.size < 2147483648)
    (hk : 0 < k) (hk2 : k ≤ sb.size) (hfuel : as.length ≤ fuel) :
    ∃ sb' L' as',
      lpopbuffer fuel (.userdata sb) true k L =
        .ok ([.string ((unread L sb as).take k.toNat), .integer (sb.size - k)], sb', L') ∧
      sb'.size = sb.size - k ∧ queue_ok L' sb' as' ∧
      unread L' sb' as' = (unread L sb as).drop k.toNat := by
  obtain ⟨sb', pre, post, _, h⟩ :=
    lpopbuffer_spec as fuel sb L k hq (le_of_eq hsize) hint hk hk2 hfuel
  exact ⟨sb', release_all L pre, post, h⟩

theorem lpopbuffer_success_witness :
    ∃ sb' L' as',
      lpopbuffer 2 (.userdata demo_queue) true 4 demo_state =
        .ok ([.string ((unread demo_state demo_queue [0, 1]).take (4 : Int).toNat),
              .integer (demo_queue.size - 4)], sb', L') ∧
      sb'.size = demo_queue.size - 4 ∧ queue_ok L' sb' as' ∧
      unread L' sb' as' = (unread demo_state demo_queue [0, 1]).drop (4 : Int).toNat :=
  lpopbuffer_success [0, 1] 2 demo_queue demo_state 4 demo_queue_ok (by decide) (by decide)
    (by decide) (by decide) (by decide)

/-- The guard of `lpopbuffer`: nothing happens when the size asked for, as a C `int`, is 0
or more than `size`. -/
theorem lpopbuffer_nil (fuel : Nat) (sb : socket_buffer) (L : State) (k : Int)
    (hk : to_int k = 0 ∨ sb.size < to_int k) :
    lpopbuffer fuel (.userdata sb) true k L = .ok ([.nil, .integer sb.size], sb, L) := by
  simp only [lpopbuffer, lua_touserdata, Bool.not_true, Bool.false_eq_true, if_false]
  rw [if_pos (by omega)]

/-- C3, as stated, fails: `4294967297 = 2 ^ 32 + 1` is larger than the size 5 of
`demo_queue`, but `int sz = luaL_checkinteger(L,3)` keeps its low 32 bits, so `pop` takes
one byte: it returns `[1]` and the size 4 and moves `offset` to 1. -/
theorem lpopbuffer_insufficient_fails_past_int :
    demo_queue.size < 4294967297 ∧
    lpopbuffer 2 (.userdata demo_queue) true 4294967297 demo_state
      = .ok ([.string [1], .integer 4], { size := 4, offset := 1, head := some 0, tail := some 1 },
          demo_state) :=
  ⟨by decide, rfl⟩

/-- C3 (pop insufficient, amended). In every state, `pop(k)` for a `k` whose value `k'` as a
C `int` (`to_int k`, which is `k` itself for `-2 ^ 31 <= k < 2 ^ 31`) is 0 or larger than
`size` returns nil and the unchanged `size`, leaves the queue and the memory (nodes, free
list, slabs) exactly as they were, and a second call on the state it left returns the same. -/
theorem lpopbuffer_insufficient (fuel : Nat) (sb : socket_buffer) (L : State) (k : Int)
    (hk : to_int k = 0 ∨ sb.size < to_int k) :
    lpopbuffer fuel (.userdata sb) true k L = .ok ([.nil, .integer sb.size], sb, L) ∧
    (match lpopbuffer fuel (.userdata sb) true k L with
     | .ok (_, sb', L') =>
       lpopbuffer fuel (.userdata sb') true k L' = lpopbuffer fuel (.userdata sb) true k L
     | .error _ => False) ∧
    (-2147483648 ≤ k → k < 2147483648 → to_int k = k) := by
  have h := lpopbuffer_nil fuel sb L k hk
  refine ⟨h, ?_, to_int_of_range k⟩
  rw [h]
  exact h

theorem lpopbuffer_insufficient_witness :
    lpopbuffer 2 (.userdata demo_queue) true 6 demo_state
      = .ok ([.nil, .integer demo_queue.size], demo_queue, demo_state) ∧
    (match lpopbuffer 2 (.userdata demo_queue) true 6 demo_state with
     | .ok (_, sb', L') =>
       lpopbuffer 2 (.userdata sb') true 6 L' = lpopbuffer 2 (.userdata demo_queue) true 6 demo_state
     | .error _ => False) ∧
    (-2147483648 ≤ (6 : Int) → (6 : Int) < 2147483648 → to_int 6 = 6) :=
  lpopbuffer_insufficient 2 demo_queue demo_state 6 (Or.inr (by decide))

/-! ## Separator scan -/

theorem line_state_pushed :
    (match lpushbuffer (.userdata lnewbuffer) true (some { addr := 100, bytes := [97, 98] }) 2
        fresh_state with
     | .ok (_, sb, L) => lpushbuffer (.userdata sb) true (some { addr := 200, bytes := [99, 10, 100] }) 3 L
     | .error e => .error e)
    = .ok ([.integer 5], line_queue, line_state) := by
  rfl

theorem line_queue_ok : queue_ok line_state line_queue [0, 1] :=
  ⟨by decide, by decide, by decide, by decide, by decide⟩

theorem lreadline_loop_frame (check : Bool) (sep : List UInt8) (sb : socket_buffer) (L : State) :
    ∀ (fuel : Nat) (i : Int) (cur : Option Nat) (frm bytes : Int) (r : List lua_ret)
      (sb' : socket_buffer) (L' : State),
      lreadline_loop check sep sb L fuel i cur frm bytes = .ok (r, sb', L') →
      (check = true ∨ r = []) → sb' = sb ∧ L' = L := by
  intro fuel
  induction fuel with
  | zero => intro i cur frm bytes r sb' L' h; simp [lreadline_loop] at h
  | succ f ih =>
    intro i cur frm bytes r sb' L' h hc
    rw [lreadline_loop] at h
    simp only [] at h
    split at h
    · split at h
      · cases h
      · split at h
        · cases h; exact ⟨rfl, rfl⟩
        · split at h
          · cases h
          · cases h
            rcases hc with hc | hc
            · simp_all
            · cases hc
      · split at h
        · split at h
          · cases h
          · split at h
            · cases h; exact ⟨rfl, rfl⟩
            · split at h
              · cases h
              · exact ih _ _ _ _ _ _ _ h hc
        · exact ih _ _ _ _ _ _ _ h hc
    · cases h; exact ⟨rfl, rfl⟩

/-- C6 (readLine frame). In every state and for every separator, a `readLine` call that is
check-only, or that finds no match, returns with the queue (`size`, `offset`, `head`,
`tail`) and the memory (every node, the free list, the slabs) exactly as they were. -/
theorem lreadline_frame (fuel : Nat) (tbl : Bool) (sep : List UInt8) (sb : socket_buffer)
    (L : State) (r : List lua_ret) (sb' : socket_buffer) (L' : State)
    (h : lreadline fuel (.userdata sb) tbl sep L = .ok (r, sb', L'))
    (hc : tbl = false ∨ r = []) : sb' = sb ∧ L' = L := by
  simp only [lreadline, lua_touserdata] at h
  split at h
  · cases h; exact ⟨rfl, rfl⟩
  · cases h
  · exact lreadline_loop_frame (!tbl) sep sb L _ _ _ _ _ _ _ _ h (by
      rcases hc with hc | hc
      · exact Or.inl (by simp [hc])
      · exact Or.inr hc)

theorem lreadline_frame_witness :
    lreadline 7 (.userdata line_queue) false [10] line_state
      = .ok ([.boolean true], line_queue, line_state) ∧
    (line_queue = line_queue ∧ line_state = line_state) :=
  ⟨rfl, lreadline_frame 7 false [10] line_queue line_state [.boolean true] line_queue
    line_state rfl (Or.inl rfl)⟩

/-! ## Drain and clear -/

theorem release_all_get_not_mem (as : List Nat) :
    ∀ (L : State) (a : Nat), a ∉ as → (release_all L as).nodes[a]? = L.nodes[a]? := by
  induction as with
  | nil => intro L a _; rfl
  | cons x xs ih =>
    intro L a ha
    simp only [List.mem_cons, not_or] at ha
    rw [release_all, ih (release L x) a ha.2, release_get_ne L x a (fun e => ha.1 e.symm)]

/-- After the nodes `as` were returned in order, the free list starts with them, newest
first, and goes on with the old free list. -/
theorem release_all_free (as : List Nat) :
    ∀ (L : State), as.Nodup → (∀ a ∈ as, a < L.nodes.length) →
      seg (release_all L as).nodes (release_all L as).free_node as.reverse L.free_node = true := by
  induction as with
  | nil => intro L _ _; simp [release_all, seg]
  | cons x xs ih =>
    intro L hnd hlt
    obtain ⟨hx, hxs⟩ := List.nodup_cons.1 hnd
    have hxlt : x < L.nodes.length := hlt x (List.mem_cons_self _ _)
    obtain ⟨n, hn⟩ : ∃ n, L.nodes[x]? = some n := ⟨L.nodes[x], List.getElem?_eq_getElem hxlt⟩
    have h1 := ih (release L x) hxs (fun a ha => by
      rw [release_length]; exact hlt a (List.mem_cons_of_mem _ ha))
    rw [release_free_node L x n hn] at h1
    rw [List.reverse_cons, release_all, seg_append]
    refine ⟨some x, h1, ?_⟩
    rw [seg_cons_iff]
    refine ⟨rfl, { msg := none, sz := 0, next := L.free_node }, ?_, (seg_nil_iff _ _ _).2 rfl⟩
    rw [release_all_get_not_mem xs (release L x) x hx, release_get_self L x n hn]

theorem lreadall_loop_spec (as : List Nat) :
    ∀ (fuel : Nat) (buf : List UInt8) (sb : socket_buffer) (L : State),
      queue_ok L sb as → as.length ≤ fuel →
      lreadall_loop fuel buf sb L =
        .ok (buf ++ unread L sb as,
             { size := sb.size, offset := 0, head := none, tail := none }, release_all L as) := by
  induction as with
  | nil =>
    intro fuel buf sb L hq _
    have hh : sb.head = none := by simpa [linked, seg_nil_iff] using hq.chain
    have ht : sb.tail = none := by simpa using hq.last
    have ho : sb.offset = 0 := by
      have h1 := hq.offset_lo
      have h2 := hq.offset_hi
      simp only [head_len] at h2
      omega
    have hsb : sb = { size := sb.size, offset := 0, head := none, tail := none } := by
      cases sb; simp_all
    cases fuel <;> simp only [lreadall_loop, hh, if_true, unread_nil, List.append_nil,
      release_all] <;> rw [← hsb]
  | cons a rest ih =>
    intro fuel buf sb L hq hfuel
    obtain ⟨n, b, hp, hn, hm, hb, hblk, hrest, hlo, hhi, hnil⟩ := queue_ok_head L sb a rest hq
    obtain ⟨hq1, hcb⟩ := queue_ok_release L sb a rest n hq hn sb.size
    cases fuel with
    | zero => simp at hfuel
    | succ f =>
      rw [lreadall_loop, if_neg (by simp [hp])]
      simp only [deref, hp, hn, hm]
      rw [luaL_addlstring_ok buf b _ _ hlo (by omega) (by omega),
        List.take_of_length_le (by rw [List.length_drop]; omega)]
      simp only []
      rw [return_free_node_eq sb L a n hp hn]
      simp only []
      rw [ih f _ _ (release L a) hq1 (by simpa using hfuel)]
      rw [unread_cons L sb a rest (by rw [hblk]; omega), hblk]
      simp [unread, hcb, release_all]

theorem lclearbuffer_loop_spec (as : List Nat) :
    ∀ (fuel : Nat) (sb : socket_buffer) (L : State),
      queue_ok L sb as → as.length ≤ fuel →
      lclearbuffer_loop fuel sb L =
        .ok ({ size := sb.size, offset := 0, head := none, tail := none }, release_all L as) := by
  induction as with
  | nil =>
    intro fuel sb L hq _
    have hh : sb.head = none := by simpa [linked, seg_nil_iff] using hq.chain
    have ht : sb.tail = none := by simpa using hq.last
    have ho : sb.offset = 0 := by
      have h1 := hq.offset_lo
      have h2 := hq.offset_hi
      simp only [head_len] at h2
      omega
    have hsb : sb = { size := sb.size, offset := 0, head := none, tail := none } := by
      cases sb; simp_all
    cases fuel <;> simp only [lclearbuffer_loop, hh, if_true, release_all] <;> rw [← hsb]
  | cons a rest ih =>
    intro fuel sb L hq hfuel
    obtain ⟨n, b, hp, hn, hm, hb, hblk, hrest, hlo, hhi, hnil⟩ := queue_ok_head L sb a rest hq
    obtain ⟨hq1, hcb⟩ := queue_ok_release L sb a rest n hq hn sb.size
    cases fuel with
    | zero => simp at hfuel
    | succ f =>
      rw [lclearbuffer_loop, if_neg (by simp [hp])]
      rw [return_free_node_eq sb L a n hp hn]
      simp only []
      rw [ih f _ (release L a) hq1 (by simpa using hfuel)]
      rfl

/-- C8 (drain). On a well-formed queue with unread bytes `U`, `drain()` returns exactly
`U`; afterwards `size = 0`, `offset = 0`, `head` and `tail` are null, the free list starts
with the formerly linked nodes (last released first) followed by the old free list, and a
following `pop(1)` returns nil. -/
theorem lreadall_drains (as : List Nat) (fuel : Nat) (sb : socket_buffer) (L : State)
    (hq : queue_ok L sb as) (hfuel : as.length ≤ fuel) :
    lreadall fuel (.userdata sb) true L
      = .ok ([.string (unread L sb as)],
             { size := 0, offset := 0, head := none, tail := none }, release_all L as) ∧
    seg (release_all L as).nodes (release_all L as).free_node as.reverse L.free_node = true ∧
    lpopbuffer fuel (.userdata { size := 0, offset := 0, head := none, tail := none }) true 1
        (release_all L as)
      = .ok ([.nil, .integer 0], { size := 0, offset := 0, head := none, tail := none },
             release_all L as) := by
  refine ⟨?_, ?_, ?_⟩
  · simp only [lreadall, lua_touserdata, Bool.not_true, Bool.false_eq_true, if_false]
    rw [lreadall_loop_spec as fuel [] sb L hq hfuel]
    simp
  · exact release_all_free as L (linked_nodup _ _ _ hq.chain) (linked_lt _ _ _ _ hq.chain)
  · have h1 : to_int 1 = 1 := to_int_of_range 1 (by decide) (by decide)
    simp [lpopbuffer, lua_touserdata, h1]

theorem lreadall_drains_witness :
    lreadall 2 (.userdata line_queue) true line_state
      = .ok ([.string (unread line_state line_queue [0, 1])],
             { size := 0, offset := 0, head := none, tail := none },
             release_all line_state [0, 1]) ∧
    seg (release_all line_state [0, 1]).nodes (release_all line_state [0, 1]).free_node
      [0, 1].reverse line_state.free_node = true ∧
    lpopbuffer 2 (.userdata { size := 0, offset := 0, head := none, tail := none }) true 1
        (release_all line_state [0, 1])
      = .ok ([.nil, .integer 0], { size := 0, offset := 0, head := none, tail := none },
             release_all line_state [0, 1]) :=
  lreadall_drains [0, 1] 2 line_queue line_state line_queue_ok (by decide)

/-- C9 (clear). On a well-formed queue, `clear()` returns no value and leaves `size = 0`,
`offset = 0`, `head = tail = NULL`, with the formerly linked nodes at the front of the free
list; on an already-empty queue it changes neither the queue nor the memory; and with nil
as the queue argument it returns normally and changes nothing. -/
theorem lclearbuffer_clears (as : List Nat) (fuel : Nat) (sb : socket_buffer) (L : State)
    (hq : queue_ok L sb as) (hfuel : as.length ≤ fuel) :
    lclearbuffer fuel (.userdata sb) true L
      = .ok ([], .userdata { size := 0, offset := 0, head := none, tail := none },
             release_all L as) ∧
    seg (release_all L as).nodes (release_all L as).free_node as.reverse L.free_node = true ∧
    (∀ (f : Nat) (M : State),
      lclearbuffer f (.userdata lnewbuffer) true M = .ok ([], .userdata lnewbuffer, M)) ∧
    (∀ (f : Nat) (tbl : Bool) (M : State), lclearbuffer f .nil tbl M = .ok ([], .nil, M)) := by
  refine ⟨?_, ?_, ?_, ?_⟩
  · simp only [lclearbuffer, lua_touserdata, Bool.not_true, Bool.false_eq_true, if_false]
    rw [lclearbuffer_loop_spec as fuel sb L hq hfuel]
  · exact release_all_free as L (linked_nodup _ _ _ hq.chain) (linked_lt _ _ _ _ hq.chain)
  · intro f M
    cases f <;> simp [lclearbuffer, lua_touserdata, lclearbuffer_loop, lnewbuffer]
  · intro f tbl M
    simp [lclearbuffer, lua_touserdata]

theorem lclearbuffer_clears_witness :
    lclearbuffer 2 (.userdata line_queue) true line_state
      = .ok ([], .userdata { size := 0, offset := 0, head := none, tail := none },
             release_all line_state [0, 1]) ∧
    seg (release_all line_state [0, 1]).nodes (release_all line_state [0, 1]).free_node
      [0, 1].reverse line_state.free_node = true ∧
    (∀ (f : Nat) (M : State),
      lclearbuffer f (.userdata lnewbuffer) true M = .ok ([], .userdata lnewbuffer, M)) ∧
    (∀ (f : Nat) (tbl : Bool) (M : State), lclearbuffer f .nil tbl M = .ok ([], .nil, M)) :=
  lclearbuffer_clears [0, 1] 2 line_queue line_state line_queue_ok (by decide)

/-! ## Header codec -/

theorem shift_or_byte (x : Nat) (c : UInt8) (hx : x < 2 ^ 56) :
    ((x <<< 8) % 2 ^ 64) ||| c.toNat = x * 256 + c.toNat := by
  have hc : c.toNat < 2 ^ 8 := c.val.isLt
  rw [Nat.shiftLeft_eq, Nat.mod_eq_of_lt (by omega), Nat.mul_comm x (2 ^ 8),
    ← Nat.mul_add_lt_is_or hc x]

theorem to_lua_Integer_small (x : Nat) (h : x < 2 ^ 63) : to_lua_Integer x = (x : Int) := by
  simp only [to_lua_Integer, if_pos h]

/-- C10 (header value). For 1 to 4 bytes, `lheader` returns their big-endian unsigned
value, the sum of `b[i] * 256 ^ (n-1-i)`. -/
theorem lheader_value (b : List UInt8) (h1 : 1 ≤ b.length) (h4 : b.length ≤ 4) :
    lheader b = .ok [.integer (big_endian b)] := by
  have hb : ∀ c : UInt8, c.toNat < 256 := fun c => c.val.isLt
  match b, h1, h4 with
  | [c0], _, _ =>
    have := hb c0
    have e0 := shift_or_byte 0 c0 (by norm_num)
    have hv : big_endian [c0] = 0 * 256 + c0.toNat := by
      simp [big_endian, List.range_succ]
    simp only [lheader, lheader_loop, List.foldl, e0]
    rw [to_lua_Integer_small _ (by omega), hv]
    simp
  | [c0, c1], _, _ =>
    have := hb c0; have := hb c1
    have e0 := shift_or_byte 0 c0 (by norm_num)
    have e1 := shift_or_byte (0 * 256 + c0.toNat) c1 (by omega)
    have hv : big_endian [c0, c1] = (0 * 256 + c0.toNat) * 256 + c1.toNat := by
      simp [big_endian, List.range_succ]
    simp only [lheader, lheader_loop, List.foldl, e0, e1]
    rw [to_lua_Integer_small _ (by omega), hv]
    simp
  | [c0, c1, c2], _, _ =>
    have := hb c0; have := hb c1; have := hb c2
    have e0 := shift_or_byte 0 c0 (by norm_num)
    have e1 := shift_or_byte (0 * 256 + c0.toNat) c1 (by omega)
    have e2 := shift_or_byte ((0 * 256 + c0.toNat) * 256 + c1.toNat) c2 (by omega)
    have hv : big_endian [c0, c1, c2]
        = ((0 * 256 + c0.toNat) * 256 + c1.toNat) * 256 + c2.toNat := by
      simp [big_endian, List.range_succ]
      omega
    simp only [lheader, lheader_loop, List.foldl, e0, e1, e2]
    rw [to_lua_Integer_small _ (by omega), hv]
    simp
  | [c0, c1, c2, c3], _, _ =>
    have := hb c0; have := hb c1; have := hb c2; have := hb c3
    have e0 := shift_or_byte 0 c0 (by norm_num)
    have e1 := shift_or_byte (0 * 256 + c0.toNat) c1 (by omega)
    have e2 := shift_or_byte ((0 * 256 + c0.toNat) * 256 + c1.toNat) c2 (by omega)
    have e3 := shift_or_byte (((0 * 256 + c0.toNat) * 256 + c1.toNat) * 256 + c2.toNat) c3
      (by omega)
    have hv : big_endian [c0, c1, c2, c3]
        = (((0 * 256 + c0.toNat) * 256 + c1.toNat) * 256 + c2.toNat) * 256 + c3.toNat := by
      simp [big_endian, List.range_succ]
      omega
    simp only [lheader, lheader_loop, List.foldl, e0, e1, e2, e3]
    rw [to_lua_Integer_small _ (by omega), hv]
    simp

theorem lheader_value_witness :
    lheader [0x00, 0x00, 0x01, 0x00] = .ok [.integer 256] :=
  lheader_value [0x00, 0x00, 0x01, 0x00] (by decide) (by decide)

/-! ## Slab allocation -/

/-- The node `i` of a slab of `sz` nodes allocated at `base`. -/
theorem lnewpool_get (L : State) (sz i : Nat) (hi : i < sz) :
    (lnewpool L sz).2.nodes[L.nodes.length + i]?
      = some { msg := none, sz := 0,
               next := if i + 1 = sz then none else some (L.nodes.length + i + 1) } := by
  simp only [lnewpool]
  rw [List.getElem?_append_right (by omega)]
  have e : L.nodes.length + i - L.nodes.length = i := by omega
  rw [e, List.getElem?_modify]
  simp only [List.getElem?_map, List.getElem?_range hi, Option.map_some']
  by_cases h : i + 1 = sz
  · have : sz - 1 = i := by omega
    simp [this, h]
  · have : sz - 1 ≠ i := by omega
    simp [this, h]

theorem lnewpool_get_old (L : State) (sz a : Nat) (ha : a < L.nodes.length) :
    (lnewpool L sz).2.nodes[a]? = L.nodes[a]? := by
  simp only [lnewpool]
  rw [List.getElem?_append_left ha]

theorem lnewpool_fst (L : State) (sz : Nat) : (lnewpool L sz).1 = L.nodes.length := rfl

/-- The nodes `i .. sz-1` of a new slab form a chain that ends with `NULL`. -/
theorem lnewpool_chain (L : State) (sz : Nat) :
    ∀ (k i : Nat), i + k = sz →
      seg (lnewpool L sz).2.nodes (if k = 0 then none else some (L.nodes.length + i))
        (List.range' (L.nodes.length + i) k) none = true := by
  intro k
  induction k with
  | zero => intro i _; simp [seg]
  | succ k ih =>
    intro i hik
    rw [List.range'_succ, seg_cons_iff]
    refine ⟨by simp, _, lnewpool_get L sz i (by omega), ?_⟩
    have := ih (i + 1) (by omega)
    have e : L.nodes.length + (i + 1) = L.nodes.length + i + 1 := by omega
    rw [e] at this
    by_cases hk : k = 0
    · subst hk
      simpa [show i + 1 = sz by omega] using this
    · simpa [hk, show i + 1 ≠ sz by omega] using this

/-! ## Push -/

theorem grow_size_pos (L : State) : 16 ≤ grow_size L := by
  have key : ∀ t : Nat, 1 ≤ t → 16 ≤ 8 <<< t := by
    intro t ht
    rw [Nat.shiftLeft_eq]
    calc 16 = 8 * 2 ^ 1 := by norm_num
      _ ≤ 8 * 2 ^ t := Nat.mul_le_mul_left _ (Nat.pow_le_pow_right (by norm_num) ht)
  unfold grow_size
  dsimp only
  split_ifs
  · exact key _ (by omega)
  · exact key _ (by decide)
  · exact key _ (by omega)
  · exact key _ (by decide)

theorem grow_nodes (L : State) : (grow L).nodes = (lnewpool L (grow_size L)).2.nodes := by
  unfold grow grow_size
  dsimp only
  split_ifs <;> rfl

theorem grow_free_node (L : State) : (grow L).free_node = some L.nodes.length := by
  unfold grow
  dsimp only
  split_ifs <;> rfl

theorem grow_get_old (L : State) (a : Nat) (ha : a < L.nodes.length) :
    (grow L).nodes[a]? = L.nodes[a]? := by
  rw [grow_nodes, lnewpool_get_old L _ a ha]

theorem grow_linked (L : State) :
    linked (grow L).nodes (grow L).free_node (List.range' L.nodes.length (grow_size L)) = true := by
  have h := lnewpool_chain L (grow_size L) (grow_size L) 0 (by omega)
  have hpos := grow_size_pos L
  rw [if_neg (by omega)] at h
  rw [grow_free_node, grow_nodes]
  exact h

theorem lpushbuffer_link_free_node (sb : socket_buffer) (msg : Option raw_block) (sz : Int)
    (fn x : Option Nat) (L : State) :
    lpushbuffer_link sb msg sz fn { L with free_node := x } = lpushbuffer_link sb msg sz fn L := by
  cases fn <;> rfl

/-- With an empty free list, `lpushbuffer` first allocates a slab and then goes on as it
does with the new slab as the free list. -/
theorem lpushbuffer_grow (arg1 : lua_value) (tbl : Bool) (msg : Option raw_block) (sz : Int)
    (L : State) (h : L.free_node = none) :
    lpushbuffer arg1 tbl msg sz L = lpushbuffer arg1 tbl msg sz (grow L) := by
  have hg : (grow L).free_node ≠ none := by rw [grow_free_node]; simp
  unfold lpushbuffer
  cases lua_touserdata arg1 with
  | none => rfl
  | some sb =>
    dsimp only
    by_cases hm : msg = none
    · rw [if_pos hm, if_pos hm]
    · rw [if_neg hm, if_neg hm]
      by_cases ht : (!tbl) = true
      · rw [if_pos ht, if_pos ht]
      · rw [if_neg ht, if_neg ht, if_pos h, if_neg hg, grow_free_node]
        unfold grow
        dsimp only [lnewpool]
        rw [lpushbuffer_link_free_node]
        rfl

theorem chain_bytes_congr_block (n1 n2 : List buffer_node) (as : List Nat)
    (h : ∀ a ∈ as, block_of n1 a = block_of n2 a) : chain_bytes n1 as = chain_bytes n2 as := by
  induction as with
  | nil => rfl
  | cons x xs ih =>
    simp only [chain_bytes, h x (List.mem_cons_self _ _),
      ih (fun a ha => h a (List.mem_cons_of_mem _ ha))]

theorem head_len_le_chain (nodes : List buffer_node) (as : List Nat) :
    head_len nodes as ≤ (chain_bytes nodes as).length := by
  cases as with
  | nil => simp [head_len]
  | cons x xs => simp [head_len, chain_bytes]

theorem block_of_eq (nodes : List buffer_node) (a : Nat) (m : buffer_node) (b : raw_block)
    (h : nodes[a]? = some m) (hm : m.msg = some b) : block_of nodes a = b.bytes := by
  simp [block_of, h, hm]

theorem block_of_same_msg (n1 n2 : List buffer_node) (a : Nat) (m1 m2 : buffer_node)
    (h1 : n1[a]? = some m1) (h2 : n2[a]? = some m2) (hm : m1.msg = m2.msg) :
    block_of n1 a = block_of n2 a := by
  simp [block_of, h1, h2, hm]

theorem holds_same (n1 n2 : List buffer_node) (a : Nat) (m1 m2 : buffer_node)
    (h1 : n1[a]? = some m1) (h2 : n2[a]? = some m2) (hm : m1.msg = m2.msg) (hs : m1.sz = m2.sz) :
    holds n1 a = holds n2 a := by
  simp [holds, h1, h2, hm, hs]

theorem holds_of (nodes : List buffer_node) (a : Nat) (m : buffer_node) (b : raw_block)
    (h : nodes[a]? = some m) (hm : m.msg = some b) (hs : (b.bytes.length : Int) = m.sz) :
    holds nodes a = true := by
  simp [holds, h, hm, hs]

theorem get_of_lt (nodes : List buffer_node) (a : Nat) (h : a < nodes.length) :
    ∃ m, nodes[a]? = some m := ⟨nodes[a], List.getElem?_eq_getElem h⟩

/-- The unread bytes after one more node, holding `bs`, was linked behind the nodes `as`
whose blocks did not change. -/
theorem unread_snoc (L L' : State) (sb sb' : socket_buffer) (as : List Nat) (f : Nat)
    (bs : List UInt8) (hoff : sb'.offset = sb.offset)
    (h1 : sb.offset ≤ (head_len L.nodes as : Int))
    (hsame : ∀ a ∈ as, block_of L'.nodes a = block_of L.nodes a)
    (hf : block_of L'.nodes f = bs) :
    unread L' sb' (as ++ [f]) = unread L sb as ++ bs := by
  have hle := head_len_le_chain L.nodes as
  simp only [unread, hoff, chain_bytes_append, chain_bytes, hf, List.append_nil,
    chain_bytes_congr_block _ _ _ hsame]
  rw [List.drop_append_of_le_length (by omega)]

/-- Linking the free node `f` behind a well-formed queue, for any message pointer and any
`int` size: what `lpushbuffer_link` returns and what it does to the links, when the free list
`f :: fs` is a chain apart from the queue. -/
theorem lpushbuffer_link_struct (sb : socket_buffer) (L : State) (as fs : List Nat) (f : Nat)
    (msg : Option raw_block) (sz : Int) (hq : queue_ok L sb as)
    (hfree : linked L.nodes (some f) (f :: fs) = true) (hdisj : ∀ a ∈ as, a ∉ f :: fs) :
    ∃ sb' L',
      lpushbuffer_link sb msg sz (some f) L
        = .ok ([.integer (to_int (sb.size + sz))], sb', L') ∧
      sb'.size = to_int (sb.size + sz) ∧ sb'.offset = sb.offset ∧ sb'.tail = some f ∧
      sb'.head = (if as = [] then some f else sb.head) ∧
      linked L'.nodes sb'.head (as ++ [f]) = true ∧
      L'.nodes[f]? = some { msg := msg, sz := sz, next := none } ∧
      (∀ a ∈ as, some a ≠ sb.tail → L'.nodes[a]? = L.nodes[a]?) ∧
      (∀ a ∈ as, ∃ m m', L.nodes[a]? = some m ∧ L'.nodes[a]? = some m' ∧
        m'.msg = m.msg ∧ m'.sz = m.sz) ∧
      linked L'.nodes L'.free_node fs = true ∧
      (∀ a, a ∉ as → a ≠ f → L'.nodes[a]? = L.nodes[a]?) ∧
      L'.nodes.length = L.nodes.length ∧ L'.chunks = L.chunks ∧ L'.freed = L.freed ∧
      (∃ nf, L.nodes[f]? = some nf ∧ L'.free_node = nf.next) := by
  obtain ⟨_, nf, hnf, hfs⟩ := (seg_cons_iff _ _ _ _ _).1 hfree
  have hf_as : f ∉ as := fun h => hdisj f h (List.mem_cons_self _ _)
  have hf_fs : f ∉ fs := linked_head_not_mem _ _ _ _ hfree
  have hflt : f < L.nodes.length := linked_lt _ _ _ _ hfree f (List.mem_cons_self _ _)
  have has_fs : ∀ a ∈ as, a ∉ fs := fun a ha h => hdisj a ha (List.mem_cons_of_mem _ h)
  rcases List.eq_nil_or_concat as with rfl | ⟨init, t, rfl⟩
  · -- the queue was empty
    have hh : sb.head = none := by simpa [linked, seg_nil_iff] using hq.chain
    have ht : sb.tail = none := by simpa using hq.last
    have hget : (L.nodes.set f { msg := msg, sz := sz, next := none })[f]?
        = some { msg := msg, sz := sz, next := none } := List.getElem?_set_self hflt
    refine ⟨⟨to_int (sb.size + sz), sb.offset, some f, some f⟩,
      store { L with free_node := nf.next } f { msg := msg, sz := sz, next := none },
      ?_, rfl, rfl, rfl, by simp, ?_, hget, by simp, by simp, ?_, ?_, ?_, rfl, rfl,
      ⟨nf, hnf, rfl⟩⟩
    · simp only [lpushbuffer_link, deref, hnf, hh, ht, if_true]
    · show seg _ (some f) [f] none = true
      rw [seg_cons_iff]
      exact ⟨rfl, _, hget, (seg_nil_iff _ _ _).2 rfl⟩
    · exact (seg_congr (L.nodes.set f { msg := msg, sz := sz, next := none }) L.nodes fs
        nf.next none (fun a ha =>
          List.getElem?_set_ne (fun e => hf_fs (by rw [e]; exact ha)))).trans hfs
    · intro a _ hne
      exact List.getElem?_set_ne (fun e => hne e.symm)
    · show (L.nodes.set f _).length = _
      rw [List.length_set]
  · -- the queue ends with the node `t`
    rw [List.concat_eq_append] at hq hf_as has_fs hdisj ⊢
    obtain ⟨m, hinit, hlast⟩ := (seg_append _ _ _ _ _).1 hq.chain
    obtain ⟨hm, tn, htn, htnext⟩ := (seg_cons_iff _ _ _ _ _).1 hlast
    rw [seg_nil_iff] at htnext
    subst hm
    have htail : sb.tail = some t := by rw [hq.last]; simp
    have hne : sb.head ≠ none := by
      intro e
      have := hq.chain
      rw [e] at this
      cases init <;> simp [linked, seg] at this
    have htf : t ≠ f := fun e => hf_as (by rw [← e]; simp)
    have hnd : (init ++ [t]).Nodup := linked_nodup _ _ _ hq.chain
    have ht_init : t ∉ init := fun h => by
      have := List.disjoint_of_nodup_append hnd h
      simp at this
    have hf_init : f ∉ init := fun h => hf_as (List.mem_append_left _ h)
    have htlt : t < L.nodes.length :=
      linked_lt _ _ _ _ hq.chain t (by simp)
    -- the node store after the call
    have hgt : ((L.nodes.set f { msg := msg, sz := sz, next := none }).set t
        { tn with next := some f })[t]? = some { tn with next := some f } :=
      List.getElem?_set_self (by rw [List.length_set]; exact htlt)
    have hgf : ((L.nodes.set f { msg := msg, sz := sz, next := none }).set t
        { tn with next := some f })[f]? = some { msg := msg, sz := sz, next := none } := by
      rw [List.getElem?_set_ne htf]
      exact List.getElem?_set_self hflt
    have hgo : ∀ a, a ≠ t → a ≠ f →
        ((L.nodes.set f { msg := msg, sz := sz, next := none }).set t
          { tn with next := some f })[a]? = L.nodes[a]? := fun a h1 h2 => by
      rw [List.getElem?_set_ne (fun e => h1 e.symm), List.getElem?_set_ne (fun e => h2 e.symm)]
    have hsame : ∀ a ∈ init ++ [t], ∃ m m', L.nodes[a]? = some m ∧
        ((L.nodes.set f { msg := msg, sz := sz, next := none }).set t
          { tn with next := some f })[a]? = some m' ∧ m'.msg = m.msg ∧ m'.sz = m.sz := by
      intro a ha
      by_cases hat : a = t
      · subst hat
        exact ⟨tn, _, htn, hgt, rfl, rfl⟩
      · have haf : a ≠ f := fun e => hf_as (by rw [← e]; exact ha)
        obtain ⟨m, hm⟩ := get_of_lt L.nodes a (linked_lt _ _ _ _ hq.chain a ha)
        exact ⟨m, m, hm, by rw [hgo a hat haf, hm], rfl, rfl⟩
    refine ⟨⟨to_int (sb.size + sz), sb.offset, sb.head, some f⟩,
      store (store { L with free_node := nf.next } f { msg := msg, sz := sz, next := none }) t
        { tn with next := some f },
      ?_, rfl, rfl, rfl, by simp, ?_, hgf, ?_, hsame, ?_, ?_, ?_, rfl, rfl, ⟨nf, hnf, rfl⟩⟩
    · have hd : deref (store { L with free_node := nf.next } f
          { msg := msg, sz := sz, next := none }) (some t) = .ok tn := by
        simp only [deref, store]
        rw [List.getElem?_set_ne (fun e => htf e.symm), htn]
      simp only [lpushbuffer_link, deref, hnf, if_neg hne, htail]
      simp only [deref] at hd
      simp only [hd]
    · show seg _ sb.head (init ++ [t] ++ [f]) none = true
      rw [List.append_assoc, seg_append]
      refine ⟨some t, ?_, ?_⟩
      · exact (seg_congr _ L.nodes init _ _ (fun a ha =>
          hgo a (fun e => ht_init (by rw [← e]; exact ha))
            (fun e => hf_init (by rw [← e]; exact ha)))).trans hinit
      · show seg _ (some t) [t, f] none = true
        rw [seg_cons_iff]
        refine ⟨rfl, _, hgt, ?_⟩
        rw [seg_cons_iff]
        exact ⟨rfl, _, hgf, (seg_nil_iff _ _ _).2 rfl⟩
    · intro a ha hat
      have hat' : a ≠ t := fun e => hat (by rw [htail, e])
      exact hgo a hat' (fun e => hf_as (by rw [← e]; exact ha))
    · exact (seg_congr _ L.nodes fs nf.next none (fun a ha =>
        hgo a (fun e => has_fs t (by simp) (by rw [← e]; exact ha))
          (fun e => hf_fs (by rw [← e]; exact ha)))).trans hfs
    · intro a ha haf
      exact hgo a (fun e => ha (by rw [e]; simp)) haf
    · show ((L.nodes.set f _).set t _).length = _
      rw [List.length_set, List.length_set]

/-- Linking the free node `f` behind a well-formed queue with a block of length `n`: the
queue stays well formed and the block is appended to the unread bytes; the size becomes
`size + n` as a C `int`. -/
theorem lpushbuffer_link_spec (sb : socket_buffer) (L : State) (as fs : List Nat) (f : Nat)
    (B : raw_block) (n : Int) (hq : queue_ok L sb as) (hlen : (B.bytes.length : Int) = n)
    (hfree : linked L.nodes (some f) (f :: fs) = true) (hdisj : ∀ a ∈ as, a ∉ f :: fs) :
    ∃ sb' L',
      lpushbuffer_link sb (some B) n (some f) L
        = .ok ([.integer (to_int (sb.size + n))], sb', L') ∧
      sb'.size = to_int (sb.size + n) ∧ sb'.offset = sb.offset ∧ sb'.tail = some f ∧
      sb'.head = (if as = [] then some f else sb.head) ∧
      queue_ok L' sb' (as ++ [f]) ∧
      unread L' sb' (as ++ [f]) = unread L sb as ++ B.bytes ∧
      (∀ a ∈ as, some a ≠ sb.tail → L'.nodes[a]? = L.nodes[a]?) ∧
      (∀ a ∈ as, ∃ m m', L.nodes[a]? = some m ∧ L'.nodes[a]? = some m' ∧
        m'.msg = m.msg ∧ m'.sz = m.sz) ∧
      linked L'.nodes L'.free_node fs = true ∧
      (∀ a, a ∉ as → a ≠ f → L'.nodes[a]? = L.nodes[a]?) ∧
      L'.nodes.length = L.nodes.length ∧ L'.chunks = L.chunks ∧ L'.freed = L.freed := by
  obtain ⟨sb', L', hrun, h1, h2, h3, h4, hch, hnode, h7, hsame, h9, h10, h11, h12, h13, _⟩ :=
    lpushbuffer_link_struct sb L as fs f (some B) n hq hfree hdisj
  have hblock : ∀ a ∈ as, block_of L'.nodes a = block_of L.nodes a := by
    intro a ha
    obtain ⟨m, m', e1, e2, e3, _⟩ := hsame a ha
    exact block_of_same_msg _ _ a m' m e2 e1 e3
  have hhead : head_len L'.nodes (as ++ [f]) = head_len L.nodes as ∨ as = [] := by
    cases as with
    | nil => exact Or.inr rfl
    | cons x xs =>
      left
      simp only [List.cons_append, head_len, hblock x (List.mem_cons_self _ _)]
  refine ⟨sb', L', hrun, h1, h2, h3, h4, ?_, ?_, h7, hsame, h9, h10, h11, h12, h13⟩
  · refine ⟨hch, by rw [h3]; simp, ?_, by rw [h2]; exact hq.offset_lo, ?_⟩
    · intro a ha
      rcases List.mem_append.1 ha with ha | ha
      · obtain ⟨m, m', e1, e2, e3, e4⟩ := hsame a ha
        exact (holds_same _ L.nodes a m' m e2 e1 e3 e4).trans (hq.blocks a ha)
      · simp only [List.mem_singleton] at ha
        rw [ha]
        exact holds_of _ f _ B hnode rfl hlen
    · rw [h2]
      rcases hhead with e | e
      · rw [e]; exact hq.offset_hi
      · subst e
        have hlo := hq.offset_lo
        have hhi := hq.offset_hi
        simp only [head_len] at hhi
        have : sb.offset = 0 := by omega
        rw [this]
        exact Int.ofNat_nonneg _
  · exact unread_snoc L L' sb sb' as f B.bytes h2 hq.offset_hi hblock
      (block_of_eq _ _ _ B hnode rfl)

theorem block_of_congr (n1 n2 : List buffer_node) (a : Nat) (h : n1[a]? = n2[a]?) :
    block_of n1 a = block_of n2 a := by
  simp only [block_of, h]

/-- A queue stays well formed, with the same unread bytes, in a memory that agrees with the
old one on the linked nodes. -/
theorem queue_ok_congr (L L' : State) (sb : socket_buffer) (as : List Nat)
    (h : ∀ a ∈ as, L'.nodes[a]? = L.nodes[a]?) (hq : queue_ok L sb as) :
    queue_ok L' sb as ∧ unread L' sb as = unread L sb as := by
  have hcb := chain_bytes_congr L'.nodes L.nodes as h
  refine ⟨⟨(seg_congr _ _ as _ _ h).trans hq.chain, hq.last,
    fun a ha => (holds_congr _ _ a (h a ha)).trans (hq.blocks a ha), hq.offset_lo, ?_⟩, ?_⟩
  · have : head_len L'.nodes as = head_len L.nodes as := by
      cases as with
      | nil => rfl
      | cons x xs => simp only [head_len, block_of_congr _ _ x (h x (List.mem_cons_self _ _))]
    rw [this]
    exact hq.offset_hi
  · simp only [unread, hcb]

/-- What `lpushbuffer` does on a well-formed queue when the free list is a chain `fs` that
shares no node with the queue and the length of the block is an `int`. -/
theorem lpushbuffer_spec (sb : socket_buffer) (L : State) (as fs : List Nat) (B : raw_block)
    (n : Int) (hq : queue_ok L sb as) (hlen : (B.bytes.length : Int) = n)
    (hn : n < 2147483648)
    (hfree : linked L.nodes L.free_node fs = true) (hdisj : ∀ a ∈ as, a ∉ fs) :
    ∃ f sb' L' fs',
      lpushbuffer (.userdata sb) true (some B) n L
        = .ok ([.integer (to_int (sb.size + n))], sb', L') ∧
      sb'.size = to_int (sb.size + n) ∧ sb'.offset = sb.offset ∧ sb'.tail = some f ∧
      sb'.head = (if as = [] then some f else sb.head) ∧ f ∉ as ∧
      queue_ok L' sb' (as ++ [f]) ∧
      unread L' sb' (as ++ [f]) = unread L sb as ++ B.bytes ∧
      (∀ a ∈ as, some a ≠ sb.tail → L'.nodes[a]? = L.nodes[a]?) ∧
      (∀ a ∈ as, ∃ m m', L.nodes[a]? = some m ∧ L'.nodes[a]? = some m' ∧
        m'.msg = m.msg ∧ m'.sz = m.sz) ∧
      linked L'.nodes L'.free_node fs' = true ∧ (∀ a ∈ as ++ [f], a ∉ fs') := by
  have haslt : ∀ a ∈ as, a < L.nodes.length := linked_lt _ _ _ _ hq.chain
  have hn' : to_int n = n := to_int_of_range n (by omega) hn
  cases fs with
  | cons f fs =>
    have hfn : L.free_node = some f := seg_start _ _ _ _ _ hfree
    rw [hfn] at hfree
    obtain ⟨sb', L', hrun, h1, h2, h3, h4, h5, h6, h7, h8, h9, _⟩ :=
      lpushbuffer_link_spec sb L as fs f B n hq hlen hfree hdisj
    refine ⟨f, sb', L', fs, ?_, h1, h2, h3, h4,
      fun h => hdisj f h (List.mem_cons_self _ _), h5, h6, h7, h8, h9, ?_⟩
    · simp only [lpushbuffer, lua_touserdata, Bool.not_true, Bool.false_eq_true, if_false, hn']
      rw [if_neg (by simp), if_neg (by simp [hfn]), hfn]
      exact hrun
    · intro a ha
      rcases List.mem_append.1 ha with ha | ha
      · exact fun h => hdisj a ha (List.mem_cons_of_mem _ h)
      · simp only [List.mem_singleton] at ha
        rw [ha]
        exact linked_head_not_mem _ _ _ _ hfree
  | nil =>
    have hfn : L.free_node = none := by simpa [linked, seg_nil_iff] using hfree
    have hpos := grow_size_pos L
    have hagree : ∀ a ∈ as, (grow L).nodes[a]? = L.nodes[a]? :=
      fun a ha => grow_get_old L a (haslt a ha)
    obtain ⟨hq', hun'⟩ := queue_ok_congr L (grow L) sb as hagree hq
    have hrange : List.range' L.nodes.length (grow_size L)
        = L.nodes.length :: List.range' (L.nodes.length + 1) (grow_size L - 1) := by
      have : grow_size L = (grow_size L - 1) + 1 := by omega
      conv_lhs => rw [this, List.range'_succ]
    have hfree' : linked (grow L).nodes (some L.nodes.length)
        (L.nodes.length :: List.range' (L.nodes.length + 1) (grow_size L - 1)) = true := by
      have := grow_linked L
      rw [grow_free_node, hrange] at this
      exact this
    have hdisj' : ∀ a ∈ as,
        a ∉ L.nodes.length :: List.range' (L.nodes.length + 1) (grow_size L - 1) := by
      intro a ha h
      have := haslt a ha
      rw [← hrange, List.mem_range'_1] at h
      omega
    obtain ⟨sb', L', hrun, h1, h2, h3, h4, h5, h6, h7, h8, h9, _⟩ :=
      lpushbuffer_link_spec sb (grow L) as _ L.nodes.length B n hq' hlen hfree' hdisj'
    refine ⟨L.nodes.length, sb', L', _, ?_, h1, h2, h3, h4,
      fun h => absurd (haslt _ h) (lt_irrefl _), h5, by rw [h6, hun'], ?_, ?_, h9, ?_⟩
    · rw [lpushbuffer_grow _ _ _ _ L hfn]
      simp only [lpushbuffer, lua_touserdata, Bool.not_true, Bool.false_eq_true, if_false, hn']
      rw [if_neg (by simp), if_neg (by rw [grow_free_node]; simp), grow_free_node]
      exact hrun
    · intro a ha hat
      rw [h7 a ha hat, hagree a ha]
    · intro a ha
      obtain ⟨m, m', e1, e2, e3, e4⟩ := h8 a ha
      exact ⟨m, m', by rw [← hagree a ha, e1], e2, e3, e4⟩
    · intro a ha
      rcases List.mem_append.1 ha with ha | ha
      · exact fun h => hdisj' a ha (List.mem_cons_of_mem _ h)
      · simp only [List.mem_singleton] at ha
        rw [ha]
        exact linked_head_not_mem _ _ _ _ hfree'

theorem lnewbuffer_ok (L : State) : queue_ok L lnewbuffer [] :=
  ⟨rfl, rfl, fun a ha => absurd ha (List.not_mem_nil a), le_refl _, le_refl _⟩

theorem big_block_length : (big_block.bytes.length : Int) = 2147483647 := by
  rw [big_block, List.length_replicate]
  rfl

/-- The queue that holds `big_block` alone, pushed on a new queue over the fresh pool: it is
well formed and its `size`, `2 ^ 31 - 1`, is the number of unread bytes. -/
theorem push_big_block :
    ∃ sb L f fs,
      lpushbuffer (.userdata lnewbuffer) true (some big_block) big_block.bytes.length
        fresh_state = .ok ([.integer 2147483647], sb, L) ∧
      queue_ok L sb [f] ∧ sb.size = 2147483647 ∧ unread L sb [f] = big_block.bytes ∧
      linked L.nodes L.free_node fs = true ∧ (∀ a ∈ [f], a ∉ fs) := by
  obtain ⟨f, sb, L, fs, hrun, hs, _, _, _, _, hq, hun, _, _, hfree, hdisj⟩ :=
    lpushbuffer_spec lnewbuffer fresh_state [] [] big_block 2147483647 (lnewbuffer_ok _)
      big_block_length (by decide) rfl (fun a ha => absurd ha (List.not_mem_nil a))
  have e : to_int (lnewbuffer.size + 2147483647) = 2147483647 := by decide
  rw [e] at hrun hs
  refine ⟨sb, L, f, fs, ?_, hq, hs, ?_, hfree, hdisj⟩
  · rw [big_block_length]
    exact hrun
  · exact hun.trans (by rw [unread_nil, List.nil_append])

/-- The queue after `big_block` and `one_block` were pushed, each with its true length, on a
new queue over the fresh pool: it is well formed and holds `2 ^ 31` unread bytes, but its
`size` is `-2 ^ 31`. -/
theorem push_big_one :
    ∃ sb1 L1 sb L f1 f2,
      lpushbuffer (.userdata lnewbuffer) true (some big_block) big_block.bytes.length
        fresh_state = .ok ([.integer 2147483647], sb1, L1) ∧
      lpushbuffer (.userdata sb1) true (some one_block) one_block.bytes.length L1
        = .ok ([.integer (-2147483648)], sb, L) ∧
      queue_ok L sb [f1, f2] ∧ sb.size = -2147483648 ∧
      unread L sb [f1, f2] = big_block.bytes ++ one_block.bytes := by
  obtain ⟨sb1, L1, f1, fs, hrun, hq, hs, hun, hfree, hdisj⟩ := push_big_block
  obtain ⟨f2, sb, L, fs', hrun', hs', _, _, _, _, hq', hun', _⟩ :=
    lpushbuffer_spec sb1 L1 [f1] fs one_block 1 hq rfl (by decide) hfree hdisj
  have e : to_int (sb1.size + 1) = -2147483648 := by rw [hs]; decide
  rw [e] at hrun' hs'
  exact ⟨sb1, L1, sb, L, f1, f2, hrun, hrun', hq', hs', hun'.trans (by rw [hun])⟩

/-- C7, as stated, fails: on the queue that holds the one block `big_block` of
`2 ^ 31 - 1` bytes (pushed with its true length on a new queue, so `size` is the number of
unread bytes), `push` of the one-byte block returns `-2 ^ 31` and stores it in `size`,
not `size + 1`. -/
theorem lpushbuffer_size_wraps :
    ∃ sb L as,
      push_all [big_block] lnewbuffer fresh_state = .ok (sb, L) ∧
      queue_ok L sb as ∧ sb.size = 2147483647 ∧
      ((unread L sb as).length : Int) = 2147483647 ∧
      (one_block.bytes.length : Int) = 1 ∧
      ∃ sb' L',
        lpushbuffer (.userdata sb) true (some one_block) 1 L
          = .ok ([.integer (-2147483648)], sb', L') ∧
        sb'.size = -2147483648 ∧ sb'.size ≠ sb.size + 1 := by
  obtain ⟨sb, L, f, fs, hrun, hq, hs, hun, hfree, hdisj⟩ := push_big_block
  obtain ⟨f', sb', L', fs', hrun', hs', _⟩ :=
    lpushbuffer_spec sb L [f] fs one_block 1 hq rfl (by decide) hfree hdisj
  have e : to_int (sb.size + 1) = -2147483648 := by rw [hs]; decide
  rw [e] at hrun' hs'
  refine ⟨sb, L, [f], ?_, hq, hs, by rw [hun]; exact big_block_length, rfl, sb', L', hrun',
    hs', by rw [hs', hs]; decide⟩
  simp only [push_all, hrun]

/-- C7 (push, amended). On a well-formed queue with unread bytes `U`, with a free list that
is a chain apart from the queue, `push(B, n)` for a block `B` of length `n <= 2 ^ 31 - 1`
returns `size + n` as a C `int` (`to_int`), which is `size + n` itself when that lies
between `-2 ^ 31` and `2 ^ 31 - 1`, and stores it in `size`; the unread bytes become
`U ++ B`; the new node `f` is the tail, linked behind the old tail, or head and tail of a
queue that was empty; `offset` and the block and length of every node linked before are
unchanged, and so is every such node but the old tail, whose `next` now points to `f`. -/
theorem lpushbuffer_appends (sb : socket_buffer) (L : State) (as fs : List Nat) (B : raw_block)
    (n : Int) (hq : queue_ok L sb as) (hlen : (B.bytes.length : Int) = n)
    (hn : n < 2147483648)
    (hfree : linked L.nodes L.free_node fs = true) (hdisj : ∀ a ∈ as, a ∉ fs) :
    ∃ f sb' L',
      lpushbuffer (.userdata sb) true (some B) n L
        = .ok ([.integer (to_int (sb.size + n))], sb', L') ∧
      sb'.size = to_int (sb.size + n) ∧
      (-2147483648 ≤ sb.size + n → sb.size + n < 2147483648 → sb'.size = sb.size + n) ∧
      sb'.offset = sb.offset ∧ sb'.tail = some f ∧
      sb'.head = (if as = [] then some f else sb.head) ∧ f ∉ as ∧
      queue_ok L' sb' (as ++ [f]) ∧
      unread L' sb' (as ++ [f]) = unread L sb as ++ B.bytes ∧
      (∀ a ∈ as, some a ≠ sb.tail → L'.nodes[a]? = L.nodes[a]?) ∧
      (∀ a ∈ as, ∃ m m', L.nodes[a]? = some m ∧ L'.nodes[a]? = some m' ∧
        m'.msg = m.msg ∧ m'.sz = m.sz) := by
  obtain ⟨f, sb', L', _, h⟩ := lpushbuffer_spec sb L as fs B n hq hlen hn hfree hdisj
  exact ⟨f, sb', L', h.1, h.2.1, fun h0 h1 => by rw [h.2.1, to_int_of_range _ h0 h1],
    h.2.2.1, h.2.2.2.1, h.2.2.2.2.1, h.2.2.2.2.2.1,
    h.2.2.2.2.2.2.1, h.2.2.2.2.2.2.2.1, h.2.2.2.2.2.2.2.2.1, h.2.2.2.2.2.2.2.2.2.1⟩

theorem lpushbuffer_appends_witness :
    ∃ f sb' L',
      lpushbuffer (.userdata demo_queue) true (some { addr := 300, bytes := [6, 7] }) 2 demo_state
        = .ok ([.integer (to_int (demo_queue.size + 2))], sb', L') ∧
      sb'.size = to_int (demo_queue.size + 2) ∧
      (-2147483648 ≤ demo_queue.size + 2 → demo_queue.size + 2 < 2147483648 →
        sb'.size = demo_queue.size + 2) ∧
      sb'.offset = demo_queue.offset ∧ sb'.tail = some f ∧
      sb'.head = (if ([0, 1] : List Nat) = [] then some f else demo_queue.head) ∧ f ∉ [0, 1] ∧
      queue_ok L' sb' ([0, 1] ++ [f]) ∧
      unread L' sb' ([0, 1] ++ [f]) = unread demo_state demo_queue [0, 1] ++ [6, 7] ∧
      (∀ a ∈ [0, 1], some a ≠ demo_queue.tail → L'.nodes[a]? = demo_state.nodes[a]?) ∧
      (∀ a ∈ [0, 1], ∃ m m', demo_state.nodes[a]? = some m ∧ L'.nodes[a]? = some m' ∧
        m'.msg = m.msg ∧ m'.sz = m.sz) :=
  lpushbuffer_appends demo_queue demo_state [0, 1] [2] { addr := 300, bytes := [6, 7] } 2
    demo_queue_ok (by decide) (by decide) (by decide) (by decide)

/-! ## Round trip -/

theorem push_all_spec (Bs : List raw_block) :
    ∀ (sb : socket_buffer) (L : State) (as fs : List Nat),
      queue_ok L sb as → sb.size = (unread L sb as).length →
      ((unread L sb as).length : Int) + ((Bs.map (·.bytes)).flatten.length : Int)
        < 2147483648 →
      linked L.nodes L.free_node fs = true → (∀ a ∈ as, a ∉ fs) →
      ∃ sb' L' as',
        push_all Bs sb L = .ok (sb', L') ∧ queue_ok L' sb' as' ∧
        sb'.size = (unread L' sb' as').length ∧
        unread L' sb' as' = unread L sb as ++ (Bs.map (·.bytes)).flatten ∧
        as'.length = as.length + Bs.length := by
  induction Bs with
  | nil =>
    intro sb L as fs hq hsize _ _ _
    exact ⟨sb, L, as, rfl, hq, hsize, by simp, by simp⟩
  | cons B Bs ih =>
    intro sb L as fs hq hsize hint hfree hdisj
    simp only [List.map_cons, List.flatten_cons, List.length_append] at hint
    push_cast at hint
    obtain ⟨f, sb1, L1, fs1, hrun, hs, _, _, _, _, hq1, hun1, _, _, hfree1, hdisj1⟩ :=
      lpushbuffer_spec sb L as fs B B.bytes.length hq rfl (by omega) hfree hdisj
    have hsize1 : sb1.size = (unread L1 sb1 (as ++ [f])).length := by
      rw [hs, hun1, hsize, List.length_append, to_int_of_range _ (by omega) (by omega)]
      push_cast
      rfl
    obtain ⟨sb', L', as', hrun', hq', hsize', hun', hlen'⟩ :=
      ih sb1 L1 (as ++ [f]) fs1 hq1 hsize1
        (by rw [hun1, List.length_append]; push_cast; omega) hfree1 hdisj1
    refine ⟨sb', L', as', ?_, hq', hsize', ?_, ?_⟩
    · simp only [push_all, hrun]
      exact hrun'
    · rw [hun', hun1]
      simp
    · rw [hlen']
      simp
      omega

theorem pop_all_spec (fuel : Nat) (ks : List Int) :
    ∀ (sb : socket_buffer) (L : State) (as : List Nat),
      queue_ok L sb as → sb.size = (unread L sb as).length → sb.size < 2147483648 →
      (∀ k ∈ ks, 0 < k) → ks.sum ≤ (unread L sb as).length → as.length ≤ fuel →
      ∃ (ss : List (List UInt8)) (sb' : socket_buffer) (L' : State),
        pop_all fuel ks sb L = .ok (ss.map some, sb', L') ∧
        ss.map (fun s => (s.length : Int)) = ks ∧
        ss.flatten = (unread L sb as).take ks.sum.toNat := by
  induction ks with
  | nil =>
    intro sb L as _ _ _ _ _ _
    exact ⟨[], sb, L, rfl, rfl, by simp⟩
  | cons k ks ih =>
    intro sb L as hq hsize hint hpos hsum hfuel
    have hk : 0 < k := hpos k (List.mem_cons_self _ _)
    have hpos' : ∀ x ∈ ks, 0 < x := fun x hx => hpos x (List.mem_cons_of_mem _ hx)
    have hnn : 0 ≤ ks.sum := List.sum_nonneg (fun x hx => le_of_lt (hpos' x hx))
    rw [List.sum_cons] at hsum
    obtain ⟨sb1, pre, post, hsplit, hrun, hs1, hq1, hun1⟩ :=
      lpopbuffer_spec as fuel sb L k hq (le_of_eq hsize) hint hk (by omega) hfuel
    have hlen1 : ((unread (release_all L pre) sb1 post).length : Int)
        = (unread L sb as).length - k := by
      rw [hun1, List.length_drop]
      omega
    obtain ⟨ss, sb', L', hrun', hlens, hcat⟩ :=
      ih sb1 (release_all L pre) post hq1 (by rw [hs1, hlen1, hsize]) (by omega) hpos'
        (by rw [hlen1]; omega)
        (by rw [hsplit, List.length_append] at hfuel; omega)
    refine ⟨(unread L sb as).take k.toNat :: ss, sb', L', ?_, ?_, ?_⟩
    · simp only [pop_all, hrun, hrun', List.map_cons]
    · simp only [List.map_cons, hlens, List.length_take]
      congr 1
      omega
    · rw [List.flatten_cons, hcat, hun1, List.sum_cons]
      have : (k + ks.sum).toNat = k.toNat + ks.sum.toNat := by omega
      rw [this, List.take_add]

/-- C1, as stated, fails: `big_block` (`2 ^ 31 - 1` bytes) and `one_block` (1 byte) pushed
on a new queue, each with its true length, hold `2 ^ 31` bytes, but `size` has wrapped to
`-2 ^ 31`, so `pop(2 ^ 31 - 1)` and `pop(1)`, whose sizes are positive and sum to the total,
both return nil. -/
theorem round_trip_fails_past_int :
    ∃ sb L,
      push_all [big_block, one_block] lnewbuffer fresh_state = .ok (sb, L) ∧
      (([big_block, one_block].map (·.bytes)).flatten.length : Int) = 2147483647 + 1 ∧
      pop_all 2 [2147483647, 1] sb L = .ok ([none, none], sb, L) := by
  obtain ⟨sb1, L1, sb, L, f1, f2, hrun1, hrun2, hq, hs, hun⟩ := push_big_one
  have e1 : to_int 2147483647 = 2147483647 := by decide
  have e2 : to_int 1 = 1 := by decide
  refine ⟨sb, L, ?_, ?_, ?_⟩
  · simp only [push_all, hrun1, hrun2]
  · have e : ([big_block, one_block].map (·.bytes)).flatten
        = big_block.bytes ++ one_block.bytes := by
      simp only [List.map_cons, List.map_nil, List.flatten_cons, List.flatten_nil,
        List.append_nil]
    rw [e, List.length_append]
    push_cast
    rw [big_block_length]
    rfl
  · have h1 := lpopbuffer_nil 2 sb L 2147483647 (Or.inr (by rw [hs, e1]; decide))
    have h2 := lpopbuffer_nil 2 sb L 1 (Or.inr (by rw [hs, e2]; decide))
    simp only [pop_all, h1, h2]

/-- C1 (round trip, amended). Pushing the blocks `B1..Bn`, of fewer than `2 ^ 31` bytes in
all, in order on a new queue, each with its true length, over a pool whose free list is a
chain, and then calling `pop(k1)`, ..., `pop(km)` with positive sizes that sum to the total
length: every pop returns a string, of `k1`, ..., `km` bytes, and the strings concatenated
are `B1 ++ ... ++ Bn`. -/
theorem push_pop_round_trip (Bs : List raw_block) (ks : List Int) (L : State) (fs : List Nat)
    (fuel : Nat) (hfree : linked L.nodes L.free_node fs = true) (hks : ∀ k ∈ ks, 0 < k)
    (hsum : ks.sum = ((Bs.map (·.bytes)).flatten.length : Int))
    (hint : ((Bs.map (·.bytes)).flatten.length : Int) < 2147483648)
    (hfuel : Bs.length ≤ fuel) :
    ∃ (sb : socket_buffer) (L1 : State) (ss : List (List UInt8)) (sb' : socket_buffer)
      (L2 : State),
      push_all Bs lnewbuffer L = .ok (sb, L1) ∧
      pop_all fuel ks sb L1 = .ok (ss.map some, sb', L2) ∧
      ss.map (fun s => (s.length : Int)) = ks ∧
      ss.flatten = (Bs.map (·.bytes)).flatten := by
  obtain ⟨sb, L1, as, hpush, hq, hsize, hun, hlen⟩ :=
    push_all_spec Bs lnewbuffer L [] fs (lnewbuffer_ok L) (by simp [unread_nil, lnewbuffer])
      (by simpa [unread_nil] using hint) hfree
      (fun a ha => absurd ha (List.not_mem_nil a))
  rw [unread_nil, List.nil_append] at hun
  obtain ⟨ss, sb', L2, hpop, hlens, hcat⟩ :=
    pop_all_spec fuel ks sb L1 as hq hsize (by rw [hsize, hun]; exact hint) hks
      (by rw [hun, hsum]) (by rw [hlen]; simpa using hfuel)
  refine ⟨sb, L1, ss, sb', L2, hpush, hpop, hlens, ?_⟩
  rw [hcat, hun, hsum, Int.toNat_ofNat, List.take_length]

theorem push_pop_round_trip_witness :
    ∃ (sb : socket_buffer) (L1 : State) (ss : List (List UInt8)) (sb' : socket_buffer)
      (L2 : State),
      push_all [{ addr := 100, bytes := [97, 98] }, { addr := 200, bytes := [99, 10, 100] }]
        lnewbuffer fresh_state = .ok (sb, L1) ∧
      pop_all 2 [1, 3, 1] sb L1 = .ok (ss.map some, sb', L2) ∧
      ss.map (fun s => (s.length : Int)) = [1, 3, 1] ∧
      ss.flatten = [97, 98, 99, 10, 100] :=
  push_pop_round_trip [{ addr := 100, bytes := [97, 98] }, { addr := 200, bytes := [99, 10, 100] }]
    [1, 3, 1] fresh_state [] 2 (by decide) (by decide) (by decide) (by decide) (by decide)

/-! ## Header rejection -/

/-- C11 (header rejection). `lheader` raises its error exactly when the input has no byte
or more than 4 bytes: the empty input and a 5-byte input fail, and every input of 1 to 4
bytes returns a value. -/
theorem lheader_rejects (b : List UInt8) :
    (lheader b = .error .lua_error ↔ b.length = 0 ∨ 4 < b.length) ∧
    ((1 ≤ b.length ∧ b.length ≤ 4) ↔ ∃ v, lheader b = .ok [.integer v]) ∧
    lheader [] = .error .lua_error ∧ lheader [0, 0, 0, 0, 0] = .error .lua_error := by
  refine ⟨?_, ?_, rfl, rfl⟩
  · by_cases h : b.length > 4 ∨ b.length < 1
    · simp only [lheader, if_pos h, true_iff]
      omega
    · simp only [lheader, if_neg h]
      constructor
      · intro h'; cases h'
      · intro h'; omega
  · by_cases h : b.length > 4 ∨ b.length < 1
    · simp only [lheader, if_pos h]
      constructor
      · intro h'; omega
      · rintro ⟨v, hv⟩; cases hv
    · simp only [lheader, if_neg h]
      constructor
      · intro _; exact ⟨_, rfl⟩
      · intro _; omega

/-! ## The state `pop_lstring` leaves does not depend on `skip` or on the fuel -/

theorem pop_lstring_loop_state (f1 : Nat) :
    ∀ (f2 : Nat) (b1 b2 : List UInt8) (sb : socket_buffer) (L : State) (sz skip1 skip2 : Int)
      (r1 r2 : List UInt8) (sb1 sb2 : socket_buffer) (L1 L2 : State),
      pop_lstring_loop f1 b1 sb L sz skip1 = .ok (r1, sb1, L1) →
      pop_lstring_loop f2 b2 sb L sz skip2 = .ok (r2, sb2, L2) →
      sb1 = sb2 ∧ L1 = L2 := by
  induction f1 with
  | zero => intro f2 b1 b2 sb L sz skip1 skip2 r1 r2 sb1 sb2 L1 L2 h1; simp [pop_lstring_loop] at h1
  | succ f1 ih =>
    intro f2 b1 b2 sb L sz skip1 skip2 r1 r2 sb1 sb2 L1 L2 h1 h2
    cases f2 with
    | zero => simp [pop_lstring_loop] at h2
    | succ f2 =>
      rw [pop_lstring_loop] at h1 h2
      cases hd : deref L sb.head with
      | error e => rw [hd] at h1; cases h1
      | ok current =>
        rw [hd] at h1 h2
        simp only [] at h1 h2
        by_cases hge : current.sz - sb.offset ≥ sz
        · rw [if_pos hge] at h1 h2
          split at h1
          · cases h1
          · split at h2
            · cases h2
            · by_cases heq : current.sz - sb.offset = sz
              · rw [if_pos heq] at h1 h2
                cases hr : return_free_node { sb with offset := sb.offset + sz } L with
                | error e => rw [hr] at h1; cases h1
                | ok p =>
                  rw [hr] at h1 h2
                  cases h1; cases h2
                  exact ⟨rfl, rfl⟩
              · rw [if_neg heq] at h1 h2
                cases h1; cases h2
                exact ⟨rfl, rfl⟩
        · rw [if_neg hge] at h1 h2
          split at h1
          · cases h1
          · split at h2
            · cases h2
            · cases hr : return_free_node sb L with
              | error e => rw [hr] at h1; cases h1
              | ok p =>
                obtain ⟨sbn, Ln⟩ := p
                rw [hr] at h1 h2
                simp only [] at h1 h2
                by_cases hz : sz - (current.sz - sb.offset) = 0
                · rw [if_pos hz] at h1 h2
                  cases h1; cases h2
                  exact ⟨rfl, rfl⟩
                · rw [if_neg hz] at h1 h2
                  by_cases hh : sbn.head = none
                  · rw [if_pos hh] at h1; cases h1
                  · rw [if_neg hh] at h1 h2
                    exact ih _ _ _ _ _ _ _ _ _ _ _ _ _ _ h1 h2

theorem pop_lstring_state (f1 f2 : Nat) (sb : socket_buffer) (L : State) (sz skip1 skip2 : Int)
    (r1 r2 : List UInt8) (sb1 sb2 : socket_buffer) (L1 L2 : State)
    (h1 : pop_lstring f1 sb sz skip1 L = .ok (r1, sb1, L1))
    (h2 : pop_lstring f2 sb sz skip2 L = .ok (r2, sb2, L2)) : sb1 = sb2 ∧ L1 = L2 := by
  rw [pop_lstring] at h1 h2
  cases hd : deref L sb.head with
  | error e => rw [hd] at h1; cases h1
  | ok current =>
    rw [hd] at h1 h2
    simp only [] at h1 h2
    by_cases hlt : sz < current.sz - sb.offset
    · rw [if_pos hlt] at h1 h2
      split at h1
      · cases h1
      · split at h2
        · cases h2
        · cases h1; cases h2; exact ⟨rfl, rfl⟩
    · rw [if_neg hlt] at h1 h2
      by_cases heq : sz = current.sz - sb.offset
      · rw [if_pos heq] at h1 h2
        split at h1
        · cases h1
        · split at h2
          · cases h2
          · cases hr : return_free_node sb L with
            | error e => rw [hr] at h1; cases h1
            | ok p =>
              rw [hr] at h1 h2
              cases h1; cases h2
              exact ⟨rfl, rfl⟩
      · rw [if_neg heq] at h1 h2
        by_cases hneg : sz < 0
        · rw [if_pos hneg] at h1; cases h1
        · rw [if_neg hneg] at h1 h2
          exact pop_lstring_loop_state _ _ _ _ _ _ _ _ _ _ _ _ _ _ _ h1 h2

/-- C20 (separator skip accounting). On a well-formed queue with `size = |U|`, for
`0 <= skip <= sz` and `0 < sz <= size`, `pop_lstring(sz, skip)` returns the first `sz - skip`
unread bytes and leaves exactly the queue and memory that `pop_lstring(sz, 0)` leaves: `sz`
bytes are consumed whatever `skip` is and wherever the skipped bytes lie. -/
theorem pop_lstring_skip (as : List Nat) (fuel : Nat) (sb : socket_buffer) (L : State)
    (sz skip : Int) (hq : queue_ok L sb as) (hsize : sb.size = (unread L sb as).length)
    (hskip0 : 0 ≤ skip) (hskip : skip ≤ sz) (hsz : 0 < sz) (hle : sz ≤ sb.size)
    (hfuel : as.length ≤ fuel) :
    ∃ sb' L' as',
      pop_lstring fuel sb sz skip L = .ok ((unread L sb as).take (sz - skip).toNat, sb', L') ∧
      pop_lstring fuel sb sz 0 L = .ok ((unread L sb as).take sz.toNat, sb', L') ∧
      queue_ok L' sb' as' ∧ unread L' sb' as' = (unread L sb as).drop sz.toNat := by
  obtain ⟨sb1, pre1, post1, _, hrun1, hq1, hun1, _⟩ :=
    pop_lstring_spec as fuel sb L sz skip hq hfuel hsz (by omega) hskip0 hskip
  obtain ⟨sb2, pre2, post2, _, hrun2, _, _, _⟩ :=
    pop_lstring_spec as fuel sb L sz 0 hq hfuel hsz (by omega) (le_refl _) (by omega)
  obtain ⟨e1, e2⟩ := pop_lstring_state _ _ _ _ _ _ _ _ _ _ _ _ _ hrun1 hrun2
  refine ⟨sb1, release_all L pre1, post1, hrun1, ?_, hq1, hun1⟩
  rw [hrun2, e1, e2]
  simp

theorem pop_lstring_skip_witness :
    ∃ sb' L' as',
      pop_lstring 2 line_queue 4 1 line_state = .ok ([97, 98, 99], sb', L') ∧
      pop_lstring 2 line_queue 4 0 line_state = .ok ([97, 98, 99, 10], sb', L') ∧
      queue_ok L' sb' as' ∧ unread L' sb' as' = [100] :=
  pop_lstring_skip [0, 1] 2 line_queue line_state 4 1 line_queue_ok (by decide) (by decide)
    (by decide) (by decide) (by decide) (by decide)

/-- C19 (drain equals pop of everything). On a well-formed queue with `size = |U| > 0`
(and, `size` being a C `int`, less than `2 ^ 31`), `drain()` and `pop(size)` return the
same bytes, all of `U`, and both leave `size = 0`. -/
theorem lreadall_eq_pop_all (as : List Nat) (fuel : Nat) (sb : socket_buffer) (L : State)
    (hq : queue_ok L sb as) (hsize : sb.size = (unread L sb as).length) (hpos : 0 < sb.size)
    (hint : sb.size < 2147483648) (hfuel : as.length ≤ fuel) :
    ∃ sbd Ld sbp Lp,
      lreadall fuel (.userdata sb) true L = .ok ([.string (unread L sb as)], sbd, Ld) ∧
      lpopbuffer fuel (.userdata sb) true sb.size L
        = .ok ([.string (unread L sb as), .integer 0], sbp, Lp) ∧
      sbd.size = 0 ∧ sbp.size = 0 := by
  obtain ⟨sbp, pre, post, _, hrun, hs, _, _⟩ :=
    lpopbuffer_spec as fuel sb L sb.size hq (le_of_eq hsize) hint hpos (le_refl _) hfuel
  refine ⟨{ size := 0, offset := 0, head := none, tail := none }, release_all L as, sbp,
    release_all L pre, ?_, ?_, rfl, by rw [hs]; simp⟩
  · simp only [lreadall, lua_touserdata, Bool.not_true, Bool.false_eq_true, if_false]
    rw [lreadall_loop_spec as fuel [] sb L hq hfuel]
    simp
  · rw [hrun, hsize, Int.toNat_ofNat, List.take_length]
    simp

theorem lreadall_eq_pop_all_witness :
    ∃ sbd Ld sbp Lp,
      lreadall 2 (.userdata line_queue) true line_state
        = .ok ([.string [97, 98, 99, 10, 100]], sbd, Ld) ∧
      lpopbuffer 2 (.userdata line_queue) true 5 line_state
        = .ok ([.string [97, 98, 99, 10, 100], .integer 0], sbp, Lp) ∧
      sbd.size = 0 ∧ sbp.size = 0 :=
  lreadall_eq_pop_all [0, 1] 2 line_queue line_state line_queue_ok (by decide) (by decide)
    (by decide) (by decide)

/-! ## Lists of node lists -/

theorem flatten_eraseIdx_perm (ass : List (List Nat)) :
    ∀ (i : Nat) (as : List Nat), ass[i]? = some as →
      ass.flatten.Perm (as ++ (ass.eraseIdx i).flatten) := by
  induction ass with
  | nil => intro i as h; simp at h
  | cons x xs ih =>
    intro i as h
    cases i with
    | zero =>
      simp only [List.getElem?_cons_zero, Option.some.injEq] at h
      subst h
      simp
    | succ i =>
      simp only [List.getElem?_cons_succ] at h
      have := ih i as h
      simp only [List.flatten_cons, List.eraseIdx_cons_succ]
      refine (List.Perm.append_left x this).trans ?_
      rw [← List.append_assoc, ← List.append_assoc]
      exact List.Perm.append_right _ List.perm_append_comm

theorem flatten_set_perm (ass : List (List Nat)) :
    ∀ (i : Nat) (as' : List Nat), i < ass.length →
      (ass.set i as').flatten.Perm (as' ++ (ass.eraseIdx i).flatten) := by
  intro i as' hi
  have h := flatten_eraseIdx_perm (ass.set i as') i as' (List.getElem?_set_self hi)
  have e : (ass.set i as').eraseIdx i = ass.eraseIdx i := by
    clear h
    induction ass generalizing i with
    | nil => rfl
    | cons x xs ih =>
      cases i with
      | zero => rfl
      | succ i =>
        simp only [List.set_cons_succ, List.eraseIdx_cons_succ]
        rw [ih i (by simpa using hi)]
  rw [e] at h
  exact h

theorem mem_flatten_eraseIdx (ass : List (List Nat)) (i j : Nat) (asj : List Nat)
    (hne : j ≠ i) (h : ass[j]? = some asj) : ∀ a ∈ asj, a ∈ (ass.eraseIdx i).flatten := by
  intro a ha
  rw [List.mem_flatten]
  exact ⟨asj, List.mem_eraseIdx_iff_getElem?.2 ⟨j, hne, h⟩, ha⟩

/-! ## Slab sizes -/

/-- The slab allocated when `m` slabs exist has `min (16 * 2 ^ m) 4096` nodes. -/
theorem grow_size_eq (L : State) : grow_size L = min (16 * 2 ^ L.chunks.length) 4096 := by
  have htsz : (if lua_rawlen L = 0 then lua_rawlen L + 1 else lua_rawlen L)
      = L.chunks.length + 1 := by
    unfold lua_rawlen
    cases h : L.chunks with
    | nil => simp
    | cons c cs => simp
  unfold grow_size
  simp only [htsz, LARGE_PAGE_NODE, Nat.shiftLeft_eq]
  by_cases h : L.chunks.length + 1 ≤ 12 - 3
  · rw [if_pos h]
    have h1 : 2 ^ L.chunks.length ≤ 2 ^ 8 := Nat.pow_le_pow_right (by norm_num) (by omega)
    rw [Nat.pow_succ]
    omega
  · rw [if_neg h]
    have h1 : 2 ^ 9 ≤ 2 ^ L.chunks.length := Nat.pow_le_pow_right (by norm_num) (by omega)
    norm_num at h1 ⊢
    omega

theorem held_addrs_congr (n1 n2 : List buffer_node) (as : List Nat)
    (h : ∀ a ∈ as, n1[a]? = n2[a]?) : held_addrs n1 as = held_addrs n2 as := by
  induction as with
  | nil => rfl
  | cons x xs ih =>
    have hx := h x (List.mem_cons_self _ _)
    have := ih (fun a ha => h a (List.mem_cons_of_mem _ ha))
    simp only [held_addrs, List.filterMap_cons, hx] at this ⊢
    rw [this]

theorem held_addrs_append (nodes : List buffer_node) (xs ys : List Nat) :
    held_addrs nodes (xs ++ ys) = held_addrs nodes xs ++ held_addrs nodes ys := by
  simp [held_addrs, List.filterMap_append]

theorem held_addrs_perm (nodes : List buffer_node) (xs ys : List Nat) (h : xs.Perm ys) :
    (held_addrs nodes xs).Perm (held_addrs nodes ys) :=
  List.Perm.filterMap _ h

theorem positive_pushes_tail (op : Op) (ops : List Op) (h : positive_pushes (op :: ops)) :
    positive_pushes ops :=
  fun q B hB => h q B (List.mem_cons_of_mem _ hB)

/-! ## Lifting the effect of one call to the world -/

theorem head_len_congr (n1 n2 : List buffer_node) (as : List Nat)
    (h : ∀ a ∈ as, n1[a]? = n2[a]?) : head_len n1 as = head_len n2 as := by
  cases as with
  | nil => rfl
  | cons x xs => simp only [head_len, block_of_congr _ _ x (h x (List.mem_cons_self _ _))]

theorem strict_congr (L L' : State) (sb : socket_buffer) (as : List Nat)
    (h : ∀ a ∈ as, L'.nodes[a]? = L.nodes[a]?) (hs : strict L sb as) : strict L' sb as := by
  refine ⟨fun a ha => ?_, ?_⟩
  · rw [block_of_congr _ _ a (h a ha)]
    exact hs.1 a ha
  · rw [head_len_congr _ _ as h]
    exact hs.2

theorem q_inv_congr (pos pos' : Prop) (hpp : pos' → pos) (L L' : State) (sb : socket_buffer)
    (as : List Nat) (h : ∀ a ∈ as, L'.nodes[a]? = L.nodes[a]?) (hq : q_inv pos L sb as) :
    q_inv pos' L' sb as := by
  obtain ⟨hok, hun⟩ := queue_ok_congr L L' sb as h hq.ok
  exact ⟨hok, by rw [hun]; exact hq.size, by rw [head_len_congr _ _ as h]; exact hq.semi,
    fun hp => strict_congr L L' sb as h (hq.strict (hpp hp))⟩

theorem range_append_range' (n k : Nat) : List.range n ++ List.range' n k = List.range (n + k) := by
  rw [List.range_eq_range', List.range_eq_range']
  have := List.range'_append 0 n k 1
  rw [Nat.add_comm n k]
  simpa using this

/-- A call that acts on queue `i` as `trans` says keeps the invariant of the world. -/
theorem world_ok_update (ops : List Op) (op : Op) (W : World) (ass : List (List Nat))
    (fs : List Nat) (hW : world_ok ops W ass fs) (i : Nat) (sb : socket_buffer)
    (as : List Nat) (hi : W.queues[i]? = some sb) (has : ass[i]? = some as)
    (blk : List Nat) (L' : State) (sb' : socket_buffer) (as' fs' : List Nat)
    (ht : trans (positive_pushes (op :: ops)) blk W.L as fs L' sb' as' fs')
    (hblk : pushed (op :: ops) = blk ++ pushed ops) :
    world_ok (op :: ops) { L := L', queues := W.queues.set i sb' } (ass.set i as') fs' := by
  have hilt : i < ass.length := by
    by_contra hlt
    rw [List.getElem?_eq_none (by omega)] at has
    cases has
  have hiq : i < W.queues.length := by rw [hW.len]; exact hilt
  have hA := flatten_eraseIdx_perm ass i as has
  have hB := flatten_set_perm ass i as' hilt
  have hnd : (fs ++ ass.flatten).Nodup := (List.Perm.nodup_iff hW.perm).2 (List.nodup_range _)
  have hcount : ∀ a, List.count a (fs ++ ass.flatten) ≤ 1 := fun a =>
    List.nodup_iff_count_le_one.1 hnd a
  have hothers : ∀ a ∈ (ass.eraseIdx i).flatten,
      a < W.L.nodes.length ∧ a ∉ fs ∧ a ∉ as := by
    intro a ha
    have hc := hcount a
    have hAc := List.perm_iff_count.1 hA a
    have h1 : 0 < List.count a (ass.eraseIdx i).flatten := List.count_pos_iff.2 ha
    simp only [List.count_append] at hc hAc
    refine ⟨?_, ?_, ?_⟩
    · have : a ∈ fs ++ ass.flatten :=
        List.mem_append_right _ (hA.symm.subset (List.mem_append_right _ ha))
      exact List.mem_range.1 (hW.perm.subset this)
    · intro hf
      have : 0 < List.count a fs := List.count_pos_iff.2 hf
      omega
    · intro hf
      have : 0 < List.count a as := List.count_pos_iff.2 hf
      omega
  have hframe : ∀ a ∈ (ass.eraseIdx i).flatten, L'.nodes[a]? = W.L.nodes[a]? := fun a ha =>
    ht.frame a (hothers a ha).1 (hothers a ha).2.1 (hothers a ha).2.2
  have hrange : List.range W.L.nodes.length
      ++ List.range' W.L.nodes.length (L'.nodes.length - W.L.nodes.length)
      = List.range L'.nodes.length := by
    rw [range_append_range']
    congr 1
    have := ht.mono
    omega
  refine ⟨?_, ?_, ht.free, ?_, ?_, ?_, ht.free_null, ?_⟩
  · simp only [List.length_set]
    exact hW.len
  · intro j sbj asj hj hasj
    by_cases hji : j = i
    · subst hji
      simp only [List.getElem?_set_self hiq, Option.some.injEq] at hj
      rw [List.getElem?_set_self hilt] at hasj
      cases hasj
      subst hj
      exact ht.q
    · simp only [] at hj
      rw [List.getElem?_set_ne (fun e => hji e.symm)] at hj hasj
      exact q_inv_congr _ _ (positive_pushes_tail op ops) W.L L' sbj asj
        (fun a ha => hframe a (mem_flatten_eraseIdx ass i j asj hji hasj a ha))
        (hW.queues j sbj asj hj hasj)
  · show (fs' ++ (ass.set i as').flatten).Perm (List.range L'.nodes.length)
    rw [← hrange]
    rw [List.perm_iff_count]
    intro a
    have h1 := List.perm_iff_count.1 hA a
    have h2 := List.perm_iff_count.1 hB a
    have h3 := List.perm_iff_count.1 ht.perm a
    have h4 := List.perm_iff_count.1 hW.perm a
    simp only [List.count_append] at h1 h2 h3 h4 ⊢
    omega
  · show chunk_addrs L'.chunks = List.range L'.nodes.length
    rw [ht.slabs, hW.slabs, hrange]
  · intro j c hc
    rcases ht.sizes j c hc with h | ⟨h1, h2⟩
    · exact hW.sizes j c h
    · rw [h2, h1, grow_size_eq]
  · show (L'.freed ++ held_addrs L'.nodes (ass.set i as').flatten).Perm (pushed (op :: ops))
    rw [hblk]
    have e1 : held_addrs L'.nodes (ass.eraseIdx i).flatten
        = held_addrs W.L.nodes (ass.eraseIdx i).flatten := held_addrs_congr _ _ _ hframe
    have p1 := held_addrs_perm L'.nodes _ _ hB
    have p2 := held_addrs_perm W.L.nodes _ _ hA
    rw [held_addrs_append] at p1 p2
    rw [e1] at p1
    rw [List.perm_iff_count]
    intro a
    have h1 := List.perm_iff_count.1 p1 a
    have h2 := List.perm_iff_count.1 p2 a
    have h3 := List.perm_iff_count.1 ht.blocks a
    have h4 := List.perm_iff_count.1 hW.blocks a
    simp only [List.count_append] at h1 h2 h3 h4 ⊢
    omega

/-! ## Recycling nodes: effect on the pool -/

theorem release_all_length (as : List Nat) :
    ∀ L : State, (release_all L as).nodes.length = L.nodes.length := by
  induction as with
  | nil => intro L; rfl
  | cons x xs ih => intro L; rw [release_all, ih, release_length]

theorem release_all_chunks (as : List Nat) :
    ∀ L : State, (release_all L as).chunks = L.chunks := by
  induction as with
  | nil => intro L; rfl
  | cons x xs ih => intro L; rw [release_all, ih, release_chunks]

theorem release_freed (L : State) (a : Nat) :
    (release L a).freed = held_addrs L.nodes [a] ++ L.freed := by
  cases hn : L.nodes[a]? with
  | none => simp [release, held_addrs, hn]
  | some n =>
    simp only [release, hn, store, skynet_free, held_addrs, List.filterMap_cons,
      List.filterMap_nil]
    cases n.msg <;> rfl

theorem release_all_freed (as : List Nat) :
    ∀ L : State, as.Nodup →
      (release_all L as).freed.Perm (held_addrs L.nodes as ++ L.freed) := by
  induction as with
  | nil => intro L _; simp [release_all, held_addrs]
  | cons x xs ih =>
    intro L hnd
    obtain ⟨hx, hxs⟩ := List.nodup_cons.1 hnd
    have h1 := ih (release L x) hxs
    have e : held_addrs (release L x).nodes xs = held_addrs L.nodes xs :=
      held_addrs_congr _ _ _ (fun a ha => release_get_ne L x a (fun e => hx (e ▸ ha)))
    rw [release_freed, e] at h1
    rw [release_all]
    have e2 : held_addrs L.nodes (x :: xs) = held_addrs L.nodes [x] ++ held_addrs L.nodes xs :=
      held_addrs_append L.nodes [x] xs
    rw [e2]
    refine h1.trans ?_
    rw [← List.append_assoc]
    exact List.Perm.append_right _ List.perm_append_comm

theorem release_all_null (as : List Nat) :
    ∀ L : State, as.Nodup → (∀ a ∈ as, a < L.nodes.length) →
      ∀ a ∈ as, is_null (release_all L as).nodes a := by
  induction as with
  | nil => intro L _ _ a ha; cases ha
  | cons x xs ih =>
    intro L hnd hlt a ha
    obtain ⟨hx, hxs⟩ := List.nodup_cons.1 hnd
    rw [release_all]
    rcases List.mem_cons.1 ha with rfl | ha
    · obtain ⟨n, hn⟩ := get_of_lt L.nodes a (hlt a (List.mem_cons_self _ _))
      refine ⟨{ msg := none, sz := 0, next := L.free_node }, ?_, rfl, rfl⟩
      rw [release_all_get_not_mem xs (release L a) a hx]
      exact release_get_self L a n hn
    · exact ih (release L x) hxs (fun b hb => by
        rw [release_length]; exact hlt b (List.mem_cons_of_mem _ hb)) a ha

theorem is_null_congr (n1 n2 : List buffer_node) (a : Nat) (h : n1[a]? = n2[a]?)
    (hn : is_null n2 a) : is_null n1 a := by
  obtain ⟨n, e1, e2, e3⟩ := hn
  exact ⟨n, by rw [h, e1], e2, e3⟩

/-- Recycling the first nodes `pre` of a queue, as the readers do, is a `trans`: the
recycled nodes go to the front of the free list and nothing else changes. -/
theorem trans_release (pos : Prop) (L : State) (as fs pre post : List Nat) (sb' : socket_buffer)
    (hsplit : as = pre ++ post) (hq : q_inv pos (release_all L pre) sb' post)
    (hlt : ∀ a ∈ as, a < L.nodes.length)
    (hfree : linked L.nodes L.free_node fs = true) (hnd : (fs ++ as).Nodup)
    (hnull : ∀ a ∈ fs, is_null L.nodes a) :
    trans pos [] L as fs (release_all L pre) sb' post (pre.reverse ++ fs) := by
  subst hsplit
  have hnd' := List.nodup_append.1 hnd
  have hndas := List.nodup_append.1 hnd'.2.1
  have hpre_nd : pre.Nodup := hndas.1
  have hpre_lt : ∀ a ∈ pre, a < L.nodes.length := fun a ha => hlt a (List.mem_append_left _ ha)
  have hfs_pre : ∀ a ∈ fs, a ∉ pre := fun a ha hp =>
    hnd'.2.2 ha (List.mem_append_left _ hp)
  have hpost_pre : ∀ a ∈ post, a ∉ pre := fun a ha hp => hndas.2.2 hp ha
  have hlen := release_all_length pre L
  refine ⟨hq, ?_, ?_, by rw [hlen], ?_, ?_, ?_, ?_, ?_⟩
  · show seg _ _ (pre.reverse ++ fs) none = true
    rw [seg_append]
    refine ⟨L.free_node, release_all_free pre L hpre_nd hpre_lt, ?_⟩
    exact (seg_congr _ L.nodes fs _ _ (fun a ha =>
      release_all_get_not_mem pre L a (hfs_pre a ha))).trans hfree
  · rw [hlen, Nat.sub_self, List.range'_zero, List.append_nil, List.perm_iff_count]
    intro a
    simp only [List.count_append, List.count_reverse]
    omega
  · intro a _ _ ha
    exact release_all_get_not_mem pre L a (fun h => ha (List.mem_append_left _ h))
  · rw [hlen, Nat.sub_self, List.range'_zero, List.append_nil, release_all_chunks]
  · intro j c hc
    rw [release_all_chunks] at hc
    exact Or.inl hc
  · intro a ha
    rcases List.mem_append.1 ha with ha | ha
    · exact release_all_null pre L hpre_nd hpre_lt a (List.mem_reverse.1 ha)
    · exact is_null_congr _ _ a (release_all_get_not_mem pre L a (hfs_pre a ha)) (hnull a ha)
  · have h1 := release_all_freed pre L hpre_nd
    have e : held_addrs (release_all L pre).nodes post = held_addrs L.nodes post :=
      held_addrs_congr _ _ _ (fun a ha => release_all_get_not_mem pre L a (hpost_pre a ha))
    rw [e, held_addrs_append, List.append_nil, List.perm_iff_count]
    intro a
    have h2 := List.perm_iff_count.1 h1 a
    simp only [List.count_append] at h2 ⊢
    omega

/-! ## Facts about every run of the readers -/

theorem return_free_node_offset (sb : socket_buffer) (L : State) (sb' : socket_buffer)
    (L' : State) (h : return_free_node sb L = .ok (sb', L')) : sb'.offset = 0 := by
  rw [return_free_node] at h
  split at h
  · rename_i f free_node _ _
    simp only [Except.ok.injEq, Prod.mk.injEq] at h
    rw [← h.1]
    split <;> rfl
  · cases h
  · cases h

theorem pop_lstring_loop_offset (fuel : Nat) :
    ∀ (buf : List UInt8) (sb : socket_buffer) (L : State) (sz skip : Int) (r : List UInt8)
      (sb' : socket_buffer) (L' : State),
      pop_lstring_loop fuel buf sb L sz skip = .ok (r, sb', L') → 0 < sz →
      sb'.offset = 0 ∨ ∃ n, deref L' sb'.head = .ok n ∧ sb'.offset < n.sz := by
  induction fuel with
  | zero => intro buf sb L sz skip r sb' L' h; simp [pop_lstring_loop] at h
  | succ f ih =>
    intro buf sb L sz skip r sb' L' h hsz
    rw [pop_lstring_loop] at h
    cases hd : deref L sb.head with
    | error e => rw [hd] at h; cases h
    | ok current =>
      rw [hd] at h
      simp only [] at h
      by_cases hge : current.sz - sb.offset ≥ sz
      · rw [if_pos hge] at h
        split at h
        · cases h
        · by_cases heq : current.sz - sb.offset = sz
          · rw [if_pos heq] at h
            cases hr : return_free_node { sb with offset := sb.offset + sz } L with
            | error e => rw [hr] at h; cases h
            | ok p =>
              obtain ⟨sbn, Ln⟩ := p
              rw [hr] at h
              cases h
              exact Or.inl (return_free_node_offset _ _ _ _ hr)
          · rw [if_neg heq] at h
            cases h
            exact Or.inr ⟨current, hd, by show sb.offset + sz < current.sz; omega⟩
      · rw [if_neg hge] at h
        split at h
        · cases h
        · cases hr : return_free_node sb L with
          | error e => rw [hr] at h; cases h
          | ok p =>
            obtain ⟨sbn, Ln⟩ := p
            rw [hr] at h
            simp only [] at h
            by_cases hz : sz - (current.sz - sb.offset) = 0
            · rw [if_pos hz] at h
              cases h
              exact Or.inl (return_free_node_offset _ _ _ _ hr)
            · rw [if_neg hz] at h
              by_cases hh : sbn.head = none
              · rw [if_pos hh] at h; cases h
              · rw [if_neg hh] at h
                exact ih _ _ _ _ _ _ _ _ h (by omega)

theorem pop_lstring_offset (fuel : Nat) (sb : socket_buffer) (L : State) (sz skip : Int)
    (r : List UInt8) (sb' : socket_buffer) (L' : State)
    (h : pop_lstring fuel sb sz skip L = .ok (r, sb', L')) (hsz : 0 < sz) :
    sb'.offset = 0 ∨ ∃ n, deref L' sb'.head = .ok n ∧ sb'.offset < n.sz := by
  rw [pop_lstring] at h
  cases hd : deref L sb.head with
  | error e => rw [hd] at h; cases h
  | ok current =>
    rw [hd] at h
    simp only [] at h
    by_cases hlt : sz < current.sz - sb.offset
    · rw [if_pos hlt] at h
      split at h
      · cases h
      · cases h
        exact Or.inr ⟨current, hd, by show sb.offset + sz < current.sz; omega⟩
    · rw [if_neg hlt] at h
      by_cases heq : sz = current.sz - sb.offset
      · rw [if_pos heq] at h
        split at h
        · cases h
        · cases hr : return_free_node sb L with
          | error e => rw [hr] at h; cases h
          | ok p =>
            obtain ⟨sbn, Ln⟩ := p
            rw [hr] at h
            cases h
            exact Or.inl (return_free_node_offset _ _ _ _ hr)
      · rw [if_neg heq] at h
        by_cases hneg : sz < 0
        · rw [if_pos hneg] at h; cases h
        · rw [if_neg hneg] at h
          exact pop_lstring_loop_offset _ _ _ _ _ _ _ _ _ h hsz

/-- On a well-formed queue `pop_lstring` does not return for a negative size. -/
theorem pop_lstring_negative (fuel : Nat) (sb : socket_buffer) (L : State) (as : List Nat)
    (sz : Int) (hq : queue_ok L sb as) (hsz : sz < 0) :
    ∃ e, pop_lstring fuel sb sz 0 L = .error e := by
  cases as with
  | nil =>
    have hh : sb.head = none := by simpa [linked, seg_nil_iff] using hq.chain
    exact ⟨.null_deref, by simp [pop_lstring, deref, hh]⟩
  | cons a rest =>
    obtain ⟨n, b, hp, hn, hm, hb, hblk, hrest, hlo, hhi, hnil⟩ := queue_ok_head L sb a rest hq
    refine ⟨.lua_error, ?_⟩
    simp only [pop_lstring, deref, hp, hn, lua_pushlstring]
    rw [if_pos (by omega)]
    simp only [read_bytes, Int.sub_zero, if_pos hsz]

theorem lreadall_loop_fuel (f1 : Nat) :
    ∀ (f2 : Nat) (b : List UInt8) (sb : socket_buffer) (L : State)
      (r1 r2 : List UInt8 × socket_buffer × State),
      lreadall_loop f1 b sb L = .ok r1 → lreadall_loop f2 b sb L = .ok r2 → r1 = r2 := by
  induction f1 with
  | zero =>
    intro f2 b sb L r1 r2 h1 h2
    by_cases hh : sb.head = none
    · cases f2 <;> simp [lreadall_loop, hh] at h1 h2 <;> rw [← h1, ← h2]
    · simp [lreadall_loop, hh] at h1
  | succ f1 ih =>
    intro f2 b sb L r1 r2 h1 h2
    by_cases hh : sb.head = none
    · cases f2 <;> simp [lreadall_loop, hh] at h1 h2 <;> rw [← h1, ← h2]
    · cases f2 with
      | zero => simp [lreadall_loop, hh] at h2
      | succ f2 =>
        rw [lreadall_loop, if_neg hh] at h1 h2
        cases hd : deref L sb.head with
        | error e => rw [hd] at h1; cases h1
        | ok current =>
          rw [hd] at h1 h2
          simp only [] at h1 h2
          cases ha : luaL_addlstring b current.msg sb.offset (current.sz - sb.offset) with
          | error e => rw [ha] at h1; cases h1
          | ok b' =>
            rw [ha] at h1 h2
            simp only [] at h1 h2
            cases hr : return_free_node sb L with
            | error e => rw [hr] at h1; cases h1
            | ok p =>
              obtain ⟨sbn, Ln⟩ := p
              rw [hr] at h1 h2
              exact ih _ _ _ _ _ _ h1 h2

theorem lclearbuffer_loop_fuel (f1 : Nat) :
    ∀ (f2 : Nat) (sb : socket_buffer) (L : State) (r1 r2 : socket_buffer × State),
      lclearbuffer_loop f1 sb L = .ok r1 → lclearbuffer_loop f2 sb L = .ok r2 → r1 = r2 := by
  induction f1 with
  | zero =>
    intro f2 sb L r1 r2 h1 h2
    by_cases hh : sb.head = none
    · cases f2 <;> simp [lclearbuffer_loop, hh] at h1 h2 <;> rw [← h1, ← h2]
    · simp [lclearbuffer_loop, hh] at h1
  | succ f1 ih =>
    intro f2 sb L r1 r2 h1 h2
    by_cases hh : sb.head = none
    · cases f2 <;> simp [lclearbuffer_loop, hh] at h1 h2 <;> rw [← h1, ← h2]
    · cases f2 with
      | zero => simp [lclearbuffer_loop, hh] at h2
      | succ f2 =>
        rw [lclearbuffer_loop, if_neg hh] at h1 h2
        cases hr : return_free_node sb L with
        | error e => rw [hr] at h1; cases h1
        | ok p =>
          obtain ⟨sbn, Ln⟩ := p
          rw [hr] at h1 h2
          exact ih _ _ _ _ _ h1 h2

/-- A `lreadline` loop that returns either left everything as it was, or popped the line
and its separator found at some position `j` with `j + |sep| <= size`. -/
theorem lreadline_loop_cases (check : Bool) (sep : List UInt8) (sb : socket_buffer) (L : State) :
    ∀ (fuel : Nat) (i : Int) (cur : Option Nat) (frm bytes : Int) (r : List lua_ret)
      (sb' : socket_buffer) (L' : State),
      lreadline_loop check sep sb L fuel i cur frm bytes = .ok (r, sb', L') → 0 ≤ i →
      (sb' = sb ∧ L' = L) ∨
      ∃ (j : Int) (f : Nat) (s : List UInt8) (sb1 : socket_buffer),
        0 ≤ j ∧ j ≤ sb.size - sep.length ∧
        pop_lstring f sb (j + sep.length) sep.length L = .ok (s, sb1, L') ∧
        sb' = { sb1 with size := sb1.size - (j + sep.length) } := by
  intro fuel
  induction fuel with
  | zero => intro i cur frm bytes r sb' L' h; simp [lreadline_loop] at h
  | succ f ih =>
    intro i cur frm bytes r sb' L' h hi
    rw [lreadline_loop] at h
    simp only [] at h
    split at h
    · rename_i hle
      split at h
      · cases h
      · split at h
        · cases h; exact Or.inl ⟨rfl, rfl⟩
        · split at h
          · cases h
          · rename_i s sb1 L1 hpop
            cases h
            exact Or.inr ⟨i, f + 1, s, sb1, hi, hle, hpop, rfl⟩
      · split at h
        · split at h
          · cases h
          · split at h
            · cases h; exact Or.inl ⟨rfl, rfl⟩
            · split at h
              · cases h
              · exact ih _ _ _ _ _ _ _ h (by omega)
        · exact ih _ _ _ _ _ _ _ h (by omega)
    · cases h; exact Or.inl ⟨rfl, rfl⟩

/-! ## The readers as transitions -/

theorem nodup_parts (fs as : List Nat) (hnd : (fs ++ as).Nodup) :
    as.Nodup ∧ (∀ a ∈ as, a ∉ fs) :=
  ⟨(List.nodup_append.1 hnd).2.1, fun _ ha hf => (List.nodup_append.1 hnd).2.2 hf ha⟩

/-- A call that changes nothing is a `trans`. -/
theorem trans_id (pos pos' : Prop) (hpp : pos' → pos) (L : State) (sb : socket_buffer)
    (as fs : List Nat) (hq : q_inv pos L sb as)
    (hfree : linked L.nodes L.free_node fs = true) (hnd : (fs ++ as).Nodup)
    (hnull : ∀ a ∈ fs, is_null L.nodes a) :
    trans pos' [] L as fs L sb as ([].reverse ++ fs) :=
  trans_release pos' L as fs [] as sb rfl
    (q_inv_congr pos pos' hpp L L sb as (fun _ _ => rfl) hq)
    (linked_lt _ _ _ _ hq.ok.chain) hfree hnd hnull

/-- A run of `pop_lstring` for `0 < sz <= size` is a `trans`, with `size` reduced by `sz`. -/
theorem trans_pop_lstring (pos pos' : Prop) (hpp : pos' → pos) (f : Nat) (L : State)
    (sb : socket_buffer) (as fs : List Nat) (sz skip : Int) (s : List UInt8)
    (sb1 : socket_buffer) (L1 : State) (hq : q_inv pos L sb as)
    (hfree : linked L.nodes L.free_node fs = true) (hnd : (fs ++ as).Nodup)
    (hnull : ∀ a ∈ fs, is_null L.nodes a)
    (hrun : pop_lstring f sb sz skip L = .ok (s, sb1, L1)) (hsz : 0 < sz) (hle : sz ≤ sb.size)
    (hs0 : 0 ≤ skip) (hs1 : skip ≤ sz) :
    ∃ as' fs', trans pos' [] L as fs L1 { sb1 with size := sb1.size - sz } as' fs' := by
  have hsize := hq.size
  have hUle := to_int_le ((unread L sb as).length : Int) (Int.ofNat_nonneg _)
  obtain ⟨sbX, pre, post, hsplit, hrunX, hqX, hunX, hsX⟩ :=
    pop_lstring_spec as (max f as.length) sb L sz skip hq.ok (le_max_right _ _) hsz (by omega)
      hs0 hs1
  obtain ⟨e1, e2⟩ := pop_lstring_state _ _ _ _ _ _ _ _ _ _ _ _ _ hrun hrunX
  subst e1 e2
  obtain ⟨hasnd, _⟩ := nodup_parts fs as hnd
  rw [hsplit] at hasnd
  have hpost_pre : ∀ a ∈ post, a ∉ pre := fun a ha hp =>
    (List.nodup_append.1 hasnd).2.2 hp ha
  refine ⟨post, pre.reverse ++ fs, trans_release pos' L as fs pre post _ hsplit ?_
    (linked_lt _ _ _ _ hq.ok.chain) hfree hnd hnull⟩
  refine ⟨⟨hqX.chain, hqX.last, hqX.blocks, hqX.offset_lo, hqX.offset_hi⟩, ?_, ?_, ?_⟩
  · show sb1.size - sz = to_int ((unread (release_all L pre) sb1 post).length : Int)
    have e : (((unread L sb as).drop sz.toNat).length : Int)
        = ((unread L sb as).length : Int) - sz := by
      rw [List.length_drop]
      omega
    rw [hunX, hsX, e, to_int_sub _ _ (by omega) (by omega), hsize]
  · cases hpost : post with
    | nil => exact Or.inl rfl
    | cons a rest =>
      right
      rw [hpost] at hqX
      obtain ⟨n, b, hp, hn, hm, hb, hblk, _, _, _, _⟩ :=
        queue_ok_head (release_all L pre) sb1 a rest hqX
      show (block_of (release_all L pre).nodes a).length = 0 ∨
        sb1.offset < ((block_of (release_all L pre).nodes a).length : Int)
      rw [hblk]
      rcases pop_lstring_offset _ _ _ _ _ _ _ _ hrun hsz with h0 | ⟨n', hn', hlt⟩
      · rw [h0]; omega
      · simp only [deref, hp, hn, Except.ok.injEq] at hn'
        subst hn'
        omega
  · intro hp'
    have hs := hq.strict (hpp hp')
    have hblock : ∀ a ∈ post,
        block_of (release_all L pre).nodes a = block_of L.nodes a := fun a ha =>
      block_of_congr _ _ a (release_all_get_not_mem pre L a (hpost_pre a ha))
    refine ⟨fun a ha => ?_, ?_⟩
    · rw [hblock a ha]
      exact hs.1 a (by rw [hsplit]; exact List.mem_append_right _ ha)
    · cases hpost : post with
      | nil => exact Or.inl rfl
      | cons a rest =>
        right
        rw [hpost] at hqX hblock
        obtain ⟨n, b, hp, hn, hm, hb, hblk, _, _, _, _⟩ :=
          queue_ok_head (release_all L pre) sb1 a rest hqX
        have hpos : 0 < (block_of L.nodes a).length :=
          hs.1 a (by rw [hsplit, hpost]; simp)
        rw [← hblock a (by simp), hblk] at hpos
        show sb1.offset < ((block_of (release_all L pre).nodes a).length : Int)
        rw [hblk]
        rcases pop_lstring_offset _ _ _ _ _ _ _ _ hrun hsz with h0 | ⟨n', hn', hlt⟩
        · rw [h0]; omega
        · simp only [deref, hp, hn, Except.ok.injEq] at hn'
          subst hn'
          omega

/-- A call of `lpopbuffer` that returns is a `trans`. -/
theorem trans_pop (pos pos' : Prop) (hpp : pos' → pos) (fuel : Nat) (L : State)
    (sb : socket_buffer) (as fs : List Nat) (k : Int) (r : List lua_ret) (sb' : socket_buffer)
    (L' : State) (hq : q_inv pos L sb as)
    (hfree : linked L.nodes L.free_node fs = true) (hnd : (fs ++ as).Nodup)
    (hnull : ∀ a ∈ fs, is_null L.nodes a)
    (hrun : lpopbuffer fuel (.userdata sb) true k L = .ok (r, sb', L')) :
    ∃ as' fs', trans pos' [] L as fs L' sb' as' fs' := by
  simp only [lpopbuffer, lua_touserdata, Bool.not_true, Bool.false_eq_true, if_false] at hrun
  by_cases hk : sb.size < to_int k ∨ to_int k = 0
  · rw [if_pos hk] at hrun
    cases hrun
    exact ⟨as, _, trans_id pos pos' hpp L sb as fs hq hfree hnd hnull⟩
  · rw [if_neg hk] at hrun
    cases hp : pop_lstring fuel sb (to_int k) 0 L with
    | error e => rw [hp] at hrun; cases hrun
    | ok p =>
      obtain ⟨s, sb1, L1⟩ := p
      rw [hp] at hrun
      cases hrun
      have hkpos : 0 < to_int k := by
        by_contra hneg
        obtain ⟨e, he⟩ := pop_lstring_negative fuel sb L as (to_int k) hq.ok (by omega)
        rw [he] at hp
        cases hp
      exact trans_pop_lstring pos pos' hpp fuel L sb as fs (to_int k) 0 s sb1 _ hq hfree hnd
        hnull hp hkpos (by omega) (le_refl _) (by omega)

/-- A call of `lreadline` with a non-empty separator that returns is a `trans`. -/
theorem trans_readline (pos pos' : Prop) (hpp : pos' → pos) (fuel : Nat) (L : State)
    (sb : socket_buffer) (as fs : List Nat) (tbl : Bool) (sep : List UInt8) (r : List lua_ret)
    (sb' : socket_buffer) (L' : State) (hq : q_inv pos L sb as)
    (hfree : linked L.nodes L.free_node fs = true) (hnd : (fs ++ as).Nodup)
    (hnull : ∀ a ∈ fs, is_null L.nodes a) (hsep : sep ≠ [])
    (hrun : lreadline fuel (.userdata sb) tbl sep L = .ok (r, sb', L')) :
    ∃ as' fs', trans pos' [] L as fs L' sb' as' fs' := by
  have hid : ∃ as' fs', trans pos' [] L as fs L sb as' fs' :=
    ⟨as, _, trans_id pos pos' hpp L sb as fs hq hfree hnd hnull⟩
  have hseplen : 0 < sep.length := List.length_pos.2 hsep
  simp only [lreadline, lua_touserdata] at hrun
  split at hrun
  · cases hrun; exact hid
  · cases hrun
  · rcases lreadline_loop_cases _ sep sb L _ _ _ _ _ _ _ _ hrun (le_refl _) with
      ⟨e1, e2⟩ | ⟨j, f, s, sb1, hj0, hj1, hpop, e⟩
    · subst e1 e2; exact hid
    · subst e
      exact trans_pop_lstring pos pos' hpp f L sb as fs (j + sep.length) sep.length s sb1 L' hq
        hfree hnd hnull hpop (by omega) (by omega) (by omega) (by omega)

theorem q_inv_empty (pos : Prop) (L : State) :
    q_inv pos L { size := 0, offset := 0, head := none, tail := none } [] :=
  ⟨⟨rfl, rfl, fun a ha => absurd ha (List.not_mem_nil a), le_refl _, le_refl _⟩,
    by simp [unread_nil, to_int_zero], Or.inl rfl,
    fun _ => ⟨fun a ha => absurd ha (List.not_mem_nil a), Or.inl rfl⟩⟩

/-- A call of `lreadall` that returns is a `trans` that empties the queue. -/
theorem trans_drain (pos pos' : Prop) (fuel : Nat) (L : State)
    (sb : socket_buffer) (as fs : List Nat) (r : List lua_ret) (sb' : socket_buffer)
    (L' : State) (hq : q_inv pos L sb as)
    (hfree : linked L.nodes L.free_node fs = true) (hnd : (fs ++ as).Nodup)
    (hnull : ∀ a ∈ fs, is_null L.nodes a)
    (hrun : lreadall fuel (.userdata sb) true L = .ok (r, sb', L')) :
    ∃ as' fs', trans pos' [] L as fs L' sb' as' fs' := by
  simp only [lreadall, lua_touserdata, Bool.not_true, Bool.false_eq_true, if_false] at hrun
  cases hl : lreadall_loop fuel [] sb L with
  | error e => rw [hl] at hrun; cases hrun
  | ok p =>
    have hX := lreadall_loop_spec as (max fuel as.length) [] sb L hq.ok (le_max_right _ _)
    have := lreadall_loop_fuel _ _ _ _ _ _ _ hl hX
    subst this
    rw [hl] at hrun
    cases hrun
    exact ⟨[], as.reverse ++ fs, trans_release pos' L as fs as [] _ (by simp)
      (q_inv_empty pos' _) (linked_lt _ _ _ _ hq.ok.chain) hfree hnd hnull⟩

/-- A call of `lclearbuffer` on a queue that returns is a `trans` that empties the queue. -/
theorem trans_clear (pos pos' : Prop) (fuel : Nat) (L : State)
    (sb : socket_buffer) (as fs : List Nat) (r : List lua_ret) (v : lua_value)
    (L' : State) (hq : q_inv pos L sb as)
    (hfree : linked L.nodes L.free_node fs = true) (hnd : (fs ++ as).Nodup)
    (hnull : ∀ a ∈ fs, is_null L.nodes a)
    (hrun : lclearbuffer fuel (.userdata sb) true L = .ok (r, v, L')) :
    ∃ sb' as' fs', v = .userdata sb' ∧ trans pos' [] L as fs L' sb' as' fs' := by
  simp only [lclearbuffer, lua_touserdata, Bool.not_true, Bool.false_eq_true, if_false] at hrun
  cases hl : lclearbuffer_loop fuel sb L with
  | error e => rw [hl] at hrun; cases hrun
  | ok p =>
    have hX := lclearbuffer_loop_spec as (max fuel as.length) sb L hq.ok (le_max_right _ _)
    have := lclearbuffer_loop_fuel _ _ _ _ _ _ hl hX
    subst this
    rw [hl] at hrun
    cases hrun
    exact ⟨_, [], as.reverse ++ fs, rfl, trans_release pos' L as fs as [] _ (by simp)
      (q_inv_empty pos' _) (linked_lt _ _ _ _ hq.ok.chain) hfree hnd hnull⟩

/-! ## Push as a transition -/

theorem lpushbuffer_link_node (sb : socket_buffer) (msg : Option raw_block) (sz : Int) (f : Nat)
    (L : State) (r : List lua_ret) (sb' : socket_buffer) (L' : State)
    (h : lpushbuffer_link sb msg sz (some f) L = .ok (r, sb', L')) (ht : sb.tail ≠ some f) :
    L'.nodes[f]? = some { msg := msg, sz := sz, next := none } := by
  unfold lpushbuffer_link at h
  split at h
  · rename_i f' n hf hd
    cases hf
    have hflt : f < L.nodes.length := by
      simp only [deref] at hd
      split at hd
      · cases hd
      · rename_i m hm
        exact linked_lt L.nodes [f] (some f) m.next (by simp [seg, hm]) f (List.mem_singleton_self f)
    have hget : (L.nodes.set f { msg := msg, sz := sz, next := none })[f]?
        = some { msg := msg, sz := sz, next := none } := List.getElem?_set_self hflt
    simp only [] at h
    split at h
    · cases h
    · rename_i sb2 L2 hlink
      cases h
      split at hlink
      · split at hlink
        · cases hlink
          exact hget
        · cases hlink
      · split at hlink
        · rename_i t tn ht' hd'
          cases hlink
          have htf : t ≠ f := fun e => ht (by rw [ht', e])
          show ((L.nodes.set f _).set t _)[f]? = _
          rw [List.getElem?_set_ne htf]
          exact hget
        · cases hlink
        · cases hlink
  · cases h
  · cases h
theorem held_addrs_same_msg (n1 n2 : List buffer_node) (as : List Nat)
    (h : ∀ a ∈ as, ∃ m m', n2[a]? = some m ∧ n1[a]? = some m' ∧ m'.msg = m.msg) :
    held_addrs n1 as = held_addrs n2 as := by
  induction as with
  | nil => rfl
  | cons x xs ih =>
    obtain ⟨m, m', e1, e2, e3⟩ := h x (List.mem_cons_self _ _)
    have := ih (fun a ha => h a (List.mem_cons_of_mem _ ha))
    simp only [held_addrs, List.filterMap_cons, e1, e2, e3] at this ⊢
    rw [this]

theorem grow_chunks (L : State) :
    (grow L).chunks = L.chunks ++ [{ base := L.nodes.length, count := grow_size L }] := by
  unfold grow grow_size
  dsimp only
  split_ifs <;> rfl

theorem grow_freed (L : State) : (grow L).freed = L.freed := by
  unfold grow
  dsimp only
  split_ifs <;> rfl

theorem grow_length (L : State) : (grow L).nodes.length = L.nodes.length + grow_size L := by
  rw [grow_nodes]
  simp [lnewpool]

theorem grow_null (L : State) (a : Nat) (ha : a ∈ List.range' L.nodes.length (grow_size L)) :
    is_null (grow L).nodes a := by
  rw [List.mem_range'_1] at ha
  have e : a = L.nodes.length + (a - L.nodes.length) := by omega
  rw [grow_nodes, e]
  exact ⟨_, lnewpool_get L (grow_size L) (a - L.nodes.length) (by omega), rfl, rfl⟩

theorem chunk_addrs_append (cs : List chunk) (c : chunk) :
    chunk_addrs (cs ++ [c]) = chunk_addrs cs ++ List.range' c.base c.count := by
  simp [chunk_addrs]

/-- Linking a free node `f` of the memory `M`, which is `L` or `L` grown by a slab `new`,
is a `trans` from `L` that takes over the block pushed. -/
theorem trans_push_on (pos pos' : Prop) (hpp : pos' → pos) (L M : State) (sb : socket_buffer)
    (as fs fs0 new : List Nat) (f : Nat) (B : raw_block) (hq : q_inv pos L sb as)
    (hnd : (fs ++ as).Nodup)
    (hM1 : ∀ a, a < L.nodes.length → M.nodes[a]? = L.nodes[a]?)
    (hM2 : M.nodes.length = L.nodes.length + new.length)
    (hnew : new = List.range' L.nodes.length new.length)
    (hM3 : M.freed = L.freed)
    (hM4 : chunk_addrs M.chunks = chunk_addrs L.chunks ++ new)
    (hM4' : ∀ (j : Nat) (c : chunk), M.chunks[j]? = some c →
      L.chunks[j]? = some c ∨ (j = L.chunks.length ∧ c.count = grow_size L))
    (hM5 : ∀ a ∈ f :: fs0, is_null M.nodes a)
    (hM6 : linked M.nodes (some f) (f :: fs0) = true)
    (hM6' : ([f] ++ fs0).Perm (fs ++ new))
    (hposB : pos' → 0 < B.bytes.length)
    (r : List lua_ret) (sb' : socket_buffer) (L' : State)
    (hrun : lpushbuffer_link sb (some B) B.bytes.length (some f) M = .ok (r, sb', L')) :
    trans pos' [B.addr] L as fs L' sb' (as ++ [f]) fs0 := by
  have haslt : ∀ a ∈ as, a < L.nodes.length := linked_lt _ _ _ _ hq.ok.chain
  have hagree : ∀ a ∈ as, M.nodes[a]? = L.nodes[a]? := fun a ha => hM1 a (haslt a ha)
  obtain ⟨hqM, hunM⟩ := queue_ok_congr L M sb as hagree hq.ok
  obtain ⟨_, has_fs⟩ := nodup_parts fs as hnd
  have hmem_new : ∀ a ∈ new, L.nodes.length ≤ a := fun a ha => by
    rw [hnew, List.mem_range'_1] at ha
    exact ha.1
  have hdisj : ∀ a ∈ as, a ∉ f :: fs0 := by
    intro a ha hf
    have : a ∈ fs ++ new := hM6'.subset (by simpa using hf)
    rcases List.mem_append.1 this with h | h
    · exact has_fs a ha h
    · have := hmem_new a h
      have := haslt a ha
      omega
  have hf_as : f ∉ as := fun h => hdisj f h (List.mem_cons_self _ _)
  have hf_fs0 : f ∉ fs0 := linked_head_not_mem _ _ _ _ hM6
  obtain ⟨sbX, LX, hrunX, h1, h2, h3, h4, h5, h6, h7, h8, h9, h10, h11, h12, h13⟩ :=
    lpushbuffer_link_spec sb M as fs0 f B B.bytes.length hqM rfl hM6 hdisj
  rw [hrunX] at hrun
  simp only [Except.ok.injEq, Prod.mk.injEq] at hrun
  obtain ⟨_, e1, e2⟩ := hrun
  subst e1 e2
  have htail : sb.tail ≠ some f := by
    intro e
    rw [hq.ok.last] at e
    exact hf_as (List.mem_of_getLast?_eq_some e)
  have hnodef := lpushbuffer_link_node sb (some B) B.bytes.length f M _ sbX LX hrunX htail
  have hblockf : block_of LX.nodes f = B.bytes := block_of_eq _ _ _ B hnodef rfl
  have hblock : ∀ a ∈ as, block_of LX.nodes a = block_of L.nodes a := by
    intro a ha
    obtain ⟨m, m', e1, e2, e3, _⟩ := h8 a ha
    rw [block_of_same_msg _ _ a m' m e2 e1 e3, block_of_congr _ _ a (hagree a ha)]
  have hlenX : LX.nodes.length - L.nodes.length = new.length := by omega
  refine ⟨⟨h5, ?_, ?_, ?_⟩, h9, ?_, by omega, ?_, ?_, ?_, ?_, ?_⟩
  · rw [h1, h6, hunM, hq.size, List.length_append, to_int_add_left]
    push_cast
    rfl
  · right
    rw [h2]
    cases has : as with
    | nil =>
      have h0 := hq.ok.offset_hi
      have h0' := hq.ok.offset_lo
      rw [has] at h0
      simp only [head_len] at h0
      simp only [List.nil_append, head_len, hblockf]
      omega
    | cons x xs =>
      rcases hq.semi with h | h
      · rw [has] at h; cases h
      · rw [has] at h hblock
        simp only [List.cons_append, head_len, hblock x (by simp)]
        simpa [head_len] using h
  · intro hp'
    have hs := hq.strict (hpp hp')
    refine ⟨fun a ha => ?_, Or.inr ?_⟩
    · rcases List.mem_append.1 ha with ha | ha
      · rw [hblock a ha]; exact hs.1 a ha
      · simp only [List.mem_singleton] at ha
        rw [ha, hblockf]
        exact hposB hp'
    · rw [h2]
      cases has : as with
      | nil =>
        have h0 := hq.ok.offset_hi
        have h0' := hq.ok.offset_lo
        rw [has] at h0
        simp only [head_len] at h0
        have := hposB hp'
        simp only [List.nil_append, head_len, hblockf]
        omega
      | cons x xs =>
        rcases hs.2 with h | h
        · rw [has] at h; cases h
        · rw [has] at h hblock
          simp only [List.cons_append, head_len, hblock x (by simp)]
          simpa [head_len] using h
  · rw [hlenX, ← hnew, List.perm_iff_count]
    intro a
    have hc := List.perm_iff_count.1 hM6' a
    simp only [List.count_append] at hc ⊢
    omega
  · intro a ha hafs haas
    have haf : a ≠ f := by
      intro e
      have : f ∈ fs ++ new := hM6'.subset (by simp)
      rcases List.mem_append.1 this with h | h
      · exact hafs (e ▸ h)
      · have := hmem_new f h
        omega
    rw [h10 a haas haf, hM1 a ha]
  · rw [h12, hM4, hlenX, ← hnew]
  · intro j c hc
    rw [h12] at hc
    exact hM4' j c hc
  · intro a ha
    have haf : a ≠ f := fun e => hf_fs0 (e ▸ ha)
    have haas : a ∉ as := fun h => hdisj a h (List.mem_cons_of_mem _ ha)
    exact is_null_congr _ _ a (h10 a haas haf) (hM5 a (List.mem_cons_of_mem _ ha))
  · rw [h13, hM3, held_addrs_append]
    have e1 : held_addrs LX.nodes as = held_addrs L.nodes as := by
      rw [held_addrs_same_msg LX.nodes M.nodes as (fun a ha => by
        obtain ⟨m, m', e1, e2, e3, _⟩ := h8 a ha
        exact ⟨m, m', e1, e2, e3⟩)]
      exact held_addrs_congr _ _ _ hagree
    have e2 : held_addrs LX.nodes [f] = [B.addr] := by
      simp [held_addrs, hnodef]
    rw [e1, e2, List.append_assoc]

/-- A call of `lpushbuffer` with the block's true length that returns is a `trans` that
takes over the block. -/
theorem trans_push (pos pos' : Prop) (hpp : pos' → pos) (L : State) (sb : socket_buffer)
    (as fs : List Nat) (B : raw_block) (r : List lua_ret) (sb' : socket_buffer) (L' : State)
    (hq : q_inv pos L sb as) (hfree : linked L.nodes L.free_node fs = true)
    (hnd : (fs ++ as).Nodup) (hnull : ∀ a ∈ fs, is_null L.nodes a)
    (hposB : pos' → 0 < B.bytes.length) (hB : B.bytes.length < 2147483648)
    (hrun : lpushbuffer (.userdata sb) true (some B) B.bytes.length L = .ok (r, sb', L')) :
    ∃ as' fs', trans pos' [B.addr] L as fs L' sb' as' fs' := by
  have hn' : to_int (B.bytes.length : Int) = B.bytes.length :=
    to_int_of_range _ (by omega) (by omega)
  cases fs with
  | cons f fs0 =>
    have hfn : L.free_node = some f := seg_start _ _ _ _ _ hfree
    simp only [lpushbuffer, lua_touserdata, Bool.not_true, Bool.false_eq_true, if_false,
      hn'] at hrun
    rw [if_neg (by simp), if_neg (by simp [hfn]), hfn] at hrun
    rw [hfn] at hfree
    exact ⟨as ++ [f], fs0, trans_push_on pos pos' hpp L L sb as (f :: fs0) fs0 [] f B hq hnd
      (fun _ _ => rfl) (by simp) (by simp) rfl (by simp) (fun j c h => Or.inl h) hnull hfree
      (by simp) hposB r sb' L' hrun⟩
  | nil =>
    have hfn : L.free_node = none := by simpa [linked, seg_nil_iff] using hfree
    have hpos := grow_size_pos L
    rw [lpushbuffer_grow _ _ _ _ L hfn] at hrun
    simp only [lpushbuffer, lua_touserdata, Bool.not_true, Bool.false_eq_true, if_false,
      hn'] at hrun
    rw [if_neg (by simp), if_neg (by rw [grow_free_node]; simp), grow_free_node] at hrun
    have hrange : List.range' L.nodes.length (grow_size L)
        = L.nodes.length :: List.range' (L.nodes.length + 1) (grow_size L - 1) := by
      have : grow_size L = (grow_size L - 1) + 1 := by omega
      conv_lhs => rw [this, List.range'_succ]
    have hlinked := grow_linked L
    rw [grow_free_node, hrange] at hlinked
    refine ⟨as ++ [L.nodes.length], List.range' (L.nodes.length + 1) (grow_size L - 1),
      trans_push_on pos pos' hpp L (grow L) sb as [] _ (List.range' L.nodes.length (grow_size L))
        L.nodes.length B hq hnd (fun a ha => grow_get_old L a ha) ?_ ?_ (grow_freed L) ?_ ?_ ?_
        hlinked ?_ hposB r sb' L' hrun⟩
    · rw [grow_length, List.length_range']
    · rw [List.length_range']
    · rw [grow_chunks, chunk_addrs_append]
    · intro j c hc
      rw [grow_chunks] at hc
      by_cases hj : j < L.chunks.length
      · rw [List.getElem?_append_left hj] at hc
        exact Or.inl hc
      · rw [List.getElem?_append_right (by omega)] at hc
        right
        have hj0 : j - L.chunks.length = 0 := by
          by_contra hne
          rw [List.getElem?_eq_none (by simp; omega)] at hc
          cases hc
        rw [hj0] at hc
        simp only [List.getElem?_cons_zero, Option.some.injEq] at hc
        exact ⟨by omega, by rw [← hc]⟩
    · intro a ha
      exact grow_null L a (by rw [hrange]; exact ha)
    · rw [List.nil_append, hrange]
      exact List.Perm.refl _

/-! ## The invariant of every reachable world -/

theorem pushed_cons_other (op : Op) (ops : List Op) (h : ∀ q B, op ≠ .push q B) :
    pushed (op :: ops) = [] ++ pushed ops := by
  cases op with
  | push q B => exact absurd rfl (h q B)
  | _ => rfl

theorem positive_cons_other (op : Op) (ops : List Op) (h : ∀ q B, op ≠ .push q B)
    (hp : positive_pushes ops) : positive_pushes (op :: ops) := by
  intro q B hB
  rcases List.mem_cons.1 hB with e | e
  · exact absurd e.symm (h q B)
  · exact hp q B e

theorem world_ok_init : world_ok [] fresh_world [] [] :=
  ⟨rfl, fun j sb as h => by simp [fresh_world] at h, rfl, List.Perm.refl _, rfl,
    fun j c h => by simp [fresh_world, fresh_state] at h,
    fun a ha => absurd ha (List.not_mem_nil a), List.Perm.refl _⟩

/-- The ghost node list of a queue of a world that satisfies the invariant. -/
theorem world_ok_queue (ops : List Op) (W : World) (ass : List (List Nat)) (fs : List Nat)
    (hW : world_ok ops W ass fs) (i : Nat) (sb : socket_buffer)
    (hi : W.queues[i]? = some sb) :
    ∃ as, ass[i]? = some as ∧ q_inv (positive_pushes ops) W.L sb as ∧ (fs ++ as).Nodup := by
  have hilt : i < ass.length := by
    rw [← hW.len]
    by_contra hlt
    rw [List.getElem?_eq_none (by omega)] at hi
    cases hi
  obtain ⟨as, has⟩ : ∃ as, ass[i]? = some as := ⟨ass[i], List.getElem?_eq_getElem hilt⟩
  refine ⟨as, has, hW.queues i sb as hi has, ?_⟩
  have hnd : (fs ++ ass.flatten).Nodup := (List.Perm.nodup_iff hW.perm).2 (List.nodup_range _)
  have hA := flatten_eraseIdx_perm ass i as has
  have : (fs ++ (as ++ (ass.eraseIdx i).flatten)).Nodup :=
    (List.Perm.nodup_iff (List.Perm.append_left fs hA)).1 hnd
  rw [← List.append_assoc] at this
  exact (List.nodup_append.1 this).1

theorem world_ok_newbuffer (ops : List Op) (W : World) (ass : List (List Nat)) (fs : List Nat)
    (hW : world_ok ops W ass fs) :
    world_ok (.newbuffer :: ops) { W with queues := W.queues ++ [lnewbuffer] } (ass ++ [[]]) fs := by
  refine ⟨by simp [hW.len], ?_, hW.free, by simpa using hW.perm, hW.slabs, hW.sizes,
    hW.free_null, by simpa [pushed] using hW.blocks⟩
  intro j sb as hj has
  by_cases hlt : j < W.queues.length
  · simp only [] at hj
    rw [List.getElem?_append_left hlt] at hj
    rw [List.getElem?_append_left (by rw [← hW.len]; exact hlt)] at has
    exact q_inv_congr _ _ (positive_pushes_tail _ ops) W.L W.L sb as (fun _ _ => rfl)
      (hW.queues j sb as hj has)
  · simp only [] at hj
    rw [List.getElem?_append_right (by omega)] at hj
    rw [List.getElem?_append_right (by rw [← hW.len]; omega)] at has
    have h0 : j - W.queues.length = 0 := by
      by_contra hne
      rw [List.getElem?_eq_none (by simp; omega)] at hj
      cases hj
    rw [h0] at hj
    rw [← hW.len, h0] at has
    simp only [List.getElem?_cons_zero, Option.some.injEq] at hj has
    subst hj has
    exact q_inv_empty _ _

/-- The invariant holds in every world reached from the fresh one. -/
theorem reach_world_ok (ops : List Op) (W : World) (h : Reach ops W) :
    ∃ ass fs, world_ok ops W ass fs := by
  induction h with
  | init => exact ⟨[], [], world_ok_init⟩
  | next fuel ops W op W' _ hvalid hstep ih =>
    obtain ⟨ass, fs, hW⟩ := ih
    cases op with
    | newbuffer =>
      simp only [step, Except.ok.injEq] at hstep
      subst hstep
      exact ⟨ass ++ [[]], fs, world_ok_newbuffer ops W ass fs hW⟩
    | push q B =>
      have hB : B.bytes.length < 2147483648 := by
        simpa [Op.valid] using hvalid
      simp only [step] at hstep
      split at hstep
      · cases hstep
      · rename_i sb hq
        split at hstep
        · cases hstep
        · rename_i r sb' L' hrun
          cases hstep
          obtain ⟨as, has, hinv, hnd⟩ := world_ok_queue ops W ass fs hW q sb hq
          obtain ⟨as', fs', ht⟩ := trans_push (positive_pushes ops)
            (positive_pushes (.push q B :: ops)) (positive_pushes_tail _ ops) W.L sb as fs B r sb'
            L' hinv hW.free hnd hW.free_null (fun hp => hp q B (List.mem_cons_self _ _)) hB hrun
          exact ⟨ass.set q as', fs', world_ok_update ops _ W ass fs hW q sb as hq has [B.addr] L'
            sb' as' fs' ht rfl⟩
    | pop q k =>
      simp only [step] at hstep
      split at hstep
      · cases hstep
      · rename_i sb hq
        split at hstep
        · cases hstep
        · rename_i r sb' L' hrun
          cases hstep
          obtain ⟨as, has, hinv, hnd⟩ := world_ok_queue ops W ass fs hW q sb hq
          obtain ⟨as', fs', ht⟩ := trans_pop (positive_pushes ops)
            (positive_pushes (.pop q k :: ops)) (positive_pushes_tail _ ops) fuel W.L sb as fs k r
            sb' L' hinv hW.free hnd hW.free_null hrun
          exact ⟨ass.set q as', fs', world_ok_update ops _ W ass fs hW q sb as hq has [] L'
            sb' as' fs' ht rfl⟩
    | readline q sep consume =>
      have hsep : sep ≠ [] := by
        intro e
        simp [Op.valid, e] at hvalid
      simp only [step] at hstep
      split at hstep
      · cases hstep
      · rename_i sb hq
        split at hstep
        · cases hstep
        · rename_i r sb' L' hrun
          cases hstep
          obtain ⟨as, has, hinv, hnd⟩ := world_ok_queue ops W ass fs hW q sb hq
          obtain ⟨as', fs', ht⟩ := trans_readline (positive_pushes ops)
            (positive_pushes (.readline q sep consume :: ops)) (positive_pushes_tail _ ops) fuel
            W.L sb as fs consume sep r sb' L' hinv hW.free hnd hW.free_null hsep hrun
          exact ⟨ass.set q as', fs', world_ok_update ops _ W ass fs hW q sb as hq has [] L'
            sb' as' fs' ht rfl⟩
    | drain q =>
      simp only [step] at hstep
      split at hstep
      · cases hstep
      · rename_i sb hq
        split at hstep
        · cases hstep
        · rename_i r sb' L' hrun
          cases hstep
          obtain ⟨as, has, hinv, hnd⟩ := world_ok_queue ops W ass fs hW q sb hq
          obtain ⟨as', fs', ht⟩ := trans_drain (positive_pushes ops)
            (positive_pushes (.drain q :: ops)) fuel W.L sb as fs r sb' L' hinv hW.free hnd
            hW.free_null hrun
          exact ⟨ass.set q as', fs', world_ok_update ops _ W ass fs hW q sb as hq has [] L'
            sb' as' fs' ht rfl⟩
    | clear q =>
      simp only [step] at hstep
      split at hstep
      · cases hstep
      · rename_i sb hq
        split at hstep
        · cases hstep
        · rename_i r v L' hrun
          obtain ⟨as, has, hinv, hnd⟩ := world_ok_queue ops W ass fs hW q sb hq
          obtain ⟨sb', as', fs', hv, ht⟩ := trans_clear (positive_pushes ops)
            (positive_pushes (.clear q :: ops)) fuel W.L sb as fs r v L' hinv hW.free hnd
            hW.free_null hrun
          subst hv
          simp only [lua_touserdata, Except.ok.injEq] at hstep
          subst hstep
          exact ⟨ass.set q as', fs', world_ok_update ops _ W ass fs hW q sb as hq has [] L'
            sb' as' fs' ht rfl⟩

/-! ## Runs and reachable worlds -/

theorem reach_of_run (fuel : Nat) (ops : List Op) :
    ∀ (done : List Op) (W0 W : World), Reach done W0 → (∀ op ∈ ops, op.valid = true) →
      run fuel ops W0 = .ok W → Reach (ops.reverse ++ done) W := by
  induction ops with
  | nil =>
    intro done W0 W h0 _ hrun
    simp only [run, Except.ok.injEq] at hrun
    subst hrun
    simpa using h0
  | cons op ops ih =>
    intro done W0 W h0 hv hrun
    simp only [run] at hrun
    split at hrun
    · cases hrun
    · rename_i W1 hstep
      have h1 : Reach (op :: done) W1 :=
        Reach.next fuel done W0 op W1 h0 (hv op (List.mem_cons_self _ _)) hstep
      have := ih (op :: done) W1 W h1 (fun o ho => hv o (List.mem_cons_of_mem _ ho)) hrun
      simpa using this

theorem line_world_run : run 0 line_ops fresh_world = .ok line_world := rfl

theorem line_world_reach : Reach line_ops.reverse line_world := by
  have := reach_of_run 0 line_ops [] fresh_world line_world Reach.init (by decide) line_world_run
  simpa using this

theorem empty_block_world_run : run 0 empty_block_ops fresh_world = .ok empty_block_world := rfl

theorem empty_block_world_reach : Reach empty_block_ops.reverse empty_block_world := by
  have := reach_of_run 0 empty_block_ops [] fresh_world empty_block_world Reach.init (by decide)
    empty_block_world_run
  simpa using this

/-! ## Invariants of reachable worlds -/

/-- C12 (growth sequence). In every world reached from the fresh pool, the `k`-th slab
that push allocated, for every `k >= 1`, has exactly `min (16 * 2 ^ (k-1)) 4096` nodes. -/
theorem slab_growth (ops : List Op) (W : World) (h : Reach ops W) (k : Nat) (c : chunk)
    (_ : 1 ≤ k) (hc : W.L.chunks[k - 1]? = some c) :
    c.count = min (16 * 2 ^ (k - 1)) 4096 := by
  obtain ⟨ass, fs, hW⟩ := reach_world_ok ops W h
  exact hW.sizes (k - 1) c hc

theorem slab_growth_witness :
    ({ base := 0, count := 16 } : chunk).count = min (16 * 2 ^ (1 - 1)) 4096 :=
  slab_growth line_ops.reverse line_world line_world_reach 1 { base := 0, count := 16 }
    (by decide) rfl

theorem node_sz_eq_block (nodes : List buffer_node) (a : Nat) (h : holds nodes a = true) :
    node_sz nodes a = ((block_of nodes a).length : Int) := by
  simp only [holds, node_sz, block_of] at h ⊢
  cases hn : nodes[a]? with
  | none => simp [hn] at h
  | some n =>
    simp only [hn] at h ⊢
    cases hm : n.msg with
    | none => simp [hm] at h
    | some b =>
      simp only [hm, decide_eq_true_eq] at h ⊢
      exact h.symm

theorem chain_bytes_length (nodes : List buffer_node) (as : List Nat)
    (h : ∀ a ∈ as, holds nodes a = true) :
    ((chain_bytes nodes as).length : Int) = (as.map (node_sz nodes)).sum := by
  induction as with
  | nil => rfl
  | cons x xs ih =>
    simp only [chain_bytes, List.length_append, List.map_cons, List.sum_cons]
    rw [node_sz_eq_block nodes x (h x (List.mem_cons_self _ _))]
    push_cast
    rw [ih (fun a ha => h a (List.mem_cons_of_mem _ ha))]

/-- On a well-formed queue the number of unread bytes is `head.sz - offset` plus the `sz`
of the other linked nodes. -/
theorem unread_length (L : State) (sb : socket_buffer) (as : List Nat) (hq : queue_ok L sb as) :
    ((unread L sb as).length : Int) = linked_size L.nodes sb.offset as := by
  cases as with
  | nil => simp [unread_nil, linked_size]
  | cons a rest =>
    have hlo := hq.offset_lo
    have hhi := hq.offset_hi
    simp only [head_len] at hhi
    have h1 := chain_bytes_length L.nodes rest (fun x hx => hq.blocks x (List.mem_cons_of_mem _ hx))
    rw [unread_cons L sb a rest hhi, List.length_append, List.length_drop]
    simp only [linked_size]
    rw [node_sz_eq_block L.nodes a (hq.blocks a (List.mem_cons_self _ _))]
    push_cast
    rw [h1]
    omega

theorem queue_of_mem (ops : List Op) (W : World) (ass : List (List Nat)) (fs : List Nat)
    (hW : world_ok ops W ass fs) (sb : socket_buffer) (hsb : sb ∈ W.queues) :
    ∃ as, q_inv (positive_pushes ops) W.L sb as := by
  obtain ⟨j, hj⟩ := List.mem_iff_getElem?.1 hsb
  obtain ⟨as, _, hq, _⟩ := world_ok_queue ops W ass fs hW j sb hj
  exact ⟨as, hq⟩

theorem linked_nil_iff (L : State) (sb : socket_buffer) (as : List Nat)
    (hq : queue_ok L sb as) : sb.head = none ↔ as = [] := by
  cases as with
  | nil => simpa [linked, seg_nil_iff] using hq.chain
  | cons a rest =>
    have := seg_start _ _ _ _ _ hq.chain
    simp [this]

theorem big_block_valid : (Op.push 0 big_block).valid = true := by
  simp only [Op.valid, big_block, List.length_replicate]
  decide

/-- The world reached by a new queue and the pushes of `big_block` and `one_block`: its
queue is well formed, holds `2 ^ 31` unread bytes and has `size = -2 ^ 31`. -/
theorem reach_big_one :
    ∃ W sb f1 f2,
      Reach [.push 0 one_block, .push 0 big_block, .newbuffer] W ∧ W.queues = [sb] ∧
      queue_ok W.L sb [f1, f2] ∧ sb.size = -2147483648 ∧
      ((unread W.L sb [f1, f2]).length : Int) = 2147483648 := by
  obtain ⟨sb1, L1, sb, L, f1, f2, hrun1, hrun2, hq, hs, hun⟩ := push_big_one
  have h0 : Reach [.newbuffer] { L := fresh_state, queues := [lnewbuffer] } :=
    Reach.next 0 [] fresh_world .newbuffer _ Reach.init rfl rfl
  have h1 : Reach [.push 0 big_block, .newbuffer] { L := L1, queues := [sb1] } := by
    refine Reach.next 0 _ _ (.push 0 big_block) _ h0 big_block_valid ?_
    show (match ([lnewbuffer] : List socket_buffer)[0]? with
      | none => Except.error Fault.lua_error
      | some sb =>
        match lpushbuffer (.userdata sb) true (some big_block) big_block.bytes.length
          fresh_state with
        | .error e => .error e
        | .ok (_, sb', L') =>
          .ok ({ L := L', queues := ([lnewbuffer] : List socket_buffer).set 0 sb' } : World))
      = _
    simp only [List.getElem?_cons_zero, hrun1, List.set_cons_zero]
  have h2 : Reach [.push 0 one_block, .push 0 big_block, .newbuffer]
      { L := L, queues := [sb] } := by
    refine Reach.next 0 _ _ (.push 0 one_block) _ h1 (by decide) ?_
    show (match ([sb1] : List socket_buffer)[0]? with
      | none => Except.error Fault.lua_error
      | some sb =>
        match lpushbuffer (.userdata sb) true (some one_block) one_block.bytes.length L1 with
        | .error e => .error e
        | .ok (_, sb', L') =>
          .ok ({ L := L', queues := ([sb1] : List socket_buffer).set 0 sb' } : World)) = _
    simp only [List.getElem?_cons_zero, hrun2, List.set_cons_zero]
  refine ⟨_, sb, f1, f2, h2, rfl, hq, hs, ?_⟩
  show ((unread L sb [f1, f2]).length : Int) = 2147483648
  rw [hun, List.length_append]
  push_cast
  rw [big_block_length]
  rfl

/-- C13, as stated, fails: after a new queue and the pushes of `big_block` (`2 ^ 31 - 1`
bytes) and `one_block` (1 byte), each with its true length, the linked nodes account for
`2 ^ 31` bytes, but `size` is `-2 ^ 31`. -/
theorem size_invariant_fails_past_int :
    ∃ W sb, Reach [.push 0 one_block, .push 0 big_block, .newbuffer] W ∧ sb ∈ W.queues ∧
      sb.size = -2147483648 ∧
      ∀ as, linked W.L.nodes sb.head as = true →
        linked_size W.L.nodes sb.offset as = 2147483648 ∧
        sb.size ≠ linked_size W.L.nodes sb.offset as := by
  obtain ⟨W, sb, f1, f2, hreach, hqs, hq, hs, hlen⟩ := reach_big_one
  refine ⟨W, sb, hreach, by rw [hqs]; exact List.mem_singleton_self _, hs, ?_⟩
  intro as has
  have e : as = [f1, f2] := seg_unique _ _ _ _ has hq.chain
  subst e
  have hl := unread_length W.L sb [f1, f2] hq
  rw [hlen] at hl
  exact ⟨hl.symm, by rw [← hl, hs]; decide⟩

/-- C13 (size invariant, amended). In every world reached from the fresh pool by pushes of
blocks with their true length (at most `2 ^ 31 - 1`), pops, line reads, drains and clears,
every queue links a chain of nodes `as` for which `size` is the sum
`(head.sz - offset) + sum of the other nodes' sz` (0 for no node) as a C `int`, that is
the sum itself whenever it is at most `2 ^ 31 - 1`; and `offset = 0` when `head` is null. -/
theorem size_invariant (ops : List Op) (W : World) (h : Reach ops W) (sb : socket_buffer)
    (hsb : sb ∈ W.queues) :
    ∃ as, linked W.L.nodes sb.head as = true ∧
      sb.size = to_int (linked_size W.L.nodes sb.offset as) ∧
      (linked_size W.L.nodes sb.offset as < 2147483648 →
        sb.size = linked_size W.L.nodes sb.offset as) ∧
      (sb.head = none → sb.offset = 0) := by
  obtain ⟨ass, fs, hW⟩ := reach_world_ok ops W h
  obtain ⟨as, hq⟩ := queue_of_mem ops W ass fs hW sb hsb
  have hl := unread_length W.L sb as hq.ok
  refine ⟨as, hq.ok.chain, ?_, ?_, ?_⟩
  · rw [hq.size, hl]
  · intro hlt
    rw [hq.size, hl]
    exact to_int_of_range _ (by rw [← hl]; omega) hlt
  · intro hh
    have hnil := (linked_nil_iff W.L sb as hq.ok).1 hh
    have h1 := hq.ok.offset_lo
    have h2 := hq.ok.offset_hi
    rw [hnil] at h2
    simp only [head_len] at h2
    omega

theorem size_invariant_witness :
    ∃ as, linked line_world.L.nodes line_queue.head as = true ∧
      line_queue.size = to_int (linked_size line_world.L.nodes line_queue.offset as) ∧
      (linked_size line_world.L.nodes line_queue.offset as < 2147483648 →
        line_queue.size = linked_size line_world.L.nodes line_queue.offset as) ∧
      (line_queue.head = none → line_queue.offset = 0) :=
  size_invariant line_ops.reverse line_world line_world_reach line_queue
    (List.mem_singleton_self _)

/-- C14, as stated, fails: the calls `empty_block_ops` (a new queue, then the push of a
block without bytes) return and leave a queue whose `head` and `tail` are the new node
while `size` is 0, so that `head` is null if and only if `size = 0` is false there. -/
theorem emptiness_fails_for_empty_block :
    run 0 empty_block_ops fresh_world = .ok empty_block_world ∧
    Reach empty_block_ops.reverse empty_block_world ∧
    ∃ sb, sb ∈ empty_block_world.queues ∧ sb.head = some 0 ∧ sb.tail = some 0 ∧ sb.size = 0 ∧
      ¬ (sb.head = none ↔ sb.size = 0) :=
  ⟨rfl, empty_block_world_reach, _, List.mem_singleton_self _, rfl, rfl, rfl,
    fun h => Option.some_ne_none 0 (h.2 rfl)⟩

theorem chain_bytes_eq_nil (nodes : List buffer_node) (as : List Nat) :
    (chain_bytes nodes as).length = 0 ↔ ∀ a ∈ as, (block_of nodes a).length = 0 := by
  induction as with
  | nil => simp [chain_bytes]
  | cons x xs ih =>
    simp only [chain_bytes, List.length_append, List.mem_cons, forall_eq_or_imp]
    rw [← ih]
    omega

/-- The unread bytes of a queue under the invariant are none exactly when every linked
block is empty. -/
theorem unread_eq_nil (pos : Prop) (L : State) (sb : socket_buffer) (as : List Nat)
    (hq : q_inv pos L sb as) :
    (unread L sb as).length = 0 ↔ ∀ a ∈ as, (block_of L.nodes a).length = 0 := by
  rw [← chain_bytes_eq_nil]
  cases as with
  | nil => simp [unread_nil, chain_bytes]
  | cons x xs =>
    have hlo := hq.ok.offset_lo
    have hhi := hq.ok.offset_hi
    have hsemi := hq.semi
    simp only [head_len] at hhi hsemi
    rw [unread_cons L sb x xs hhi]
    simp only [chain_bytes, List.length_append, List.length_drop]
    rcases hsemi with h | h | h
    · cases h
    · omega
    · omega

/-- C14 (emptiness invariant, amended). In every reachable world and for every queue, with
`as` the chain of its linked nodes: `head` is null if and only if `tail` is null, and
`size = 0` when they are; `size = 0` with a `head` that is not null happens only when every
linked block has length 0 or the linked nodes hold `2 ^ 32` or more unread bytes; so, when
some linked block has a byte or no node is linked, and fewer than `2 ^ 32` bytes are unread,
the three conditions `head` null, `tail` null, `size = 0` are equivalent. -/
theorem emptiness_invariant (ops : List Op) (W : World) (h : Reach ops W) (sb : socket_buffer)
    (hsb : sb ∈ W.queues) :
    ∃ as, linked W.L.nodes sb.head as = true ∧
      (sb.head = none ↔ sb.tail = none) ∧ (sb.head = none → sb.size = 0) ∧
      (sb.size = 0 → sb.head ≠ none →
        (∀ a ∈ as, (block_of W.L.nodes a).length = 0) ∨
          4294967296 ≤ (unread W.L sb as).length) ∧
      (as = [] ∨ (∃ a ∈ as, 0 < (block_of W.L.nodes a).length) →
        (unread W.L sb as).length < 4294967296 → (sb.size = 0 ↔ sb.head = none)) := by
  obtain ⟨ass, fs, hW⟩ := reach_world_ok ops W h
  obtain ⟨as, hq⟩ := queue_of_mem ops W ass fs hW sb hsb
  have hnil := linked_nil_iff W.L sb as hq.ok
  have hU := unread_eq_nil _ W.L sb as hq
  have hsz0 : sb.head = none → sb.size = 0 := by
    intro hh
    rw [hq.size, hnil.1 hh, unread_nil]
    rfl
  have hzero : sb.size = 0 → (unread W.L sb as).length < 4294967296 →
      (unread W.L sb as).length = 0 := by
    intro hs hlt
    have := hq.size
    rw [hs] at this
    have h0 := (to_int_eq_zero_iff _).1 this.symm
    omega
  refine ⟨as, hq.ok.chain, ?_, hsz0, ?_, ?_⟩
  · rw [hnil, hq.ok.last]
    cases as with
    | nil => simp
    | cons a rest =>
      simp only [List.cons_ne_nil, false_iff]
      intro e
      have := List.getLast?_eq_none_iff.1 e
      cases this
  · intro hs _
    by_cases hlt : (unread W.L sb as).length < 4294967296
    · exact Or.inl (hU.1 (hzero hs hlt))
    · exact Or.inr (by omega)
  · intro hblk hlt
    refine ⟨fun hs => ?_, hsz0⟩
    rw [hnil]
    rcases hblk with e | ⟨a, ha, hpos⟩
    · exact e
    · have := hU.1 (hzero hs hlt) a ha
      omega

theorem emptiness_invariant_witness :
    ∃ as, linked line_world.L.nodes line_queue.head as = true ∧
      (line_queue.head = none ↔ line_queue.tail = none) ∧
      (line_queue.head = none → line_queue.size = 0) ∧
      (line_queue.size = 0 → line_queue.head ≠ none →
        (∀ a ∈ as, (block_of line_world.L.nodes a).length = 0) ∨
          4294967296 ≤ (unread line_world.L line_queue as).length) ∧
      (as = [] ∨ (∃ a ∈ as, 0 < (block_of line_world.L.nodes a).length) →
        (unread line_world.L line_queue as).length < 4294967296 →
        (line_queue.size = 0 ↔ line_queue.head = none)) :=
  emptiness_invariant line_ops.reverse line_world line_world_reach line_queue
    (List.mem_singleton_self _)

theorem chunk_addrs_length (cs : List chunk) :
    (chunk_addrs cs).length = (cs.map (·.count)).sum := by
  induction cs with
  | nil => rfl
  | cons c cs ih =>
    simp only [chunk_addrs, List.map_cons, List.flatten_cons, List.length_append,
      List.length_range', List.sum_cons] at ih ⊢
    rw [ih]

/-- C15 (pool conservation). In every world reached from the fresh pool there are the chains
`ass[j]` linked by the queues and the chain `fs` of the free list such that the nodes of all
slabs are as many as the free nodes plus the linked nodes, no node occurs twice in the
free list and the queues together, and no free node is linked in a queue. -/
theorem pool_conservation (ops : List Op) (W : World) (h : Reach ops W) :
    ∃ (ass : List (List Nat)) (fs : List Nat),
      W.queues.length = ass.length ∧
      (∀ (j : Nat) (sb : socket_buffer) (as : List Nat),
        W.queues[j]? = some sb → ass[j]? = some as → linked W.L.nodes sb.head as = true) ∧
      linked W.L.nodes W.L.free_node fs = true ∧
      (W.L.chunks.map (·.count)).sum = fs.length + (ass.map List.length).sum ∧
      (fs ++ ass.flatten).Nodup ∧ (∀ a ∈ fs, a ∉ ass.flatten) := by
  obtain ⟨ass, fs, hW⟩ := reach_world_ok ops W h
  have hnd : (fs ++ ass.flatten).Nodup := (List.Perm.nodup_iff hW.perm).2 (List.nodup_range _)
  refine ⟨ass, fs, hW.len, fun j sb as hj has => (hW.queues j sb as hj has).ok.chain, hW.free,
    ?_, hnd, fun a ha hf => (List.nodup_append.1 hnd).2.2 ha hf⟩
  have h1 := hW.perm.length_eq
  rw [List.length_append, List.length_range, List.length_flatten] at h1
  rw [← chunk_addrs_length, hW.slabs, List.length_range, ← h1]

theorem pool_conservation_witness :
    ∃ (ass : List (List Nat)) (fs : List Nat),
      line_world.queues.length = ass.length ∧
      (∀ (j : Nat) (sb : socket_buffer) (as : List Nat),
        line_world.queues[j]? = some sb → ass[j]? = some as →
          linked line_world.L.nodes sb.head as = true) ∧
      linked line_world.L.nodes line_world.L.free_node fs = true ∧
      (line_world.L.chunks.map (·.count)).sum = fs.length + (ass.map List.length).sum ∧
      (fs ++ ass.flatten).Nodup ∧ (∀ a ∈ fs, a ∉ ass.flatten) :=
  pool_conservation line_ops.reverse line_world line_world_reach

/-- C17 (free-list invariant). In every world reached from the fresh pool the free list is a
chain `fs` from `free_node` to `NULL`, and every node on it has no block and `sz = 0`. -/
theorem free_list_invariant (ops : List Op) (W : World) (h : Reach ops W) :
    ∃ fs, linked W.L.nodes W.L.free_node fs = true ∧
      ∀ a ∈ fs, ∃ n, W.L.nodes[a]? = some n ∧ n.msg = none ∧ n.sz = 0 := by
  obtain ⟨ass, fs, hW⟩ := reach_world_ok ops W h
  exact ⟨fs, hW.free, hW.free_null⟩

theorem free_list_invariant_witness :
    ∃ fs, linked line_world.L.nodes line_world.L.free_node fs = true ∧
      ∀ a ∈ fs, ∃ n, line_world.L.nodes[a]? = some n ∧ n.msg = none ∧ n.sz = 0 :=
  free_list_invariant line_ops.reverse line_world line_world_reach

/-! ## The acquire policy of push -/

theorem lpushbuffer_link_pool (sb : socket_buffer) (msg : Option raw_block) (sz : Int) (f : Nat)
    (L : State) (r : List lua_ret) (sb' : socket_buffer) (L' : State)
    (h : lpushbuffer_link sb msg sz (some f) L = .ok (r, sb', L')) :
    ∃ nf, L.nodes[f]? = some nf ∧ L'.free_node = nf.next := by
  unfold lpushbuffer_link at h
  split at h
  · rename_i f' n hf hd
    cases hf
    have hn : L.nodes[f]? = some n := by
      simp only [deref] at hd
      split at hd
      · cases hd
      · rename_i m hm
        cases hd
        exact hm
    refine ⟨n, hn, ?_⟩
    simp only [] at h
    split at h
    · cases h
    · rename_i sb2 L2 hlink
      cases h
      split at hlink
      · split at hlink
        · cases hlink
          rfl
        · cases hlink
      · split at hlink
        · cases hlink
          rfl
        · cases hlink
        · cases hlink
  · cases h
  · cases h

/-- C18 (acquire policy). On a well-formed queue, with a free list that is a chain `fs` apart
from the queue, `push` returns, whatever the length `n` passed (the node stores it as a C
`int`); it has one slab more afterwards if and only if the free list was empty; with a free
list that is not empty the node `f` that takes the block and becomes the tail is the old
`free_node`, the new `free_node` is the old `next` of `f`, the free list is the rest of
`fs`, and the slabs are unchanged; with an empty free list a slab of `grow_size` nodes is
added, `f` is its first node and the free list is its other nodes. -/
theorem lpushbuffer_acquire (sb : socket_buffer) (L : State) (as fs : List Nat) (B : raw_block)
    (n : Int) (hq : queue_ok L sb as)
    (hfree : linked L.nodes L.free_node fs = true) (hdisj : ∀ a ∈ as, a ∉ fs) :
    ∃ f sb' L',
      lpushbuffer (.userdata sb) true (some B) n L
        = .ok ([.integer (to_int (sb.size + to_int n))], sb', L') ∧
      sb'.tail = some f ∧
      L'.nodes[f]? = some { msg := some B, sz := to_int n, next := none } ∧
      (L'.chunks.length = L.chunks.length + 1 ↔ L.free_node = none) ∧
      (L.free_node ≠ none →
        L.free_node = some f ∧ L'.chunks = L.chunks ∧ L'.nodes.length = L.nodes.length ∧
        (∃ nf, L.nodes[f]? = some nf ∧ L'.free_node = nf.next) ∧
        linked L'.nodes L'.free_node fs.tail = true) ∧
      (L.free_node = none →
        f = L.nodes.length ∧
        L'.chunks = L.chunks ++ [{ base := L.nodes.length, count := grow_size L }] ∧
        L'.nodes.length = L.nodes.length + grow_size L ∧
        linked L'.nodes L'.free_node (List.range' (L.nodes.length + 1) (grow_size L - 1))
          = true) := by
  have haslt : ∀ a ∈ as, a < L.nodes.length := linked_lt _ _ _ _ hq.chain
  cases fs with
  | cons f fs =>
    have hfn : L.free_node = some f := seg_start _ _ _ _ _ hfree
    rw [hfn] at hfree
    obtain ⟨sb', L', hrun, _, _, h3, _, _, hnode, _, _, h9, _, h11, h12, _, hnf⟩ :=
      lpushbuffer_link_struct sb L as fs f (some B) (to_int n) hq hfree hdisj
    refine ⟨f, sb', L', ?_, h3, hnode, ?_, fun _ => ⟨hfn, h12, h11, hnf, h9⟩, ?_⟩
    · simp only [lpushbuffer, lua_touserdata, Bool.not_true, Bool.false_eq_true, if_false]
      rw [if_neg (by simp), if_neg (by simp [hfn]), hfn]
      exact hrun
    · rw [h12, hfn]
      simp
    · intro h
      rw [hfn] at h
      cases h
  | nil =>
    have hfn : L.free_node = none := by simpa [linked, seg_nil_iff] using hfree
    have hpos := grow_size_pos L
    have hagree : ∀ a ∈ as, (grow L).nodes[a]? = L.nodes[a]? :=
      fun a ha => grow_get_old L a (haslt a ha)
    obtain ⟨hq', _⟩ := queue_ok_congr L (grow L) sb as hagree hq
    have hrange : List.range' L.nodes.length (grow_size L)
        = L.nodes.length :: List.range' (L.nodes.length + 1) (grow_size L - 1) := by
      have : grow_size L = (grow_size L - 1) + 1 := by omega
      conv_lhs => rw [this, List.range'_succ]
    have hfree' : linked (grow L).nodes (some L.nodes.length)
        (L.nodes.length :: List.range' (L.nodes.length + 1) (grow_size L - 1)) = true := by
      have := grow_linked L
      rw [grow_free_node, hrange] at this
      exact this
    have hdisj' : ∀ a ∈ as,
        a ∉ L.nodes.length :: List.range' (L.nodes.length + 1) (grow_size L - 1) := by
      intro a ha h
      have := haslt a ha
      rw [← hrange, List.mem_range'_1] at h
      omega
    obtain ⟨sb', L', hrun, _, _, h3, _, _, hnode, _, _, h9, _, h11, h12, _, _⟩ :=
      lpushbuffer_link_struct sb (grow L) as _ L.nodes.length (some B) (to_int n) hq' hfree'
        hdisj'
    refine ⟨L.nodes.length, sb', L', ?_, h3, hnode, ?_,
      fun h => absurd hfn h, fun _ => ⟨rfl, ?_, ?_, h9⟩⟩
    · rw [lpushbuffer_grow _ _ _ _ L hfn]
      simp only [lpushbuffer, lua_touserdata, Bool.not_true, Bool.false_eq_true, if_false]
      rw [if_neg (by simp), if_neg (by rw [grow_free_node]; simp), grow_free_node]
      exact hrun
    · rw [h12, grow_chunks]
      simp [hfn]
    · rw [h12, grow_chunks]
    · rw [h11, grow_length]

theorem lpushbuffer_acquire_witness :
    ∃ f sb' L',
      lpushbuffer (.userdata demo_queue) true (some { addr := 300, bytes := [6, 7] }) 2 demo_state
        = .ok ([.integer (to_int (demo_queue.size + to_int 2))], sb', L') ∧
      sb'.tail = some f ∧
      L'.nodes[f]?
        = some { msg := some { addr := 300, bytes := [6, 7] }, sz := to_int 2, next := none } ∧
      (L'.chunks.length = demo_state.chunks.length + 1 ↔ demo_state.free_node = none) ∧
      (demo_state.free_node ≠ none →
        demo_state.free_node = some f ∧ L'.chunks = demo_state.chunks ∧
        L'.nodes.length = demo_state.nodes.length ∧
        (∃ nf, demo_state.nodes[f]? = some nf ∧ L'.free_node = nf.next) ∧
        linked L'.nodes L'.free_node ([2] : List Nat).tail = true) ∧
      (demo_state.free_node = none →
        f = demo_state.nodes.length ∧
        L'.chunks = demo_state.chunks
          ++ [{ base := demo_state.nodes.length, count := grow_size demo_state }] ∧
        L'.nodes.length = demo_state.nodes.length + grow_size demo_state ∧
        linked L'.nodes L'.free_node
          (List.range' (demo_state.nodes.length + 1) (grow_size demo_state - 1)) = true) :=
  lpushbuffer_acquire demo_queue demo_state [0, 1] [2] { addr := 300, bytes := [6, 7] } 2
    demo_queue_ok (by decide) (by decide)

/-! ## Teardown releases what is still held -/

theorem skynet_free_nodes (L : State) (msg : Option raw_block) :
    (skynet_free L msg).nodes = L.nodes := by
  cases msg <;> rfl

theorem lfreepool_node_length (L : State) (a : Nat) :
    (lfreepool_node L a).nodes.length = L.nodes.length := by
  unfold lfreepool_node
  split
  · rfl
  · split
    · rfl
    · simp [store, skynet_free_nodes]

theorem lfreepool_node_get_ne (L : State) (a b : Nat) (h : a ≠ b) :
    (lfreepool_node L a).nodes[b]? = L.nodes[b]? := by
  unfold lfreepool_node
  split
  · rfl
  · split
    · rfl
    · simp only [store, skynet_free_nodes]
      exact List.getElem?_set_ne h

theorem lfreepool_node_freed (L : State) (a : Nat) :
    (lfreepool_node L a).freed = held_addrs L.nodes [a] ++ L.freed := by
  unfold lfreepool_node
  split
  · rename_i hn
    simp [held_addrs, hn]
  · rename_i node hn
    split
    · rename_i hm
      simp [held_addrs, hn, hm]
    · rename_i b hm
      simp [held_addrs, hn, hm, store, skynet_free]

theorem lfreepool_node_msg (L : State) (a b : Nat) (n : buffer_node)
    (hn : (lfreepool_node L a).nodes[b]? = some n)
    (hb : b = a ∨ ∀ m, L.nodes[b]? = some m → m.msg = none) : n.msg = none := by
  unfold lfreepool_node at hn
  split at hn
  · rename_i hnone
    rcases hb with rfl | hb
    · rw [hnone] at hn
      cases hn
    · exact hb n hn
  · rename_i node hnode
    split at hn
    · rename_i hm
      rcases hb with rfl | hb
      · rw [hnode] at hn
        cases hn
        exact hm
      · exact hb n hn
    · rename_i blk hm
      simp only [store, skynet_free_nodes] at hn
      by_cases hab : a = b
      · subst hab
        have hlt : a < L.nodes.length := by
          by_contra hge
          rw [List.getElem?_eq_none (by omega)] at hnode
          cases hnode
        rw [List.getElem?_set_self hlt] at hn
        cases hn
        rfl
      · rw [List.getElem?_set_ne hab] at hn
        rcases hb with rfl | hb
        · exact absurd rfl hab
        · exact hb n hn

/-- The sweep over the addresses `xs`, each once, releases the blocks held there. -/
theorem sweep_freed (xs : List Nat) :
    ∀ (L : State), xs.Nodup →
      (xs.foldl lfreepool_node L).freed.Perm (L.freed ++ held_addrs L.nodes xs) := by
  induction xs with
  | nil =>
    intro L _
    simp [held_addrs]
  | cons x xs ih =>
    intro L hnd
    have hx : x ∉ xs := (List.nodup_cons.1 hnd).1
    have h1 := ih (lfreepool_node L x) (List.nodup_cons.1 hnd).2
    have h2 : held_addrs (lfreepool_node L x).nodes xs = held_addrs L.nodes xs :=
      held_addrs_congr _ _ xs (fun a ha =>
        lfreepool_node_get_ne L x a (fun e => hx (by rw [e]; exact ha)))
    rw [List.foldl_cons]
    refine h1.trans ?_
    rw [h2, lfreepool_node_freed]
    have h3 : held_addrs L.nodes (x :: xs) = held_addrs L.nodes [x] ++ held_addrs L.nodes xs :=
      held_addrs_append L.nodes [x] xs
    rw [h3]
    rw [List.perm_iff_count]
    intro b
    simp only [List.count_append]
    omega

theorem sweep_msg (xs : List Nat) :
    ∀ (L : State) (b : Nat) (n : buffer_node), (xs.foldl lfreepool_node L).nodes[b]? = some n →
      (b ∈ xs ∨ ∀ m, L.nodes[b]? = some m → m.msg = none) → n.msg = none := by
  induction xs with
  | nil =>
    intro L b n hn hb
    rcases hb with hb | hb
    · cases hb
    · exact hb n hn
  | cons x xs ih =>
    intro L b n hn hb
    rw [List.foldl_cons] at hn
    refine ih (lfreepool_node L x) b n hn ?_
    by_cases hbx : b ∈ xs
    · exact Or.inl hbx
    · right
      intro m hm
      refine lfreepool_node_msg L x b m hm ?_
      rcases hb with hb | hb
      · rcases List.mem_cons.1 hb with e | e
        · exact Or.inl e
        · exact absurd e hbx
      · exact Or.inr hb

theorem sweep_length (xs : List Nat) :
    ∀ (L : State), (xs.foldl lfreepool_node L).nodes.length = L.nodes.length := by
  induction xs with
  | nil => intro L; rfl
  | cons x xs ih =>
    intro L
    rw [List.foldl_cons, ih, lfreepool_node_length]

theorem lfreepool_eq (c : chunk) (L : State) :
    lfreepool c L = (List.range' c.base c.count).foldl lfreepool_node L := by
  unfold lfreepool
  rw [List.range'_eq_map_range, List.foldl_map]

theorem teardown_eq (L : State) :
    teardown L = (chunk_addrs L.chunks).foldl lfreepool_node L := by
  unfold teardown
  generalize L.chunks = cs
  induction cs generalizing L with
  | nil => rfl
  | cons c cs ih =>
    rw [List.foldl_cons, ih]
    simp only [chunk_addrs, List.map_cons, List.flatten_cons, List.foldl_append, lfreepool_eq]

theorem held_addrs_null (nodes : List buffer_node) (fs : List Nat)
    (h : ∀ a ∈ fs, is_null nodes a) : held_addrs nodes fs = [] := by
  induction fs with
  | nil => rfl
  | cons x xs ih =>
    obtain ⟨n, hn, hm, _⟩ := h x (List.mem_cons_self _ _)
    have := ih (fun a ha => h a (List.mem_cons_of_mem _ ha))
    simp only [held_addrs, List.filterMap_cons, hn, hm, Option.map_none'] at this ⊢
    exact this

/-- C16 (exactly-once release). After any calls from the fresh pool followed by teardown,
the blocks released over the whole run are the blocks pushed, each as often as it was
pushed: no pushed block is left unreleased, none is released twice when no address was
pushed twice, and every node of every slab holds no block. -/
theorem release_exactly_once (ops : List Op) (W : World) (h : Reach ops W) :
    (teardown W.L).freed.Perm (pushed ops) ∧
    (∀ b, (teardown W.L).freed.count b = (pushed ops).count b) ∧
    ((pushed ops).Nodup → (teardown W.L).freed.Nodup) ∧
    (∀ a ∈ chunk_addrs W.L.chunks,
      ∃ n, (teardown W.L).nodes[a]? = some n ∧ n.msg = none) := by
  obtain ⟨ass, fs, hW⟩ := reach_world_ok ops W h
  have hlen : (teardown W.L).nodes.length = W.L.nodes.length := by
    rw [teardown_eq, sweep_length]
  have hperm : (teardown W.L).freed.Perm (pushed ops) := by
    rw [teardown_eq, hW.slabs]
    refine (sweep_freed _ W.L (List.nodup_range _)).trans ?_
    refine List.Perm.trans ?_ hW.blocks
    refine List.Perm.append_left _ ?_
    refine (held_addrs_perm _ _ _ hW.perm.symm).trans ?_
    rw [held_addrs_append, held_addrs_null _ fs hW.free_null, List.nil_append]
  refine ⟨hperm, fun b => hperm.count_eq b, fun hnd => (List.Perm.nodup_iff hperm).2 hnd, ?_⟩
  intro a ha
  have halt : a < (teardown W.L).nodes.length := by
    rw [hW.slabs, List.mem_range] at ha
    omega
  refine ⟨(teardown W.L).nodes[a], List.getElem?_eq_getElem halt, ?_⟩
  have hn : (teardown W.L).nodes[a]? = some (teardown W.L).nodes[a] :=
    List.getElem?_eq_getElem halt
  exact sweep_msg _ W.L a _ ((congrArg (fun M => M.nodes[a]?) (teardown_eq W.L)).symm.trans hn)
    (Or.inl ha)

theorem release_exactly_once_witness :
    (teardown line_world.L).freed.Perm (pushed line_ops.reverse) ∧
    (∀ b, (teardown line_world.L).freed.count b = (pushed line_ops.reverse).count b) ∧
    ((pushed line_ops.reverse).Nodup → (teardown line_world.L).freed.Nodup) ∧
    (∀ a ∈ chunk_addrs line_world.L.chunks,
      ∃ n, (teardown line_world.L).nodes[a]? = some n ∧ n.msg = none) :=
  release_exactly_once line_ops.reverse line_world line_world_reach

/-! ## pop with a negative size -/

/-- On a well-formed queue with `size >= 0`, `lpopbuffer` with a size that is negative as a
C `int` passes the guard `sb->size < sz || sz == 0` and does not return: `pop_lstring` reads
`head->sz` on an empty queue and asks `lua_pushlstring` for a negative length otherwise. -/
theorem lpopbuffer_negative (fuel : Nat) (sb : socket_buffer) (L : State) (as : List Nat)
    (k : Int) (hq : queue_ok L sb as) (hsize : 0 ≤ sb.size) (hk : to_int k < 0) :
    ∃ e, lpopbuffer fuel (.userdata sb) true k L = .error e := by
  obtain ⟨e, he⟩ := pop_lstring_negative fuel sb L as (to_int k) hq hk
  refine ⟨e, ?_⟩
  simp only [lpopbuffer, lua_touserdata, Bool.not_true, Bool.false_eq_true, if_false]
  rw [if_neg (by omega), he]

/-- C21 (pop with a negative size) fails on the code: `pop(-1)` on the queue `lnewbuffer`
makes over the fresh pool dereferences the null `head`, and on the two-node queue
`line_queue` it asks for a string of negative length, which Lua refuses with an error;
`pop(0)` on the same queues returns nil and the size and leaves everything as it was. -/
theorem lpopbuffer_negative_faults :
    (∀ fuel, lpopbuffer fuel (.userdata lnewbuffer) true (-1) fresh_state
      = .error .null_deref) ∧
    (∀ fuel, lpopbuffer fuel (.userdata line_queue) true (-1) line_state
      = .error .lua_error) ∧
    (∀ fuel, lpopbuffer fuel (.userdata lnewbuffer) true 0 fresh_state
      = .ok ([.nil, .integer 0], lnewbuffer, fresh_state)) ∧
    (∀ fuel, lpopbuffer fuel (.userdata line_queue) true 0 line_state
      = .ok ([.nil, .integer 5], line_queue, line_state)) :=
  ⟨fun _ => rfl, fun _ => rfl, fun _ => rfl, fun _ => rfl⟩

/-! ## readLine over a block of length 0 -/

theorem empty_head_world_run : run 0 empty_head_ops fresh_world = .ok empty_head_world := rfl

theorem empty_middle_world_run :
    run 0 empty_middle_ops fresh_world = .ok empty_middle_world := rfl

theorem empty_head_world_reach : Reach empty_head_ops.reverse empty_head_world := by
  have := reach_of_run 0 empty_head_ops [] fresh_world empty_head_world Reach.init (by decide)
    empty_head_world_run
  simpa using this

theorem empty_middle_world_reach : Reach empty_middle_ops.reverse empty_middle_world := by
  have := reach_of_run 0 empty_middle_ops [] fresh_world empty_middle_world Reach.init
    (by decide) empty_middle_world_run
  simpa using this

/-- C22 (readLine with zero-length blocks) fails on the code. After a new queue, the push of
a block without bytes and the push of `"ab"`, the unread bytes are `"ab"` and the separator
`"b"` occurs in them, but `readLine("b")`, in either mode, does not return: at `i = 1` the
scan is still on the empty head node with `from = 1`, `check_sep` moves the separator
pointer back by one and `memcmp` reads the byte before the separator. The same happens
with the empty block in the middle (`"a"`, `""`, `"bc"` and the separator `"c"`). -/
theorem lreadline_empty_block_faults :
    run 0 empty_head_ops fresh_world = .ok empty_head_world ∧
    unread empty_head_world.L empty_head_queue [0, 1] = [97, 98] ∧
    (∀ fuel tbl, lreadline (fuel + 3) (.userdata empty_head_queue) tbl [98] empty_head_world.L
      = .error .out_of_bounds) ∧
    check_sep 2 empty_head_world.L (some 0) 1 [98] 0 1 = .error .out_of_bounds ∧
    run 0 empty_middle_ops fresh_world = .ok empty_middle_world ∧
    unread empty_middle_world.L empty_middle_queue [0, 1, 2] = [97, 98, 99] ∧
    (∀ fuel tbl, lreadline (fuel + 4) (.userdata empty_middle_queue) tbl [99]
      empty_middle_world.L = .error .out_of_bounds) :=
  ⟨rfl, rfl, fun _ _ => rfl, rfl, rfl, rfl, fun _ _ => rfl⟩

/-! ## Every call of `check_sep` stays inside the queue -/

end LuaSocket
